import Mathlib

/-!
# HMPdetector: window, scoring and publication of the classifier

A shallow embedding of the classifier of the HMPdetector repository
(`classifier.cpp`, `utils.cpp`) and the properties proved about it.

Conventions of the embedding:

* `float` / `double` values are modelled by exact rationals (`ℚ`);
* an Armadillo matrix (`arma::mat`) is the list of its rows, a cube
  (`arma::cube`) the list of its slices;
* Armadillo checks the bounds and the shapes of every access and throws when
  one is wrong: such an operation returns `Option`, and `none` is the
  exception; a function that lets the exception escape returns `none` too;
* `std::vector::operator[]` is unchecked: it is modelled by a total read, and
  the theorems carry the length hypotheses under which the read is in range;
* the counter of samples that `createWindow` increments on every call is an
  `int` of 32 bits: its increment wraps past `INT_MAX` (`wrapInt`), and the
  theorems on the window carry the bound on the number of samples under which
  it does not; the other `int` values are integers (their overflow is outside
  the model).
-/

namespace HMP

/-! ## Matrices -/

/-- An Armadillo matrix, as the list of its rows. -/
abbrev Mat := List (List ℚ)

/-- An Armadillo cube, as the list of its slices. -/
abbrev Cube := List Mat

/-- Number of rows of a matrix (`n_rows`). -/
def Mat.n_rows (m : Mat) : Nat := m.length

/-- Number of columns of a matrix (`n_cols`): the length of its rows. -/
def Mat.n_cols (m : Mat) : Nat :=
  match m with
  | [] => 0
  | r :: _ => r.length

/-- A matrix of `r` rows and `c` columns: a list of `r` rows of length `c`. -/
def Mat.HasShape (m : Mat) (r c : Nat) : Prop :=
  m.length = r ∧ ∀ row ∈ m, row.length = c

instance (m : Mat) (r c : Nat) : Decidable (Mat.HasShape m r c) := by
  unfold Mat.HasShape; infer_instance

/-- The matrix `zeros<mat>(r, c)`. -/
def zeros (r c : Nat) : Mat := List.replicate r (List.replicate c 0)

/-- Read access `m.row(i)`: the row as a `1 x n_cols` view; an index that is
negative (it wraps to a huge unsigned value) or past the last row throws. -/
def Mat.row (m : Mat) (i : Int) : Option (List ℚ) :=
  if i < 0 then none else m[i.toNat]?

/-- The assignment `m.row(i) = r` of a `1 x k` source: the row index must be
in range and `k` must be the column count of `m`. -/
def Mat.setRow (m : Mat) (i : Int) (r : List ℚ) : Option Mat :=
  if i < 0 then none
  else if i.toNat < m.length ∧ r.length = m.n_cols then some (m.set i.toNat r)
  else none

/-- The source of an assignment `m.row(i) = X` when `X` is a whole matrix:
`X` must have exactly one row. -/
def Mat.asRow (x : Mat) : Option (List ℚ) :=
  match x with
  | [r] => some r
  | _ => none

/-! ## The sliding window (`Classifier::createWindow`) -/

/-- One pass of the loop `for (i = 0; i < N - 1; i++) window.row(i) =
window.row(i + 1);` of `createWindow`. -/
def shiftStep (window : Mat) (i : Nat) : Option Mat := do
  let r ← window.row ((i : Int) + 1)
  window.setRow (i : Int) r

/-- The value that a 32-bit `int` holds after an addition whose exact result
is `x`: past `INT_MAX` it wraps to `INT_MIN` (two's complement). -/
def wrapInt (x : Int) : Int := (x + 2147483648) % 4294967296 - 2147483648

/-- The function `Classifier::createWindow(one_sample, window, N, numWritten)`:
the result is the new window and the new `numWritten`. The counter is an
`int`: `numWritten = numWritten + 1` is computed on 32 bits. -/
def createWindow (one_sample : Mat) (window : Mat) (N : Int) (numWritten : Int) :
    Option (Mat × Int) :=
  if numWritten < N then do
    let s ← one_sample.row 0
    let w ← window.setRow numWritten s
    pure (w, wrapInt (numWritten + 1))
  else do
    let w ← (List.range (N - 1).toNat).foldlM shiftStep window
    let s ← Mat.asRow one_sample
    let w ← w.setRow (N - 1) s
    pure (w, wrapInt (numWritten + 1))

/-- Successive calls of `createWindow`, one per acquired sample, on the same
window and counter. -/
def feedWindow (N : Int) (samples : List Mat) (st : Mat × Int) : Option (Mat × Int) :=
  samples.foldlM (fun s x => createWindow x s.1 N s.2) st

/-! ## Signal utilities (`utils.cpp`) -/

/-- The transpose `m.t()`. -/
def Mat.t (m : Mat) : Mat :=
  (List.range m.n_cols).map fun j => m.map fun row => row.getD j 0

/-- The view `row.submat(r, c1, r, c2)` inside one row: the columns `c1..c2`;
it throws when `c1 > c2` or `c2` is past the last column. -/
def subvec (row : List ℚ) (c1 c2 : Nat) : Option (List ℚ) :=
  if c1 ≤ c2 ∧ c2 < row.length then some ((row.drop c1).take (c2 - c1 + 1)) else none

/-- The assignment `window.submat(0, c1, 0, c2) = x` on a one-row matrix: it
throws when the view is out of range or when `x` has another number of
columns than the view. -/
def assignSubvec (window : List ℚ) (c1 c2 : Nat) (x : List ℚ) : Option (List ℚ) :=
  if c1 ≤ c2 ∧ c2 < window.length ∧ x.length = c2 - c1 + 1 then
    some (window.take c1 ++ x ++ window.drop (c2 + 1))
  else none

/-- Inner loop of `median`: the index of the first smallest entry among the
positions `i..n-1` (`if (tempVec(min) > tempVec(j)) min = j;`). -/
def minIndexFrom (tempVec : List ℚ) (i : Nat) : Nat :=
  (List.range' i (tempVec.length - i)).foldl
    (fun min j => if tempVec.getD min 0 > tempVec.getD j 0 then j else min) i

/-- One pass of the outer loop of `median`: swap entry `i` with the smallest
entry of `i..n-1`. -/
def selectionPass (tempVec : List ℚ) (i : Nat) : List ℚ :=
  let min := minIndexFrom tempVec i
  let temp := tempVec.getD i 0
  (tempVec.set i (tempVec.getD min 0)).set min temp

/-- The function `median(vector)`: selection sort, then the entry of index
`n_cols / 2`; on an empty vector that read is out of range. -/
def median (vector : List ℚ) : Option ℚ :=
  let tempVec := (List.range vector.length).foldl selectionPass vector
  tempVec[vector.length / 2]?

/-- The value `n_cols - 1 - step` of `medianFilter`, computed on unsigned
64-bit words: it wraps when `n_cols <= step`. -/
def lastFullColumn (n_cols step : Nat) : Nat :=
  (((n_cols : Int) - 1 - (step : Int)) % (2 ^ 64 : Int)).toNat

/-- Body of the loops of `medianFilter` for one row and one column `i`: build
the window and take its median. A negative `size` cannot be allocated. -/
def medianFilterAt (n_cols : Nat) (row : List ℚ) (size : Int) (i : Nat) : Option ℚ :=
  if size < 0 then none
  else
    let n := size.toNat
    let step := n / 2
    let window := List.replicate n (0 : ℚ)
    do
      let window ←
        if step ≤ i ∧ i ≤ lastFullColumn n_cols step then
          subvec row (i - step) (i + step)
        else if i < step then do
          let x ← subvec row 0 step
          assignSubvec window step (n - 1) x
        else if i > lastFullColumn n_cols step then do
          let x ← subvec row (i - step) (n_cols - 1)
          assignSubvec window 0 step x
        else pure window
      median window

/-- The function `medianFilter(matrix, size)`: every entry is replaced by the
median of the window built around it in the unfiltered matrix. -/
def medianFilter (matrix : Mat) (size : Int) : Option Mat :=
  matrix.mapM fun row =>
    (List.range matrix.n_cols).mapM fun i => medianFilterAt matrix.n_cols row size i

/-- The function `floatToMat(matrix, Nrows, Ncols)`: read the `Nrows x Ncols`
entries of the array. -/
def floatToMat (matrix : List (List ℚ)) (Nrows Ncols : Nat) : Mat :=
  (List.range Nrows).map fun i => (List.range Ncols).map fun j => (matrix.getD i []).getD j 0

/-- The function `matToFloat(matrix)`: the array of the rows. -/
def matToFloat (matrix : Mat) : List (List ℚ) := matrix

/-- The function `ChebyshevFilter(matrix)`. The cascade of the DSP library
(`filter.process`, outside the repository) is the parameter `process`: from
the number of samples and the channel arrays to the arrays after the call. -/
def ChebyshevFilter (process : Nat → List (List ℚ) → List (List ℚ)) (matrix : Mat) : Mat :=
  let floatMatrix := process matrix.n_cols (matToFloat matrix)
  floatToMat floatMatrix matrix.n_rows matrix.n_cols

/-- The difference `a - b` of two matrices: the shapes must agree. -/
def Mat.sub (a b : Mat) : Option Mat :=
  if a.n_rows = b.n_rows ∧ a.n_cols = b.n_cols then
    some (List.zipWith (fun ra rb => List.zipWith (fun x y => x - y) ra rb) a b)
  else none

/-- The sum `a + b` of two matrices: the shapes must agree. -/
def Mat.add (a b : Mat) : Option Mat :=
  if a.n_rows = b.n_rows ∧ a.n_cols = b.n_cols then
    some (List.zipWith (fun ra rb => List.zipWith (fun x y => x + y) ra rb) a b)
  else none

/-! ## Filtering of the window (`Classifier::analyzeWindow`) -/

/-- The median-filtered window of `analyzeWindow` (`clean_window`): median of
size 3 along time, on each axis. -/
def cleanWindow (window : Mat) : Option Mat := do
  let clean_window ← medianFilter window.t 3
  pure clean_window.t

/-- The function `Classifier::analyzeWindow(window, gravity, body)`: the
result is the pair `(gravity, body)`. -/
def analyzeWindow (process : Nat → List (List ℚ) → List (List ℚ)) (window : Mat) :
    Option (Mat × Mat) := do
  let clean_window ← cleanWindow window
  let tempgr := clean_window.t
  let gravity := (ChebyshevFilter process tempgr).t
  let body ← clean_window.sub gravity
  pure (gravity, body)

/-! ## Dynamic models (`DYmodel`) -/

/-- The class `DYmodel`: the runtime model of one motion primitive. -/
structure DYmodel where
  /-- name of the HMP within the dataset -/
  HMPname : String
  /-- number of samples in the model -/
  size : Int
  /-- weight of the gravity feature -/
  gravityWeight : ℚ
  /-- weight of the body acc. feature -/
  bodyWeight : ℚ
  /-- max distance for possible motion occurrence -/
  threshold : ℚ
  /-- gravity expected points -/
  gP : Mat
  /-- gravity set of covariance matrices -/
  gS : Cube
  /-- body acc. expected points -/
  bP : Mat
  /-- body acc. set of covariance matrices -/
  bS : Cube
deriving DecidableEq

/-- The constructor `DYmodel::DYmodel(HMPn, gW, bW, th)` (and `build`); the
four matrices read by `loadMu` and `loadSigma` from the model files are the
parameters `bP`, `bS`, `gP`, `gS`. -/
def DYmodel.build (HMPn : String) (gW bW th : ℚ) (bP : Mat) (bS : Cube) (gP : Mat) (gS : Cube) :
    DYmodel :=
  { HMPname := HMPn, gravityWeight := gW, bodyWeight := bW, threshold := th,
    bP := bP, bS := bS, gP := gP, gS := gS, size := (gP.n_cols : Int) }

/-! ## Scoring (`mahalanobisDist`, `compareOne`, `compareAll`) -/

/-- Read access `m.col(j)`: the column as a list; it throws past the last
column. -/
def Mat.col (m : Mat) (j : Nat) : Option (List ℚ) :=
  if j < m.n_cols then some (m.map fun row => row.getD j 0) else none

/-- The view `m.rows(a, b)`: it throws when `a > b` or `b` is not a row index
(a negative bound wraps to a huge unsigned value). -/
def Mat.rows (m : Mat) (a b : Int) : Option Mat :=
  if 0 ≤ a ∧ a ≤ b ∧ b < (m.n_rows : Int) then
    some ((m.drop a.toNat).take (b.toNat - a.toNat + 1))
  else none

/-- The difference of two column vectors: the lengths must agree. -/
def vecSub (a b : List ℚ) : Option (List ℚ) :=
  if a.length = b.length then some (List.zipWith (fun x y => x - y) a b) else none

/-- The product of a row vector and a matrix: the length of the vector must
be the row count of the matrix. -/
def rowTimes (v : List ℚ) (m : Mat) : Option (List ℚ) :=
  if v.length = m.n_rows then
    some ((List.range m.n_cols).map fun j =>
      (List.zipWith (fun x row => x * row.getD j 0) v m).sum)
  else none

/-- The product of a row vector and a column vector (entry `(0,0)` of the
`1 x 1` result): the lengths must agree. -/
def rowTimesCol (v w : List ℚ) : Option ℚ :=
  if v.length = w.length then some (List.zipWith (fun x y => x * y) v w).sum else none

/-- The determinant of a `3 x 3` matrix given by its entries. -/
def det3 (a b c d e f g h k : ℚ) : ℚ :=
  a * (e * k - f * h) - b * (d * k - f * g) + c * (d * h - e * g)

/-- The inverse `S.i()` of a covariance slice. A singular matrix throws. The
vector multiplied by the inverse in `mahalanobisDist` has 3 entries (it is a
column of a matrix built by `zeros<mat>(3, ...)`), so with a slice of another
shape either the inverse or the product throws: only the `3 x 3` case can
return. -/
def Mat.i (s : Mat) : Option Mat :=
  match s with
  | [[a, b, c], [d, e, f], [g, h, k]] =>
    let det := det3 a b c d e f g h k
    if det = 0 then none
    else some
      [[(e * k - f * h) / det, (c * h - b * k) / det, (b * f - c * e) / det],
       [(f * g - d * k) / det, (a * k - c * g) / det, (c * d - a * f) / det],
       [(d * h - e * g) / det, (b * g - a * h) / det, (a * e - b * d) / det]]
  | _ => none

/-- The function `Classifier::mahalanobisDist(index, trial, model, variance)`. -/
def mahalanobisDist (index : Nat) (trial model : Mat) (variance : Cube) : Option ℚ := do
  let tc ← trial.col index
  let mc ← model.col index
  let difference ← vecSub tc mc
  let slice ← variance[index]?
  let inv ← slice.i
  let left ← rowTimes difference inv
  rowTimesCol left difference

/-- The loop of `compareOne` that discards the "time" row of a model:
`reference = zeros<mat>(3, P.n_cols)`, then `reference.row(i) = P.row(i + 1)`
for `i = 0, 1, 2`. -/
def referenceRows (P : Mat) : Option Mat :=
  (List.range 3).foldlM (fun (reference : Mat) (i : Nat) => do
      let r ← P.row ((i : Int) + 1)
      reference.setRow (i : Int) r)
    (zeros 3 P.n_cols)

/-- The value `mean(v)` of a column: it throws on an empty column. -/
def mean (v : List ℚ) : Option ℚ :=
  if v.length = 0 then none else some (v.sum / (v.length : ℚ))

/-- The function `Classifier::compareOne(Tgravity, Tbody, MODEL)`. The list
`dist` holds the rows `(dist(i,0), dist(i,1))`. -/
def compareOne (Tgravity Tbody : Mat) (MODEL : DYmodel) : Option ℚ := do
  let gravity ← Tgravity.rows 0 (MODEL.size - 1)
  let body ← Tbody.rows 0 (MODEL.size - 1)
  let numPoints := MODEL.gS.length
  let gravity := gravity.t
  let body := body.t
  let reference_G ← referenceRows MODEL.gP
  let reference_B ← referenceRows MODEL.bP
  let dist ← (List.range numPoints).mapM fun i => do
    let dg ← mahalanobisDist i gravity reference_G MODEL.gS
    let db ← mahalanobisDist i body reference_B MODEL.bS
    pure (dg, db)
  let distanceG ← mean (dist.map Prod.fst)
  let distanceB ← mean (dist.map Prod.snd)
  pure (MODEL.gravityWeight * distanceG + MODEL.bodyWeight * distanceB)

/-- The class `Classifier` (the fields used by the scoring). -/
structure Classifier where
  /-- number of considered models -/
  nbM : Int
  /-- set of considered models -/
  set : List DYmodel
  /-- size of the largest stored model -/
  window_size : Int
deriving DecidableEq

/-- The possibility of one model in `compareAll`:
`p = 1 - distance / threshold; if (p < 0) p = 0;`. -/
def possibilityOf (distance threshold : ℚ) : ℚ :=
  let p := 1 - distance / threshold
  if p < 0 then 0 else p

/-- First loop of `compareAll`: `distance[i] = compareOne(gravity, body,
set[i])` for `i < nbM`. -/
def distances (c : Classifier) (gravity body : Mat) : Option (List ℚ) :=
  (List.range c.nbM.toNat).mapM fun i => do
    let m ← c.set[i]?
    compareOne gravity body m

/-- The function `Classifier::compareAll(gravity, body, possibilities)`: the
result is the vector `possibilities` after the call. -/
def compareAll (c : Classifier) (gravity body : Mat) (possibilities : List ℚ) :
    Option (List ℚ) := do
  let distance ← distances c gravity body
  pure ((List.range c.nbM.toNat).foldl
    (fun ps i => ps.set i
      (possibilityOf (distance.getD i 0) ((c.set[i]?.map DYmodel.threshold).getD 0)))
    possibilities)

/-! ## Construction of the classifier -/

/-- One pass of the loop on the window size:
`if (set[i].size > temp_ws) temp_ws = set[i].size;`. -/
def windowSizeStep (set : List DYmodel) (temp_ws : Int) (i : Nat) : Int :=
  match set[i]? with
  | some m => if m.size > temp_ws then m.size else temp_ws
  | none => temp_ws

/-- The loop of the constructor that computes the size of the window:
`temp_ws = set[0].size`, then the maximum with `set[i].size` for
`1 <= i < nbM`. On an empty set `set[0]` does not exist. -/
def windowSize (nbM : Int) (set : List DYmodel) : Option Int :=
  match set with
  | [] => none
  | m0 :: _ => some ((List.range' 1 (nbM.toNat - 1)).foldl (windowSizeStep set) m0.size)

/-- The constructor `Classifier::Classifier` (and `buildSet`): `models` are
the `nbM` models built from the lines of `Classifierconfig.txt`. -/
def Classifier.create (models : List DYmodel) : Option Classifier := do
  let ws ← windowSize (models.length : Int) models
  pure { nbM := (models.length : Int), set := models, window_size := ws }

/-! ## Offline test (`Classifier::singleTest`) -/

/-- The variables of the loop of `singleTest` that survive one pass. -/
structure TestState where
  /-- the window of samples -/
  window : Mat
  /-- number of samples acquired by the system -/
  nSamples : Int
  /-- models possibilities -/
  possibilities : List ℚ

/-- What `singleTest` has done: the lines written to the result file, and
whether the loop reached the end of the input (`false`: an exception of the
matrix library left the function). -/
structure TestResult where
  /-- lines of the result file, one possibility vector each -/
  emitted : List (List ℚ)
  /-- the loop consumed every input line -/
  completed : Bool
deriving DecidableEq

/-- Body of the loop of `singleTest` for one input line: the new state and
the line written to the result file, if any. The device driver
(`driver->extractActual`) and the DSP cascade are parameters. -/
def singleTestStep (c : Classifier) (process : Nat → List (List ℚ) → List (List ℚ))
    (driver : String → Mat) (line : String) (st : TestState) :
    Option (TestState × Option (List ℚ)) := do
  let actualSample := driver line
  let (window, nSamples) ← createWindow actualSample st.window c.window_size st.nSamples
  if nSamples ≥ c.window_size then do
    let (gravity, body) ← analyzeWindow process window
    let possibilities ← compareAll c gravity body st.possibilities
    pure ({ window := window, nSamples := nSamples, possibilities := possibilities },
      some ((List.range c.nbM.toNat).map fun i => possibilities.getD i 0))
  else
    pure ({ window := window, nSamples := nSamples, possibilities := st.possibilities }, none)

/-- The loop `for (string line; getline(tf, line); )` of `singleTest`; `out`
is the content of the result file so far. -/
def singleTestLoop (c : Classifier) (process : Nat → List (List ℚ) → List (List ℚ))
    (driver : String → Mat) : List String → TestState → List (List ℚ) → TestResult
  | [], _, out => { emitted := out, completed := true }
  | line :: rest, st, out =>
    match singleTestStep c process driver line st with
    | none => { emitted := out, completed := false }
    | some (st1, o) => singleTestLoop c process driver rest st1 (out ++ o.toList)

/-- The function `Classifier::singleTest(testFile, resultFile)` on the lines
of the test file. -/
def singleTest (c : Classifier) (process : Nat → List (List ℚ) → List (List ℚ))
    (driver : String → Mat) (lines : List String) : TestResult :=
  singleTestLoop c process driver lines
    { window := zeros c.window_size.toNat 3, nSamples := 0,
      possibilities := List.replicate c.nbM.toNat 0 }
    []

/-! ## Publication (`Classifier::publishDynamic`) -/

/-- The values handed to the publisher by `publishDynamic` (before they are
formatted as text). -/
structure Published where
  /-- the possibilities of the `nbM` models -/
  possibilities : List ℚ
  /-- name of the model with the highest possibility, or `NONE` -/
  highest : String
  /-- possibility of no model -/
  other : ℚ
  /-- gap between the two highest possibilities -/
  entropy : ℚ
deriving DecidableEq

/-- One pass of the selection loop of `publishDynamic` on the pair
`(best, secondBest)`: a possibility above the best one shifts the best to
second place, else one above the second replaces the second. -/
def bestStep (possibilities : List ℚ) (bs : Int × Int) (i : Nat) : Int × Int :=
  if possibilities.getD i 0 > possibilities.getD bs.1.toNat 0 then ((i : Int), bs.1)
  else if possibilities.getD i 0 > possibilities.getD bs.2.toNat 0 then (bs.1, (i : Int))
  else bs

/-- The loop of `publishDynamic` that identifies the models with highest and
second-highest possibility: the result is `(best, secondBest)`. -/
def bestLoop (nbM : Int) (possibilities : List ℚ) : Int × Int :=
  (List.range' 1 (nbM.toNat - 1)).foldl (bestStep possibilities) (0, 0)

/-- The function `Classifier::publishDynamic(possibilities)`. -/
def publishDynamic (c : Classifier) (possibilities : List ℚ) : Published :=
  let bs := bestLoop c.nbM possibilities
  let best : Int := if possibilities.getD bs.1.toNat 0 = 0 then -1 else bs.1
  let secondBest : Int := if possibilities.getD bs.2.toNat 0 = 0 then -1 else bs.2
  let highest : String :=
    if best = -1 then "NONE" else (c.set[best.toNat]?.map DYmodel.HMPname).getD ""
  let other : ℚ := if best = -1 then 1 else 1 - possibilities.getD best.toNat 0
  let entropy : ℚ :=
    if best = -1 then -1
    else if secondBest = -1 then possibilities.getD best.toNat 0
    else possibilities.getD best.toNat 0 - possibilities.getD secondBest.toNat 0
  { possibilities := (List.range c.nbM.toNat).map fun i => possibilities.getD i 0,
    highest := highest, other := other, entropy := entropy }

/-! ## Notions of the specification

The statements on the scoring compare the code with the linear algebra of
Mathlib: a covariance slice is read as a `3 x 3` matrix, a row of the window
and a column of the means as vectors of `Fin 3 → ℚ`. -/

/-- The entries of a `3 x 3` covariance slice, as a matrix of Mathlib. -/
def toMatrix3 (s : Mat) : Matrix (Fin 3) (Fin 3) ℚ :=
  Matrix.of fun i j => (s.getD i.val []).getD j.val 0

/-- The first three entries of a list, as a vector. -/
def vec3 (l : List ℚ) : Fin 3 → ℚ := fun k => l.getD k.val 0

/-- Row `i` of a window (`W x 3`): the sample `g_i`. -/
def rowVec (m : Mat) (i : Nat) : Fin 3 → ℚ := vec3 (m.getD i [])

/-- Column `i` of the rows 1..3 of a mean matrix (`4 x L`): the expected
point `mu[1..3, i]`; the time row 0 is left out. -/
def meanVec (P : Mat) (i : Nat) : Fin 3 → ℚ := fun k => (P.getD (k.val + 1) []).getD i 0

/-- The quadratic form `x^T * A * x`. -/
def quadForm (A : Matrix (Fin 3) (Fin 3) ℚ) (x : Fin 3 → ℚ) : ℚ :=
  Matrix.dotProduct x (Matrix.mulVec A x)

/-- A covariance slice that is symmetric positive-definite (`Matrix.PosDef`
of Mathlib on its entries). -/
def IsSPD (s : Mat) : Prop := (toMatrix3 s).PosDef

/-- A covariance slice that is a `3 x 3` invertible matrix. -/
def IsInvertible3 (s : Mat) : Prop := s.HasShape 3 3 ∧ (toMatrix3 s).det ≠ 0

/-- The invariant of the data model on a dynamic model of length `L`: the
means have 4 rows and `L` columns, the covariance cubes have `L` slices, each
an invertible `3 x 3` matrix, and `size` is `L`. -/
def DYmodel.WellFormed (M : DYmodel) (L : Nat) : Prop :=
  M.size = (L : Int) ∧ M.gP.HasShape 4 L ∧ M.bP.HasShape 4 L ∧
    M.gS.length = L ∧ M.bS.length = L ∧
    (∀ s ∈ M.gS, IsInvertible3 s) ∧ (∀ s ∈ M.bS, IsInvertible3 s)

/-- The invariant of the loop of `singleTest` after `k` samples: the window
has `W` rows of 3 columns, the counter is `k` and the possibility vector has
one entry per model. -/
def TestInv (c : Classifier) (W : Nat) (st : TestState) (k : Nat) : Prop :=
  st.window.HasShape W 3 ∧ st.nSamples = (k : Int) ∧ st.possibilities.length = c.nbM.toNat

/-- The number of warm samples among the samples `k+1 .. k+n` of a stream
(those whose number reaches the window size `W`). -/
def warmCount (W k n : Nat) : Nat := (k + n + 1 - W) - (k + 1 - W)

/-- The same count on the `int` counters of `singleTest`: the number of `j` in
`1..n` with `k + j >= W`. -/
def warmCountInt (W k : Int) (n : Nat) : Int := max 0 (k + (n : Int) + 1 - max (k + 1) W)

/-! ## The scenario S2 of the specification -/

/-- The `3 x 3` identity covariance. -/
def identity3 : Mat := [[1, 0, 0], [0, 1, 0], [0, 0, 1]]

/-- The model of scenario S2: `θ = 10`, `wg = 1`, `wb = 0`, `L = 3`, rows
1..3 of the means all zero, identity covariances. -/
def scenarioModel : DYmodel :=
  DYmodel.build "S2" 1 0 10
    [[1, 2, 3], [0, 0, 0], [0, 0, 0], [0, 0, 0]] [identity3, identity3, identity3]
    [[1, 2, 3], [0, 0, 0], [0, 0, 0], [0, 0, 0]] [identity3, identity3, identity3]

/-- The classifier that holds the model of scenario S2 alone. -/
def scenarioClassifier : Classifier :=
  { nbM := 1, set := [scenarioModel], window_size := 3 }

/-- The window of scenario S2 with every axis offset by 1 from the means. -/
def offsetWindow : Mat := [[1, 1, 1], [1, 1, 1], [1, 1, 1]]

/-! ## A library of three named models -/

/-- A classifier with three models named `drink`, `climb` and `sit` (only the
names matter for the publication). -/
def threeModels : Classifier :=
  { nbM := 3,
    set := [DYmodel.build "drink" 1 0 1 [] [] [] [], DYmodel.build "climb" 1 0 1 [] [] [] [],
      DYmodel.build "sit" 1 0 1 [] [] [] []],
    window_size := 1 }

/-! ## Two degenerate model libraries -/

/-- A model of length 1 that satisfies the invariant of the data model: one
mean point and one identity covariance per component. -/
def shortModel : DYmodel :=
  DYmodel.build "one" 1 0 10 [[1], [0], [0], [0]] [identity3] [[1], [0], [0], [0]] [identity3]

/-- The classifier built from `shortModel` alone: the window has one row. -/
def shortClassifier : Classifier :=
  { nbM := 1, set := [shortModel], window_size := 1 }

/-- A model of length 2 whose covariance slices are all zero (singular). -/
def singularModel : DYmodel :=
  DYmodel.build "flat" 1 0 10
    [[1, 2], [0, 0], [0, 0], [0, 0]] [zeros 3 3, zeros 3 3]
    [[1, 2], [0, 0], [0, 0], [0, 0]] [zeros 3 3, zeros 3 3]

/-- The classifier built from `singularModel` alone: the window has two rows. -/
def singularClassifier : Classifier :=
  { nbM := 1, set := [singularModel], window_size := 2 }

/-- A device driver that decodes every line to the sample `(0, 0, 0)`. -/
def zeroDriver (_line : String) : Mat := [[0, 0, 0]]

/-- A low-pass cascade that leaves the channel arrays unchanged. -/
def idleProcess (_numSamples : Nat) (channels : List (List ℚ)) : List (List ℚ) := channels

/-! ## Intervals of activation (`SensingBracelet.cpp`) -/

/-- The constant `pINF`: `std::numeric_limits<int>::max()`. -/
def pINF : Int := 2147483647

/-- The class `Interval`: the interval of activation of one motion primitive.
The fields `open` and `end` of the source are named `open_` and `end_`; the
arrays `start[2]` and `end[2]` are pairs. -/
structure Interval where
  /-- name of the monitored HMP -/
  HMPname : String
  /-- flag for open/closed interval -/
  open_ : Bool
  /-- starting sample of the interval: `[starting_sample; starting_sample]` -/
  start : Int × Int
  /-- ending sample of the interval -/
  end_ : Int × Int
  /-- highest possibility value within the interval -/
  possibility : ℚ
  /-- starting sample possibility value -/
  refPossibility : ℚ
  /-- rising time counter -/
  risingTime : Int
deriving DecidableEq

/-- The constructor `Interval::Interval(HMPn)`. -/
def Interval.create (HMPn : String) : Interval :=
  { HMPname := HMPn, open_ := false, start := (-1, -1), end_ := (-1, pINF),
    possibility := 0, refPossibility := 0, risingTime := 0 }

/-- The method `Interval::setStart(sample)`. -/
def Interval.setStart (I : Interval) (sample : Int) : Interval :=
  { I with start := (sample, sample) }

/-- The method `Interval::setEnd(sample)`. -/
def Interval.setEnd (I : Interval) (sample : Int) : Interval :=
  { I with end_ := (sample, sample) }

/-- The method `Interval::startInterval(this_pos, nSamples, past_pos)`. -/
def Interval.startInterval (I : Interval) (this_pos : ℚ) (nSamples : Int) (past_pos : ℚ) :
    Interval :=
  { I with open_ := true, start := (nSamples, nSamples), end_ := (0, pINF),
           possibility := this_pos, refPossibility := past_pos, risingTime := 1 }

/-- One interval published by the accurate policy: `sink` is 0 for a line of
the result file (`reportSensingBracelet`) and 1 for a tuple on PEIS
(`publishSensingBracelet`); `interval` is the state of `setI[i]` at the call,
of which the text holds `HMPname`, `start`, `end` and `possibility`. -/
structure Publication where
  /-- where the interval is published -/
  sink : Int
  /-- the interval, as it is when it is published -/
  interval : Interval
deriving DecidableEq

/-- One tuple set by the simple policy (`peiskmt_setStringTuple`): the key and
the value before it is formatted as text (the literal `"0"` is the value 0). -/
structure Tuple where
  /-- key of the tuple: `Bracelet.HMP.` and the name of the model -/
  key : String
  /-- value of the tuple -/
  value : ℚ
deriving DecidableEq

/-- The two calls `if (f == 0) reportSensingBracelet(i, rF); if (f == 1)
publishSensingBracelet(i);` of `updateInterval` on the interval `I`. -/
def publishInterval (f : Int) (I : Interval) : List Publication :=
  (if f = 0 then [{ sink := 0, interval := I }] else []) ++
    (if f = 1 then [{ sink := 1, interval := I }] else [])

/-- Body of `SensingBracelet::updateInterval(i, nS, p, pp, f, rF)` on the
interval `setI[i]`: the new interval and what is published. -/
def Interval.updateInterval (I : Interval) (nS : Int) (p pp : ℚ) (f : Int) :
    Interval × List Publication :=
  if p > 0 then
    if I.open_ = false then (I.startInterval p nS pp, [])
    else if p ≥ I.possibility then
      ({ I with end_ := (nS, I.end_.2), possibility := p, risingTime := I.risingTime + 1 }, [])
    else
      let I1 : Interval := { I with risingTime := I.risingTime - 1 }
      let I2 : Interval := if p > pp then { I1 with open_ := false } else I1
      let I3 : Interval :=
        if I2.risingTime = 0 ∧ p < I2.refPossibility then { I2 with open_ := false } else I2
      if I3.risingTime ≥ 0 ∧ p = I3.refPossibility then
        let I4 := I3.setEnd I3.end_.1
        ({ I4 with open_ := false }, publishInterval f I4)
      else (I3, [])
  else if I.open_ = true ∧ I.refPossibility = 0 then
    let I1 := I.setEnd I.end_.1
    ({ I1 with open_ := false }, publishInterval f I1)
  else (I, [])

/-- Body of `SensingBracelet::simpleInterval(i, nS, p, pp)` on the interval
`setI[i]`: the new interval and the tuple set on PEIS. The threshold `0.8` is
the rational `4/5`. -/
def Interval.simpleInterval (I : Interval) (nS : Int) (p pp : ℚ) : Interval × List Tuple :=
  if p > 4 / 5 then
    if I.open_ = false then
      (I.startInterval p nS pp, [{ key := "Bracelet.HMP." ++ I.HMPname, value := p }])
    else
      let I1 : Interval := { I with end_ := (nS, I.end_.2) }
      let I2 : Interval := if p ≥ I1.possibility then { I1 with possibility := p } else I1
      (I2, [{ key := "Bracelet.HMP." ++ I.HMPname, value := p }])
  else if I.open_ = true then
    let I1 := I.setEnd I.end_.1
    ({ I1 with open_ := false }, [{ key := "Bracelet.HMP." ++ I.HMPname, value := 0 }])
  else (I, [])

/-- The class `SensingBracelet` (the fields used by the interval tracking). -/
structure SensingBracelet where
  /-- number of considered models -/
  nbM : Int
  /-- set of the intervals, one per model -/
  setI : List Interval
deriving DecidableEq

/-- The constructor `SensingBracelet::SensingBracelet` (and `buildSet`):
`names` are the `nbM` model names of `Classifierconfig.txt`. -/
def SensingBracelet.create (names : List String) : SensingBracelet :=
  { nbM := (names.length : Int), setI := names.map Interval.create }

/-- A method that works on `setI[i]` alone: `body` is what it does to that
interval and what it publishes. -/
def SensingBracelet.atModel {ε : Type} (sb : SensingBracelet) (i : Nat)
    (body : Interval → Interval × List ε) : SensingBracelet × List ε :=
  match sb.setI[i]? with
  | some I => ({ sb with setI := sb.setI.set i (body I).1 }, (body I).2)
  | none => (sb, [])

/-- The method `SensingBracelet::updateInterval(i, nS, p, pp, f, rF)`. -/
def SensingBracelet.updateInterval (sb : SensingBracelet) (i : Int) (nS : Int) (p pp : ℚ)
    (f : Int) : SensingBracelet × List Publication :=
  sb.atModel i.toNat fun I => I.updateInterval nS p pp f

/-- The method `SensingBracelet::simpleInterval(i, nS, p, pp)`. -/
def SensingBracelet.simpleInterval (sb : SensingBracelet) (i : Int) (nS : Int) (p pp : ℚ) :
    SensingBracelet × List Tuple :=
  sb.atModel i.toNat fun I => I.simpleInterval nS p pp

/-- A loop `for (int i = 0; i < nbM; i++)` whose body is a method on the
model `i`; what the passes publish is collected in order. -/
def SensingBracelet.forModels {ε : Type} (sb : SensingBracelet)
    (body : SensingBracelet → Int → SensingBracelet × List ε) : SensingBracelet × List ε :=
  (List.range sb.nbM.toNat).foldl
    (fun (acc : SensingBracelet × List ε) (i : Nat) =>
      ((body acc.1 (i : Int)).1, acc.2 ++ (body acc.1 (i : Int)).2)) (sb, [])

/-- The variables of the loop of `offlineSensingBracelet` (and of the tracking
part of `onlineSensingBracelet`). -/
structure TrackState (ε : Type) where
  /-- the bracelet, with its intervals -/
  sb : SensingBracelet
  /-- models possibilities -/
  possibilities : List ℚ
  /-- models previous possibilities -/
  past_possibilities : List ℚ
  /-- number of acquired samples -/
  nSamples : Int
  /-- what has been published so far -/
  published : List ε

/-- One pass of the `while` loop of `offlineSensingBracelet` on a group `row`
of `nbM` values read from the possibilities file: the past possibilities are
saved, the new ones are read, every interval is updated with publication on
file (`f = 0`), and the sample counter is incremented. -/
def offlineStep (st : TrackState Publication) (row : List ℚ) : TrackState Publication :=
  let past := st.possibilities
  let r := st.sb.forModels fun sb i =>
    sb.updateInterval i st.nSamples (row.getD i.toNat 0) (past.getD i.toNat 0) 0
  { sb := r.1, possibilities := row, past_possibilities := past,
    nSamples := st.nSamples + 1, published := st.published ++ r.2 }

/-- Body of the last loop of `offlineSensingBracelet` on the interval
`setI[i]`: an interval still open with `refPossibility == 0` is ended,
reported on file and closed. -/
def Interval.closeAtEnd (I : Interval) : Interval × List Publication :=
  if I.open_ = true ∧ I.refPossibility = 0 then
    let I1 := I.setEnd I.end_.1
    ({ I1 with open_ := false }, [{ sink := 0, interval := I1 }])
  else (I, [])

/-- The last loop of `offlineSensingBracelet`: "analyze intervals that are
still open at the end of the file". -/
def closeAllAtEnd (sb : SensingBracelet) : SensingBracelet × List Publication :=
  sb.forModels fun sb i => sb.atModel i.toNat Interval.closeAtEnd

/-- The `while` loop of `offlineSensingBracelet` on the groups of `nbM` values
read from the possibilities file. -/
def offlineLoop (sb : SensingBracelet) (rows : List (List ℚ)) : TrackState Publication :=
  rows.foldl offlineStep
    { sb := sb, possibilities := List.replicate sb.nbM.toNat 0,
      past_possibilities := List.replicate sb.nbM.toNat 0, nSamples := 0, published := [] }

/-- The method `SensingBracelet::offlineSensingBracelet(path, testFile)` on
the groups `rows` of `nbM` values that the file holds: the bracelet on return
and the intervals reported in the result file. -/
def offlineSensingBracelet (sb : SensingBracelet) (rows : List (List ℚ)) :
    SensingBracelet × List Publication :=
  let st := offlineLoop sb rows
  let r := closeAllAtEnd st.sb
  (r.1, st.published ++ r.2)

/-- One pass of the tracking part of the loop of `onlineSensingBracelet` on
the possibility vector `row` written by `compareAll` for a warm sample of
number `nSamples`: the past possibilities are saved and every interval is
updated by the simple policy. -/
def onlineStep (st : TrackState Tuple) (row : List ℚ) : TrackState Tuple :=
  let past := st.possibilities
  let r := st.sb.forModels fun sb i =>
    sb.simpleInterval i st.nSamples (row.getD i.toNat 0) (past.getD i.toNat 0)
  { sb := r.1, possibilities := row, past_possibilities := past,
    nSamples := st.nSamples + 1, published := st.published ++ r.2 }

/-- The tracking part of the loop of `onlineSensingBracelet` on the
possibility vectors of successive warm samples, the first of number `first`. -/
def onlineTracking (sb : SensingBracelet) (first : Int) (rows : List (List ℚ)) :
    TrackState Tuple :=
  rows.foldl onlineStep
    { sb := sb, possibilities := List.replicate sb.nbM.toNat 0,
      past_possibilities := List.replicate sb.nbM.toNat 0, nSamples := first, published := [] }

/-- The possibility stream of the model `i`: column `i` of the rows. -/
def streamOf (rows : List (List ℚ)) (i : Nat) : List ℚ := rows.map fun row => row.getD i 0

/-- The successive calls `simpleInterval(i, nS, poss[i], past_poss[i])` that
the tracking makes for one model on its possibility stream: the sample number
grows by one and the possibility of a call is the past possibility of the
next. -/
def Interval.simpleStream (I : Interval) (nS : Int) (pp : ℚ) : List ℚ → Interval
  | [] => I
  | p :: rest => Interval.simpleStream (I.simpleInterval nS p pp).1 (nS + 1) p rest

/-- The median of three values, as the specification understands it: the
middle one in order. -/
def middle3 (a b c : ℚ) : ℚ := max (min a b) (min (max a b) c)

/-! ## The device driver (`MPU6050.hpp`) -/

/-- The constant `MPU6050::CODED_RANGE`. -/
def CODED_RANGE : Int := 65535

/-- The constant `MPU6050::SENSING_RANGE`: `39.2266`. -/
def SENSING_RANGE : ℚ := 392266 / 10000

/-- The whitespace that the extraction `ss >> x` skips (`std::isspace` in the
classic locale): space, tab, line feed, vertical tab, form feed, carriage
return. -/
def isSpace (c : Char) : Bool := c.toNat = 32 || (9 ≤ c.toNat && c.toNat ≤ 13)

/-- The leading whitespace is skipped. -/
def skipSpaces : List Char → List Char
  | [] => []
  | c :: cs => if isSpace c = true then skipSpaces cs else c :: cs

/-- The decimal digits at the head of the buffer are accumulated; the result
is the number read and what is left of the buffer. -/
def readDigits (acc : Nat) : List Char → Nat × List Char
  | [] => (acc, [])
  | c :: cs =>
    if c.isDigit = true then readDigits (10 * acc + (c.toNat - 48)) cs else (acc, c :: cs)

/-- The extraction `ss >> x` of an `int` from the buffer of a stream:
whitespace, an optional sign, then at least one digit. It fails (`none`) when
no number is there or when the number does not fit a 32-bit `int`; the stream
is then in a failed state and the later variables are never written. -/
def readInt (s : List Char) : Option (Int × List Char) :=
  let s1 := skipSpaces s
  let negative : Bool := s1.head? = some '-'
  let s2 := if s1.head? = some '-' ∨ s1.head? = some '+' then s1.tail else s1
  if s2.head?.map Char.isDigit = some true then
    let r := readDigits 0 s2
    let v : Int := if negative = true then -(r.1 : Int) else (r.1 : Int)
    if -2147483648 ≤ v ∧ v ≤ 2147483647 then some (v, r.2) else none
  else none

/-- The method `MPU6050::extractActual(line)`: the fields `d ax ay az` are
read from the line (the fields `gx gy gz m` are read after them and never
used), and the coded accelerations are scaled in floating point to `m/s^2`.
When one of the four extractions fails the variables hold no value
determined by the line: `none`. -/
def extractActual (line : String) : Option Mat := do
  let (_d, s) ← readInt line.toList
  let (ax, s) ← readInt s
  let (ay, s) ← readInt s
  let (az, _) ← readInt s
  pure [[((ax : ℚ) / (CODED_RANGE : ℚ)) * SENSING_RANGE,
         ((ay : ℚ) / (CODED_RANGE : ℚ)) * SENSING_RANGE,
         ((az : ℚ) / (CODED_RANGE : ℚ)) * SENSING_RANGE]]

/-! ### Lines of integer fields, as the specification describes them -/

/-- A decimal integer as it is written on a line: a sign and digits. -/
structure Literal where
  /-- the literal starts with a minus sign -/
  negative : Bool
  /-- the decimal digits, the most significant first -/
  digits : List Nat
deriving DecidableEq

/-- The characters of a literal. -/
def Literal.chars (l : Literal) : List Char :=
  (if l.negative = true then ['-'] else []) ++ l.digits.map fun d => Char.ofNat (48 + d)

/-- The integer that a literal denotes. -/
def Literal.value (l : Literal) : Int :=
  if l.negative = true then -(Nat.ofDigits 10 l.digits.reverse : Int)
  else (Nat.ofDigits 10 l.digits.reverse : Int)

/-- A literal of an `int` field: at least one digit, every digit below 10,
and a value that fits 32 bits. -/
def Literal.Valid (l : Literal) : Prop :=
  l.digits ≠ [] ∧ (∀ d ∈ l.digits, d < 10) ∧
    -2147483648 ≤ l.value ∧ l.value ≤ 2147483647

/-- A line that carries the integer fields `fields`, separated by whitespace
(and possibly preceded and followed by whitespace). -/
def CarriesFields : List Int → List Char → Prop
  | [], line => ∀ c ∈ line, isSpace c = true
  | v :: vs, line =>
    ∃ (ws : List Char) (l : Literal) (rest : List Char),
      line = ws ++ l.chars ++ rest ∧ (∀ c ∈ ws, isSpace c = true) ∧ l.Valid ∧ l.value = v ∧
        (rest = [] ∨ ∃ c cs, rest = c :: cs ∧ isSpace c = true) ∧ CarriesFields vs rest

/-! ### Sequences of calls on one interval -/

/-- A call of one of the two tracking policies on an interval. -/
inductive IntervalCall where
  /-- a call `updateInterval(i, nS, p, pp, f, rF)` -/
  | update (nS : Int) (p pp : ℚ) (f : Int)
  /-- a call `simpleInterval(i, nS, p, pp)` -/
  | simple (nS : Int) (p pp : ℚ)

/-- The interval after a call. -/
def Interval.call (I : Interval) : IntervalCall → Interval
  | IntervalCall.update nS p pp f => (I.updateInterval nS p pp f).1
  | IntervalCall.simple nS p pp => (I.simpleInterval nS p pp).1

/-- The interval after a sequence of calls. -/
def Interval.calls (I : Interval) (cs : List IntervalCall) : Interval := cs.foldl Interval.call I

/-! ### A model with a negative threshold -/

/-- The model `shortModel` with the threshold `-10`. -/
def negativeModel : DYmodel :=
  DYmodel.build "neg" 1 0 (-10) [[1], [0], [0], [0]] [identity3] [[1], [0], [0], [0]] [identity3]

/-! ## Lemmas on matrices and on the window -/

theorem Mat.HasShape.n_cols_eq {m : Mat} {r c : Nat} (h : m.HasShape r c) (hr : 0 < r) :
    m.n_cols = c := by
  obtain ⟨hl, hc⟩ := h
  cases m with
  | nil => simp at hl; omega
  | cons a t => exact hc a (List.mem_cons_self _ _)

theorem Mat.HasShape.set {m : Mat} {r c : Nat} (h : m.HasShape r c) (i : Nat) (x : List ℚ)
    (hx : x.length = c) : Mat.HasShape (m.set i x) r c := by
  obtain ⟨hl, hc⟩ := h
  refine ⟨by simpa using hl, ?_⟩
  intro row hrow
  rcases List.mem_or_eq_of_mem_set hrow with h1 | h1
  · exact hc row h1
  · exact h1 ▸ hx

theorem Mat.setRow_eq {m : Mat} {r c : Nat} (h : m.HasShape r c) (i : Nat) (hi : i < r)
    (x : List ℚ) (hx : x.length = c) : m.setRow (i : Int) x = some (m.set i x) := by
  have hc := h.n_cols_eq (by omega)
  unfold Mat.setRow
  have : ¬ ((i : Int) < 0) := by omega
  simp [this, h.1, hi, hx, hc]

theorem Mat.row_eq (m : Mat) (i : Nat) : m.row (i : Int) = m[i]? := by
  unfold Mat.row
  have : ¬ ((i : Int) < 0) := by omega
  simp [this]

/-- The shifting loop of `createWindow` after `i` passes. -/
theorem shift_fold {W c : Nat} (w : Mat) (h : w.HasShape W c) (i : Nat) (hi : i + 1 ≤ W) :
    (List.range i).foldlM shiftStep w = some ((w.drop 1).take i ++ w.drop i) ∧
      Mat.HasShape ((w.drop 1).take i ++ w.drop i) W c := by
  induction i with
  | zero => simpa using h
  | succ k ih =>
    obtain ⟨ih1, ih2⟩ := ih (by omega)
    have hlen := h.1
    have hk1 : k + 1 < w.length := by omega
    have hget : ((w.drop 1).take k ++ w.drop k)[k + 1]? = some w[k + 1] := by
      rw [List.getElem?_append_right (by simp)]
      simp [List.length_take, List.getElem?_drop]
      have : min k (w.length - 1) = k := by omega
      rw [this]
      have : k + (k + 1 - k) = k + 1 := by omega
      rw [this, List.getElem?_eq_getElem hk1]
    have hrow : (w[k + 1]).length = c := h.2 _ (List.getElem_mem _)
    have hstep : shiftStep ((w.drop 1).take k ++ w.drop k) k =
        some (((w.drop 1).take k ++ w.drop k).set k w[k + 1]) := by
      unfold shiftStep
      have e : ((k : Int) + 1) = ((k + 1 : Nat) : Int) := by push_cast; rfl
      rw [e, Mat.row_eq, hget]
      simpa using Mat.setRow_eq ih2 k (by omega) _ hrow
    have hset : ((w.drop 1).take k ++ w.drop k).set k w[k + 1] =
        (w.drop 1).take (k + 1) ++ w.drop (k + 1) := by
      apply List.ext_getElem?
      intro j
      simp only [List.getElem?_set, List.getElem?_append, List.length_take, List.length_drop,
        List.getElem?_take, List.getElem?_drop, List.length_append]
      have m1 : min k (w.length - 1) = k := by omega
      have m2 : min (k + 1) (w.length - 1) = k + 1 := by omega
      rw [m1, m2]
      by_cases hj : j < k
      · have : k ≠ j := by omega
        simp [hj, this, show j < k + 1 by omega]
      · by_cases hjk : j = k
        · subst hjk
          simp [hlen]
          have : j < W := by omega
          simp [this, List.getElem?_eq_getElem hk1, Nat.add_comm]
        · have : k ≠ j := by omega
          have h3 : ¬ j < k + 1 := by omega
          simp [hj, this, h3]
          congr 1
          omega
    refine ⟨?_, hset ▸ ih2.set k _ hrow⟩
    rw [List.range_succ, List.foldlM_append, ih1]
    simp [-List.drop_one, hstep, hset]


/-- An `int` within the 32-bit range is held as it is. -/
theorem wrapInt_eq (x : Int) (h1 : -2147483648 ≤ x) (h2 : x ≤ 2147483647) : wrapInt x = x := by
  unfold wrapInt
  omega

/-- The increment of a counter below `INT_MAX` does not wrap. -/
theorem wrapInt_of_nat_succ (k : Nat) (hk32 : k + 1 ≤ 2147483647) :
    wrapInt ((k : Int) + 1) = (k : Int) + 1 :=
  wrapInt_eq _ (by omega) (by omega)

/-- While the window is filling, `createWindow` writes the sample at row
`numWritten`. -/
theorem createWindow_fill {W c : Nat} (w : Mat) (h : w.HasShape W c) (k : Nat) (hk : k < W)
    (hk32 : k + 1 ≤ 2147483647) (s : List ℚ) (hs : s.length = c) :
    createWindow [s] w (W : Int) (k : Int) = some (w.set k s, ((k + 1 : Nat) : Int)) := by
  unfold createWindow
  have : (k : Int) < (W : Int) := by omega
  have hwrap : wrapInt ((k : Int) + 1) = (k : Int) + 1 := wrapInt_of_nat_succ k hk32
  simp [this, Mat.row, Mat.setRow_eq h k hk s hs, hwrap]

/-- Once the window is full, `createWindow` drops the oldest row and appends
the sample. -/
theorem createWindow_shift {W c : Nat} (w : Mat) (h : w.HasShape W c) (hW : 1 ≤ W) (k : Nat)
    (hk : W ≤ k) (hk32 : k + 1 ≤ 2147483647) (s : List ℚ) (hs : s.length = c) :
    createWindow [s] w (W : Int) (k : Int) = some (w.drop 1 ++ [s], ((k + 1 : Nat) : Int)) := by
  unfold createWindow
  rw [wrapInt_of_nat_succ k hk32]
  have h1 : ¬ (k : Int) < (W : Int) := by omega
  have h2 : ((W : Int) - 1).toNat = W - 1 := by omega
  have h3 : ((W : Int) - 1) = ((W - 1 : Nat) : Int) := by omega
  obtain ⟨f1, f2⟩ := shift_fold w h (W - 1) (by omega)
  have hlen := h.1
  have hset : ((w.drop 1).take (W - 1) ++ w.drop (W - 1)).set (W - 1) s = w.drop 1 ++ [s] := by
    apply List.ext_getElem?
    intro j
    simp only [List.getElem?_set, List.getElem?_append, List.length_take, List.length_drop,
      List.getElem?_take, List.getElem?_drop, List.length_append, hlen]
    have m1 : min (W - 1) (W - 1) = W - 1 := by omega
    rw [m1]
    by_cases hj : j < W - 1
    · have : W - 1 ≠ j := by omega
      simp [hj, this]
    · by_cases hjk : j = W - 1
      · subst hjk
        have : W - 1 < W - 1 + (W - (W - 1)) := by omega
        have hW0 : ¬ W = 0 := by omega
        simp [this, hW0]
      · have : W - 1 ≠ j := by omega
        have e1 : w[W - 1 + (j - (W - 1))]? = none := by
          apply List.getElem?_eq_none; omega
        have e2 : [s][j - (W - 1)]? = none := by
          apply List.getElem?_eq_none; simp; omega
        simp [hj, this, e1, e2]
  rw [if_neg h1, h2, f1, h3]
  simp only [Mat.asRow, Option.bind_eq_bind, Option.some_bind,
    Mat.setRow_eq f2 (W - 1) (by omega) s hs, hset, Option.pure_def]
  rfl

/-- At `INT_MAX` the counter of `createWindow` wraps to `INT_MIN`, and the next
call throws on `window.row(numWritten)` with a negative row. -/
theorem createWindow_counter_overflow :
    createWindow [[4, 0, 0]] [[1, 0, 0], [2, 0, 0], [3, 0, 0]] 3 2147483647 =
        some ([[2, 0, 0], [3, 0, 0], [4, 0, 0]], -2147483648) ∧
      createWindow [[5, 0, 0]] [[2, 0, 0], [3, 0, 0], [4, 0, 0]] 3 (-2147483648) = none := by
  refine ⟨by decide, by decide⟩

/-- The state reached from a `W`-row window after the samples `pre`, as long
as their number fits the `int` counter. -/
theorem feedWindow_state {W c : Nat} (hW : 1 ≤ W) (w0 : Mat) (h0 : w0.HasShape W c)
    (pre : List (List ℚ)) (hpre : ∀ s ∈ pre, s.length = c)
    (hmax : pre.length ≤ 2147483647) :
    feedWindow (W : Int) (pre.map fun s => [s]) (w0, 0) =
        some ((pre ++ w0.drop pre.length).drop (pre.length - W), (pre.length : Int)) ∧
      Mat.HasShape ((pre ++ w0.drop pre.length).drop (pre.length - W)) W c := by
  induction pre using List.reverseRecOn with
  | nil => simpa [feedWindow] using h0
  | append_singleton pre s ih =>
    have hmax1 : pre.length + 1 ≤ 2147483647 := by simpa using hmax
    obtain ⟨ih1, ih2⟩ := ih (fun x hx => hpre x (by simp [hx])) (by omega)
    have hs : s.length = c := hpre s (by simp)
    have hlen := h0.1
    unfold feedWindow at ih1 ⊢
    rw [List.map_append, List.foldlM_append, ih1]
    simp only [List.map_cons, List.map_nil, Option.bind_eq_bind, Option.some_bind,
      List.foldlM_cons, List.foldlM_nil, List.length_append, List.length_singleton]
    by_cases hk : pre.length < W
    · have e0 : pre.length - W = 0 := by omega
      have e1 : pre.length + 1 - W = 0 := by omega
      rw [e0] at ih2; simp only [List.drop_zero] at ih2
      have hset : (pre ++ w0.drop pre.length).set pre.length s =
          pre ++ [s] ++ w0.drop (pre.length + 1) := by
        rw [List.set_append_right _ _ (by omega)]
        simp only [Nat.sub_self, List.append_assoc]
        congr 1
        rw [List.drop_eq_getElem_cons (by omega)]
        simp [List.set]
      rw [e0, e1, List.drop_zero, List.drop_zero, createWindow_fill _ ih2 _ hk hmax1 s hs, hset]
      refine ⟨by simp, ?_⟩
      rw [← hset]
      exact ih2.set _ _ hs
    · have hk2 : W ≤ pre.length := by omega
      have hd : w0.drop pre.length = [] := List.drop_eq_nil_of_le (by omega)
      have hd2 : w0.drop (pre.length + 1) = [] := List.drop_eq_nil_of_le (by omega)
      rw [hd, List.append_nil] at ih2 ⊢
      rw [hd2, List.append_nil]
      have hnew : List.drop 1 (List.drop (pre.length - W) pre) ++ [s] =
          List.drop (pre.length + 1 - W) (pre ++ [s]) := by
        rw [List.drop_drop, List.drop_append_of_le_length (by omega)]
        congr 2
        omega
      rw [createWindow_shift _ ih2 hW _ hk2 hmax1 s hs, hnew]
      refine ⟨by simp, ?_⟩
      rw [← hnew]
      refine ⟨?_, ?_⟩
      · have := ih2.1
        simp at this ⊢
        omega
      · intro row hrow
        rcases List.mem_append.1 hrow with h1 | h1
        · exact ih2.2 row (List.mem_of_mem_drop h1)
        · simp at h1; exact h1 ▸ hs

/-- C1: for every window size `W >= 1` and every sequence of `n >= W` samples
(rows of three numbers) that the `int` counter can count (`n <= INT_MAX`),
starting from a window of `W` rows with `numWritten = 0`, the `n` successive
calls of `createWindow` all return, the counter is `n`, and row `j` of the
window (`j < W`) is sample number `n - W + j`: the window is the list of the
last `W` samples, in acquisition order. -/
theorem createWindow_holds_last_samples (W : Nat) (hW : 1 ≤ W) (window : Mat)
    (hwin : window.HasShape W 3) (samples : List (List ℚ))
    (hs : ∀ s ∈ samples, s.length = 3) (hn : W ≤ samples.length)
    (hmax : samples.length ≤ 2147483647) :
    ∃ w : Mat,
      feedWindow (W : Int) (samples.map fun s => [s]) (window, 0)
          = some (w, (samples.length : Int)) ∧
        w.length = W ∧
        (∀ j, j < W → w[j]? = samples[samples.length - W + j]?) ∧
        w = samples.drop (samples.length - W) := by
  obtain ⟨h1, h2⟩ := feedWindow_state hW window hwin samples hs hmax
  have hd : window.drop samples.length = [] := List.drop_eq_nil_of_le (by rw [hwin.1]; exact hn)
  rw [hd, List.append_nil] at h1 h2
  refine ⟨_, h1, h2.1, ?_, rfl⟩
  intro j _
  rw [List.getElem?_drop]

/-- Witness of C1 on the scenario of the specification (`W = 3`, samples
`(1,0,0)`, `(2,0,0)`, `(3,0,0)`, `(4,0,0)`), with the windows after the third
and after the fourth sample. -/
theorem createWindow_holds_last_samples_witness :
    (∃ w : Mat,
      feedWindow ((3 : Nat) : Int)
          ([[1, 0, 0], [2, 0, 0], [3, 0, 0], [4, 0, 0]].map fun s => [s]) (zeros 3 3, 0)
          = some (w, (([[1, 0, 0], [2, 0, 0], [3, 0, 0], [4, 0, 0]] : List (List ℚ)).length : Int)) ∧
        w.length = 3 ∧
        (∀ j, j < 3 → w[j]? = ([[1, 0, 0], [2, 0, 0], [3, 0, 0], [4, 0, 0]] : List (List ℚ))[
          ([[1, 0, 0], [2, 0, 0], [3, 0, 0], [4, 0, 0]] : List (List ℚ)).length - 3 + j]?) ∧
        w = ([[1, 0, 0], [2, 0, 0], [3, 0, 0], [4, 0, 0]] : List (List ℚ)).drop
          (([[1, 0, 0], [2, 0, 0], [3, 0, 0], [4, 0, 0]] : List (List ℚ)).length - 3)) ∧
      feedWindow 3 [[[1, 0, 0]], [[2, 0, 0]], [[3, 0, 0]]] (zeros 3 3, 0)
        = some ([[1, 0, 0], [2, 0, 0], [3, 0, 0]], 3) ∧
      feedWindow 3 [[[1, 0, 0]], [[2, 0, 0]], [[3, 0, 0]], [[4, 0, 0]]] (zeros 3 3, 0)
        = some ([[2, 0, 0], [3, 0, 0], [4, 0, 0]], 4) :=
  ⟨createWindow_holds_last_samples 3 (by decide) (zeros 3 3) (by decide)
      [[1, 0, 0], [2, 0, 0], [3, 0, 0], [4, 0, 0]] (by decide) (by decide) (by decide),
    by decide, by decide⟩

/-- The loop of `windowSize` after the indices `1..j`: the running value is an
upper bound of the sizes seen so far and is one of them. -/
theorem windowSize_fold (set : List DYmodel) (t0 : Int) (j : Nat) (hj : j < set.length)
    (h0 : ∃ m, set[0]? = some m ∧ m.size = t0) :
    (∀ i, i ≤ j → ∀ m, set[i]? = some m →
        m.size ≤ (List.range' 1 j).foldl (windowSizeStep set) t0) ∧
      (∃ m ∈ set, m.size = (List.range' 1 j).foldl (windowSizeStep set) t0) := by
  induction j with
  | zero =>
    obtain ⟨m, hm, hm0⟩ := h0
    simp only [List.range'_zero, List.foldl_nil]
    refine ⟨?_, m, List.getElem?_mem hm, hm0⟩
    intro i hi m1 hm1
    have : i = 0 := by omega
    subst this
    rw [hm] at hm1
    cases hm1
    omega
  | succ k ih =>
    obtain ⟨ih1, ih2⟩ := ih (by omega)
    have hk : k + 1 < set.length := hj
    have e : 1 + 1 * k = k + 1 := by omega
    rw [List.range'_concat, List.foldl_append, e]
    simp only [List.foldl_cons, List.foldl_nil]
    generalize (List.range' 1 k).foldl (windowSizeStep set) t0 = r at ih1 ih2 ⊢
    have hstep : windowSizeStep set r (k + 1) = if set[k + 1].size > r then set[k + 1].size else r := by
      simp [windowSizeStep, List.getElem?_eq_getElem hk]
    rw [hstep]
    by_cases hgt : set[k + 1].size > r
    · rw [if_pos hgt]
      refine ⟨?_, set[k + 1], List.getElem_mem _, rfl⟩
      intro i hi m hm
      by_cases hik : i = k + 1
      · subst hik
        rw [List.getElem?_eq_getElem hk] at hm
        cases hm
        exact le_refl _
      · have := ih1 i (by omega) m hm
        omega
    · rw [if_neg hgt]
      refine ⟨?_, ih2⟩
      intro i hi m hm
      by_cases hik : i = k + 1
      · subst hik
        rw [List.getElem?_eq_getElem hk] at hm
        cases hm
        omega
      · exact ih1 i (by omega) m hm

/-- C8: for every non-empty list of loaded models the constructor returns a
classifier whose window size `W` is the maximum model length: every model's
size is at most `W` and some model's size is `W`; the size of a model is the
column count of its gravity mean matrix. -/
theorem window_size_is_max_model_size (models : List DYmodel) (hne : models ≠ []) :
    ∃ c : Classifier, Classifier.create models = some c ∧ c.set = models ∧
      c.nbM = (models.length : Int) ∧
      (∀ m ∈ models, m.size ≤ c.window_size) ∧
      (∃ m ∈ models, m.size = c.window_size) ∧
      (∀ (n : String) (gW bW th : ℚ) (bP : Mat) (bS : Cube) (gP : Mat) (gS : Cube),
        (DYmodel.build n gW bW th bP bS gP gS).size = (gP.n_cols : Int)) := by
  cases models with
  | nil => exact absurd rfl hne
  | cons m0 rest =>
    have hfold := windowSize_fold (m0 :: rest) m0.size rest.length (by simp)
      ⟨m0, by simp, rfl⟩
    obtain ⟨h1, h2⟩ := hfold
    refine ⟨{ nbM := ((m0 :: rest).length : Int), set := m0 :: rest,
              window_size := (List.range' 1 rest.length).foldl
                (windowSizeStep (m0 :: rest)) m0.size }, ?_, rfl, rfl, ?_, h2, ?_⟩
    · simp [Classifier.create, windowSize]
    · intro m hm
      obtain ⟨i, hi, hget⟩ := List.getElem_of_mem hm
      have hi2 : i ≤ rest.length := by simp at hi; omega
      exact h1 i hi2 m (by rw [List.getElem?_eq_getElem hi, hget])
    · intro n gW bW th bP bS gP gS
      rfl

/-- Witness of C8: two models of lengths 2 and 3 give a window of size 3. -/
theorem window_size_is_max_model_size_witness :
    ∃ c : Classifier,
      Classifier.create
          [DYmodel.build "a" 1 0 1 [] [] [[1, 2], [0, 0], [0, 0], [0, 0]] [],
           DYmodel.build "b" 1 0 1 [] [] [[1, 2, 3], [0, 0, 0], [0, 0, 0], [0, 0, 0]] []]
          = some c ∧ c.window_size = 3 :=
  by
    obtain ⟨c, h, -, -, h1, ⟨m, hm, h2⟩, -⟩ := window_size_is_max_model_size
      [DYmodel.build "a" 1 0 1 [] [] [[1, 2], [0, 0], [0, 0], [0, 0]] [],
       DYmodel.build "b" 1 0 1 [] [] [[1, 2, 3], [0, 0, 0], [0, 0, 0], [0, 0, 0]] []]
      (by simp)
    refine ⟨c, h, ?_⟩
    have := h1 _ (List.mem_cons_of_mem _ (List.mem_singleton_self _))
    simp [DYmodel.build, Mat.n_cols] at this hm
    rcases hm with hm | hm <;> subst hm <;> simp [DYmodel.build, Mat.n_cols] at h2 <;> omega

/-- Reading an all-zero vector gives 0 at every index. -/
theorem getD_of_all_zero (p : List ℚ) (hz : ∀ x ∈ p, x = 0) (i : Nat) : p.getD i 0 = 0 := by
  by_cases hi : i < p.length
  · rw [List.getD_eq_getElem _ _ hi]
    exact hz _ (List.getElem_mem _)
  · rw [List.getD_eq_default _ _ (by omega)]

/-- On an all-zero vector the selection loop of `publishDynamic` never moves. -/
theorem bestLoop_all_zero (nbM : Int) (p : List ℚ) (hz : ∀ x ∈ p, x = 0) :
    bestLoop nbM p = (0, 0) := by
  unfold bestLoop
  generalize List.range' 1 (nbM.toNat - 1) = l
  induction l with
  | nil => rfl
  | cons i l ih =>
    have hstep : bestStep p (0, 0) i = (0, 0) := by
      unfold bestStep
      rw [getD_of_all_zero p hz, getD_of_all_zero p hz]
      simp
    rw [List.foldl_cons, hstep]
    exact ih

/-- C9: for every number of models `nbM >= 1`, when every entry of the
possibility vector is 0, `publishDynamic` publishes `highest = "NONE"`,
`other = 1` and `entropy = -1`. -/
theorem publishDynamic_all_zero (c : Classifier) (possibilities : List ℚ)
    (_hnb : 1 ≤ c.nbM) (_hlen : possibilities.length = c.nbM.toNat)
    (hz : ∀ x ∈ possibilities, x = 0) :
    (publishDynamic c possibilities).highest = "NONE" ∧
      (publishDynamic c possibilities).other = 1 ∧
      (publishDynamic c possibilities).entropy = -1 := by
  have h0 : possibilities.getD (0 : Int).toNat 0 = 0 := getD_of_all_zero possibilities hz _
  unfold publishDynamic
  rw [bestLoop_all_zero c.nbM possibilities hz]
  simp only [h0, if_true]
  simp

/-- Witness of C9 on the scenario of the specification: three models and the
vector `(0, 0, 0)`. -/
theorem publishDynamic_all_zero_witness :
    (publishDynamic threeModels [0, 0, 0]).highest = "NONE" ∧
      (publishDynamic threeModels [0, 0, 0]).other = 1 ∧
      (publishDynamic threeModels [0, 0, 0]).entropy = -1 :=
  publishDynamic_all_zero threeModels [0, 0, 0] (by decide) (by decide) (by decide)

/-- The selection loop of `publishDynamic` after the indices `1..j`: `best`
is the first index among `0..j` that holds the largest possibility. -/
theorem bestLoop_fold (p : List ℚ) (j : Nat) :
    ∃ bn : Nat, ((List.range' 1 j).foldl (bestStep p) (0, 0)).1 = (bn : Int) ∧ bn ≤ j ∧
      (∀ i, i ≤ j → p.getD i 0 ≤ p.getD bn 0) ∧ (∀ i, i < bn → p.getD i 0 < p.getD bn 0) := by
  induction j with
  | zero =>
    refine ⟨0, rfl, le_refl _, ?_, ?_⟩
    · intro i hi
      have : i = 0 := by omega
      subst this
      exact le_refl _
    · intro i hi
      omega
  | succ k ih =>
    obtain ⟨bn, hb, hbk, hmax, hfirst⟩ := ih
    have e : 1 + 1 * k = k + 1 := by omega
    rw [List.range'_concat, List.foldl_append, e]
    simp only [List.foldl_cons, List.foldl_nil]
    generalize (List.range' 1 k).foldl (bestStep p) (0, 0) = bs at hb ⊢
    have hbn : bs.1.toNat = bn := by omega
    unfold bestStep
    rw [hbn]
    by_cases hgt : p.getD (k + 1) 0 > p.getD bn 0
    · rw [if_pos hgt]
      refine ⟨k + 1, rfl, le_refl _, ?_, ?_⟩
      · intro i hi
        by_cases hik : i = k + 1
        · subst hik; exact le_refl _
        · exact le_of_lt (lt_of_le_of_lt (hmax i (by omega)) hgt)
      · intro i hi
        exact lt_of_le_of_lt (hmax i (by omega)) hgt
    · rw [if_neg hgt]
      have hle : p.getD (k + 1) 0 ≤ p.getD bn 0 := not_lt.1 hgt
      have hres : (if p.getD (k + 1) 0 > p.getD bs.2.toNat 0 then (bs.1, ((k + 1 : Nat) : Int))
          else bs).1 = bs.1 := by
        split <;> rfl
      refine ⟨bn, by rw [hres, hb], by omega, ?_, hfirst⟩
      intro i hi
      by_cases hik : i = k + 1
      · subst hik; exact hle
      · exact hmax i (by omega)

/-- C10: for every possibility vector with entries in `[0, 1]` and at least
one non-zero entry (one entry per model), `publishDynamic` publishes as
`highest` the name of the model at the smallest index whose possibility is the
maximum of the vector, and publishes `other = 1 - ` that maximum. -/
theorem publishDynamic_highest_is_first_max (c : Classifier) (p : List ℚ)
    (hlen : p.length = c.nbM.toNat) (hset : c.set.length = c.nbM.toNat)
    (h01 : ∀ x ∈ p, 0 ≤ x ∧ x ≤ 1) (hnz : ∃ x ∈ p, x ≠ 0) :
    ∃ (b : Nat) (m : DYmodel), b < p.length ∧ c.set[b]? = some m ∧
      (∀ i, i < p.length → p.getD i 0 ≤ p.getD b 0) ∧
      (∀ i, i < b → p.getD i 0 < p.getD b 0) ∧
      (publishDynamic c p).highest = m.HMPname ∧
      (publishDynamic c p).other = 1 - p.getD b 0 := by
  obtain ⟨x, hx, hx0⟩ := hnz
  obtain ⟨ix, hix, hgx⟩ := List.getElem_of_mem hx
  have hpos : 0 < p.length := by omega
  obtain ⟨bn, hb, hbk, hmax, hfirst⟩ := bestLoop_fold p (c.nbM.toNat - 1)
  have hbl : bn < p.length := by omega
  have hbs : bn < c.set.length := by omega
  have hxpos : 0 < x := lt_of_le_of_ne (h01 x hx).1 (Ne.symm hx0)
  have hxle : x ≤ p.getD bn 0 := by
    have := hmax ix (by omega)
    rwa [List.getD_eq_getElem _ _ hix, hgx] at this
  have hbpos : p.getD bn 0 ≠ 0 := ne_of_gt (lt_of_lt_of_le hxpos hxle)
  refine ⟨bn, c.set[bn], hbl, List.getElem?_eq_getElem hbs, ?_, hfirst, ?_, ?_⟩
  · intro i hi
    exact hmax i (by omega)
  · have hb2 : (bestLoop c.nbM p).1 = (bn : Int) := hb
    unfold publishDynamic
    generalize bestLoop c.nbM p = bs at hb2
    obtain ⟨b1, b2⟩ := bs
    simp only at hb2
    subst hb2
    have hbpos2 : ¬ (p[bn]?.getD 0 = 0) := by simpa using hbpos
    have hne : ¬ ((bn : Int) = -1) := by omega
    simp [hbpos2, hne, List.getElem?_eq_getElem hbs]
  · have hb2 : (bestLoop c.nbM p).1 = (bn : Int) := hb
    unfold publishDynamic
    generalize bestLoop c.nbM p = bs at hb2
    obtain ⟨b1, b2⟩ := bs
    simp only at hb2
    subst hb2
    have hbpos2 : ¬ (p[bn]?.getD 0 = 0) := by simpa using hbpos
    have hne : ¬ ((bn : Int) = -1) := by omega
    simp [hbpos2, hne]

/-- Witness of C10: on `(1/5, 3/5, 3/5)` the tie between the models of index 1
and 2 is won by index 1 (`climb`), and `other = 1 - 3/5`. -/
theorem publishDynamic_highest_is_first_max_witness :
    (∃ (b : Nat) (m : DYmodel), b < ([1 / 5, 3 / 5, 3 / 5] : List ℚ).length ∧
      threeModels.set[b]? = some m ∧
      (∀ i, i < ([1 / 5, 3 / 5, 3 / 5] : List ℚ).length →
        ([1 / 5, 3 / 5, 3 / 5] : List ℚ).getD i 0 ≤ ([1 / 5, 3 / 5, 3 / 5] : List ℚ).getD b 0) ∧
      (∀ i, i < b →
        ([1 / 5, 3 / 5, 3 / 5] : List ℚ).getD i 0 < ([1 / 5, 3 / 5, 3 / 5] : List ℚ).getD b 0) ∧
      (publishDynamic threeModels [1 / 5, 3 / 5, 3 / 5]).highest = m.HMPname ∧
      (publishDynamic threeModels [1 / 5, 3 / 5, 3 / 5]).other
        = 1 - ([1 / 5, 3 / 5, 3 / 5] : List ℚ).getD b 0) ∧
      (publishDynamic threeModels [1 / 5, 3 / 5, 3 / 5]).highest = "climb" ∧
      (publishDynamic threeModels [1 / 5, 3 / 5, 3 / 5]).other = 2 / 5 :=
  ⟨publishDynamic_highest_is_first_max threeModels [1 / 5, 3 / 5, 3 / 5] (by decide) (by decide)
      (by norm_num) ⟨3 / 5, by simp, by norm_num⟩,
    by decide!, by decide!⟩

/-- A traversal in `Option` returns exactly when every element returns, and
then entry by entry. -/
theorem mapM_eq_some_iff {α β : Type} (f : β → Option α) (l : List β) (ys : List α) :
    l.mapM f = some ys ↔
      ys.length = l.length ∧ ∀ i (h : i < l.length), f l[i] = ys[i]? := by
  induction l generalizing ys with
  | nil =>
    simp only [List.mapM_nil, Option.pure_def, Option.some.injEq, List.length_nil]
    constructor
    · intro h
      subst h
      exact ⟨rfl, fun i hi => absurd hi (Nat.not_lt_zero _)⟩
    · intro h
      exact (List.length_eq_zero.1 h.1).symm
  | cons a l ih =>
    rw [List.mapM_cons]
    constructor
    · intro h
      simp only [Option.bind_eq_bind, Option.bind_eq_some, Option.pure_def,
        Option.some.injEq] at h
      obtain ⟨y, hy, ys1, hys1, rfl⟩ := h
      obtain ⟨hl, hi⟩ := (ih ys1).1 hys1
      refine ⟨by simp [hl], ?_⟩
      intro i h
      cases i with
      | zero => simpa using hy
      | succ k => simpa using hi k (by simpa using h)
    · rintro ⟨hl, hi⟩
      cases ys with
      | nil => simp at hl
      | cons y ys1 =>
        have h0 := hi 0 (by simp)
        simp only [List.getElem_cons_zero, List.getElem?_cons_zero] at h0
        have htail : l.mapM f = some ys1 := by
          apply (ih ys1).2
          refine ⟨by simpa using hl, ?_⟩
          intro i h
          simpa using hi (i + 1) (by simpa using h)
        rw [h0, htail]
        rfl

/-- The writing loop `ps[i] = f i` for `i < n`: afterwards entry `i < n` of the
vector is `f i`, and the length is unchanged. -/
theorem foldl_set_range (f : Nat → ℚ) (ps : List ℚ) (n : Nat) :
    ((List.range n).foldl (fun ps i => ps.set i (f i)) ps).length = ps.length ∧
      ∀ i, i < ps.length →
        ((List.range n).foldl (fun ps i => ps.set i (f i)) ps)[i]? =
          if i < n then some (f i) else ps[i]? := by
  induction n with
  | zero => simp
  | succ k ih =>
    obtain ⟨ih1, ih2⟩ := ih
    rw [List.range_succ, List.foldl_append]
    simp only [List.foldl_cons, List.foldl_nil, List.length_set]
    refine ⟨ih1, ?_⟩
    intro i hi
    rw [List.getElem?_set]
    by_cases hik : k = i
    · subst hik
      simp [ih1, hi]
    · rw [if_neg hik, ih2 i hi]
      by_cases h1 : i < k
      · simp [h1, show i < k + 1 by omega]
      · simp [h1, show ¬ i < k + 1 by omega]

/-- The possibility written by `compareAll` is `max(0, 1 - d / θ)`. -/
theorem possibilityOf_eq_max (d θ : ℚ) : possibilityOf d θ = max 0 (1 - d / θ) := by
  unfold possibilityOf
  by_cases h : 1 - d / θ < 0
  · simp [h, max_eq_left (le_of_lt h)]
  · simp [h, max_eq_right (not_lt.1 h)]

/-- With a positive threshold the possibility is 0 exactly when the distance
reaches the threshold. -/
theorem possibilityOf_eq_zero_iff (d θ : ℚ) (hθ : 0 < θ) : possibilityOf d θ = 0 ↔ θ ≤ d := by
  unfold possibilityOf
  have key : 1 - d / θ ≤ 0 ↔ θ ≤ d := by
    rw [sub_nonpos, one_le_div hθ]
  by_cases h : 1 - d / θ < 0
  · simp only [h, if_true, true_iff]
    exact key.1 (le_of_lt h)
  · simp only [h, if_false]
    constructor
    · intro h0
      exact key.1 (le_of_eq h0)
    · intro hle
      exact le_antisymm (key.2 hle) (not_lt.1 h)

/-- What a returning call of `compareAll` has written: entry `i` is the
possibility of the distance of model `i`. -/
theorem compareAll_entries (c : Classifier) (gravity body : Mat) (possibilities ps : List ℚ)
    (hset : c.set.length = c.nbM.toNat) (hlen : possibilities.length = c.nbM.toNat)
    (h : compareAll c gravity body possibilities = some ps) :
    ps.length = c.set.length ∧
      ∀ i (hi : i < c.set.length), ∃ d, compareOne gravity body c.set[i] = some d ∧
        ps[i]? = some (possibilityOf d c.set[i].threshold) := by
  unfold compareAll at h
  simp only [Option.bind_eq_bind, Option.bind_eq_some, Option.pure_def, Option.some.injEq] at h
  obtain ⟨ds, hds, rfl⟩ := h
  unfold distances at hds
  obtain ⟨hdl, hdi⟩ := (mapM_eq_some_iff _ _ _).1 hds
  simp only [List.length_range] at hdl hdi
  obtain ⟨f1, f2⟩ := foldl_set_range
    (fun i => possibilityOf (ds.getD i 0) ((c.set[i]?.map DYmodel.threshold).getD 0))
    possibilities c.nbM.toNat
  refine ⟨by rw [f1, hlen, hset], ?_⟩
  intro i hi
  have hin : i < c.nbM.toNat := by omega
  have hd := hdi i hin
  simp only [List.getElem_range, List.getElem?_eq_getElem hi, Option.bind_eq_bind,
    Option.some_bind] at hd
  have hid : i < ds.length := by omega
  rw [List.getElem?_eq_getElem hid] at hd
  refine ⟨ds[i], hd, ?_⟩
  rw [f2 i (by omega), if_pos hin]
  simp [List.getElem?_eq_getElem hid, List.getElem?_eq_getElem hi]

/-- C4: for every model of the set with threshold `θ > 0` and the distance `d`
returned for it by `compareOne`, the possibility written by `compareAll` for
that model is `max(0, 1 - d / θ)`, and it is 0 if and only if `d >= θ`. -/
theorem compareAll_possibility_eq_max (c : Classifier) (gravity body : Mat)
    (possibilities ps : List ℚ)
    (hset : c.set.length = c.nbM.toNat) (hlen : possibilities.length = c.nbM.toNat)
    (h : compareAll c gravity body possibilities = some ps)
    (i : Nat) (m : DYmodel) (hm : c.set[i]? = some m) (hθ : 0 < m.threshold) :
    ∃ d p, compareOne gravity body m = some d ∧ ps[i]? = some p ∧
      p = max 0 (1 - d / m.threshold) ∧ (p = 0 ↔ m.threshold ≤ d) := by
  obtain ⟨_, hall⟩ := compareAll_entries c gravity body possibilities ps hset hlen h
  have hi : i < c.set.length := by
    by_contra hcon
    rw [List.getElem?_eq_none (by omega)] at hm
    cases hm
  obtain ⟨d, hd, hp⟩ := hall i hi
  rw [List.getElem?_eq_getElem hi] at hm
  cases hm
  exact ⟨d, _, hd, hp, possibilityOf_eq_max d _, possibilityOf_eq_zero_iff d _ hθ⟩

/-- Witness of C4 on scenario S2: distance 3 against threshold 10 gives the
possibility `7/10`. -/
theorem compareAll_possibility_eq_max_witness :
    ∃ d p, compareOne offsetWindow (zeros 3 3) scenarioModel = some d ∧
      ([7 / 10] : List ℚ)[0]? = some p ∧
      p = max 0 (1 - d / scenarioModel.threshold) ∧ (p = 0 ↔ scenarioModel.threshold ≤ d) :=
  compareAll_possibility_eq_max scenarioClassifier offsetWindow (zeros 3 3) [0] [7 / 10]
    (by decide) (by decide) (by decide!) 0 scenarioModel (by rfl) (by decide!)

/-- The explicit inverse computed by `Mat.i` on a `3 x 3` slice. -/
theorem Mat.i_eq_some {s inv : Mat} (h : s.i = some inv) :
    ∃ a b c d e f g h k : ℚ, s = [[a, b, c], [d, e, f], [g, h, k]] ∧
      det3 a b c d e f g h k ≠ 0 ∧
      inv = [[(e * k - f * h) / det3 a b c d e f g h k, (c * h - b * k) / det3 a b c d e f g h k,
                (b * f - c * e) / det3 a b c d e f g h k],
             [(f * g - d * k) / det3 a b c d e f g h k, (a * k - c * g) / det3 a b c d e f g h k,
                (c * d - a * f) / det3 a b c d e f g h k],
             [(d * h - e * g) / det3 a b c d e f g h k, (b * g - a * h) / det3 a b c d e f g h k,
                (a * e - b * d) / det3 a b c d e f g h k]] := by
  unfold Mat.i at h
  split at h
  · rename_i a b c d e f g h1 k
    by_cases hdet : det3 a b c d e f g h1 k = 0
    · simp [hdet] at h
    · simp only [hdet, if_false, Option.some.injEq] at h
      exact ⟨a, b, c, d, e, f, g, h1, k, rfl, hdet, h.symm⟩
  · cases h

/-- The determinant used by `Mat.i` is the determinant of the slice. -/
theorem toMatrix3_det (a b c d e f g h k : ℚ) :
    (toMatrix3 [[a, b, c], [d, e, f], [g, h, k]]).det = det3 a b c d e f g h k := by
  rw [Matrix.det_fin_three]
  simp [toMatrix3, det3]
  ring

/-- The matrix computed by `Mat.i` is the inverse of the slice. -/
theorem toMatrix3_inv (a b c d e f g h k : ℚ) (hdet : det3 a b c d e f g h k ≠ 0) :
    (toMatrix3 [[a, b, c], [d, e, f], [g, h, k]])⁻¹ =
      toMatrix3
        [[(e * k - f * h) / det3 a b c d e f g h k, (c * h - b * k) / det3 a b c d e f g h k,
            (b * f - c * e) / det3 a b c d e f g h k],
         [(f * g - d * k) / det3 a b c d e f g h k, (a * k - c * g) / det3 a b c d e f g h k,
            (c * d - a * f) / det3 a b c d e f g h k],
         [(d * h - e * g) / det3 a b c d e f g h k, (b * g - a * h) / det3 a b c d e f g h k,
            (a * e - b * d) / det3 a b c d e f g h k]] := by
  apply Matrix.inv_eq_right_inv
  have hd : a * (e * k - f * h) - b * (d * k - f * g) + c * (d * h - e * g) ≠ 0 := hdet
  ext i j
  fin_cases i <;> fin_cases j <;>
    simp [toMatrix3, Matrix.mul_apply, Fin.sum_univ_three, det3] <;>
    field_simp <;> ring

/-- The two products of `mahalanobisDist` compute the quadratic form of the
matrix on the vector. -/
theorem rowTimes_rowTimesCol (x : List ℚ) (m : Mat) (hx : x.length = 3)
    (hm : m.HasShape 3 3) :
    ∃ left, rowTimes x m = some left ∧
      rowTimesCol left x = some (quadForm (toMatrix3 m) (vec3 x)) := by
  obtain ⟨hl, hr⟩ := hm
  match x, hx with
  | [x0, x1, x2], _ =>
    match m, hl with
    | [r0, r1, r2], _ =>
      have h0 := hr r0 (by simp)
      have h1 := hr r1 (by simp)
      have h2 := hr r2 (by simp)
      match r0, h0, r1, h1, r2, h2 with
      | [a, b, c], _, [d, e, f], _, [g, h, k], _ =>
        refine ⟨[x0 * a + (x1 * d + x2 * g), x0 * b + (x1 * e + x2 * h),
          x0 * c + (x1 * f + x2 * k)], ?_, ?_⟩
        · simp [rowTimes, Mat.n_rows, Mat.n_cols, List.range, List.range.loop]
        simp [rowTimesCol, quadForm, toMatrix3, vec3, Matrix.dotProduct, Matrix.mulVec,
          Fin.sum_univ_three, List.range, List.range.loop]
        ring
/-- A `3 x 3` matrix is given by its nine entries. -/
theorem Mat.HasShape.entries33 {s : Mat} (hs : s.HasShape 3 3) :
    ∃ a b c d e f g h k : ℚ, s = [[a, b, c], [d, e, f], [g, h, k]] := by
  obtain ⟨hl, hr⟩ := hs
  match s, hl with
  | [r0, r1, r2], _ =>
    have h0 := hr r0 (by simp)
    have h1 := hr r1 (by simp)
    have h2 := hr r2 (by simp)
    match r0, h0, r1, h1, r2, h2 with
    | [a, b, c], _, [d, e, f], _, [g, h, k], _ => exact ⟨a, b, c, d, e, f, g, h, k, rfl⟩

/-- On an invertible `3 x 3` slice `Mat.i` returns a `3 x 3` matrix whose
entries are those of the inverse. -/
theorem Mat.i_of_invertible {s : Mat} (hs : IsInvertible3 s) :
    ∃ inv : Mat, s.i = some inv ∧ inv.HasShape 3 3 ∧ toMatrix3 inv = (toMatrix3 s)⁻¹ := by
  obtain ⟨hshape, hdet⟩ := hs
  obtain ⟨a, b, c, d, e, f, g, h, k, rfl⟩ := hshape.entries33
  rw [toMatrix3_det] at hdet
  refine ⟨_, by simp only [Mat.i, hdet, if_false], ?_, (toMatrix3_inv a b c d e f g h k hdet).symm⟩
  refine ⟨rfl, ?_⟩
  intro row hrow
  simp only [List.mem_cons, List.mem_singleton, List.not_mem_nil, or_false] at hrow
  rcases hrow with h1 | h1 | h1 <;> subst h1 <;> rfl

/-- When `Mat.i` returns, the slice is an invertible `3 x 3` matrix and the
result holds the entries of its inverse. -/
theorem Mat.i_inv {s inv : Mat} (h : s.i = some inv) :
    IsInvertible3 s ∧ inv.HasShape 3 3 ∧ toMatrix3 inv = (toMatrix3 s)⁻¹ := by
  obtain ⟨a, b, c, d, e, f, g, h1, k, rfl, hdet, rfl⟩ := Mat.i_eq_some h
  have hshape : Mat.HasShape [[a, b, c], [d, e, f], [g, h1, k]] 3 3 := by
    refine ⟨rfl, ?_⟩
    intro row hrow
    simp only [List.mem_cons, List.mem_singleton, List.not_mem_nil, or_false] at hrow
    rcases hrow with h2 | h2 | h2 <;> subst h2 <;> rfl
  refine ⟨⟨hshape, by rw [toMatrix3_det]; exact hdet⟩, ?_,
    (toMatrix3_inv a b c d e f g h1 k hdet).symm⟩
  refine ⟨rfl, ?_⟩
  intro row hrow
  simp only [List.mem_cons, List.mem_singleton, List.not_mem_nil, or_false] at hrow
  rcases hrow with h2 | h2 | h2 <;> subst h2 <;> rfl

/-- The difference of two columns of length 3, as vectors. -/
theorem vecSub_vec3 (a b : List ℚ) (ha : a.length = 3) (hb : b.length = 3) :
    ∃ d, vecSub a b = some d ∧ d.length = 3 ∧ vec3 d = vec3 a - vec3 b := by
  match a, ha, b, hb with
  | [a0, a1, a2], _, [b0, b1, b2], _ =>
    refine ⟨[a0 - b0, a1 - b1, a2 - b2], by simp [vecSub], rfl, ?_⟩
    funext k
    fin_cases k <;> simp [vec3]

/-- The function `mahalanobisDist` on columns of length 3 and an invertible
slice: the quadratic form of the inverse covariance on the difference. -/
theorem mahalanobisDist_eq {index : Nat} {trial model : Mat} {variance : Cube}
    {tc mc : List ℚ} {s : Mat}
    (htc : trial.col index = some tc) (hmc : model.col index = some mc)
    (htl : tc.length = 3) (hml : mc.length = 3)
    (hs : variance[index]? = some s) (hinv : IsInvertible3 s) :
    mahalanobisDist index trial model variance =
      some (quadForm (toMatrix3 s)⁻¹ (vec3 tc - vec3 mc)) := by
  obtain ⟨d, hd, hdl, hdv⟩ := vecSub_vec3 tc mc htl hml
  obtain ⟨inv, hi, hishape, hival⟩ := Mat.i_of_invertible hinv
  obtain ⟨left, hleft, hq⟩ := rowTimes_rowTimesCol d inv hdl hishape
  unfold mahalanobisDist
  simp only [htc, hmc, hd, hs, hi, hleft, Option.bind_eq_bind, Option.some_bind, hq, hival, hdv]

/-- When `mahalanobisDist` returns, the columns have length 3, the slice is
invertible and the result is the quadratic form of its inverse. -/
theorem mahalanobisDist_inv {index : Nat} {trial model : Mat} {variance : Cube} {dist : ℚ}
    (h : mahalanobisDist index trial model variance = some dist) :
    ∃ tc mc s, trial.col index = some tc ∧ model.col index = some mc ∧
      tc.length = 3 ∧ mc.length = 3 ∧ variance[index]? = some s ∧ IsInvertible3 s ∧
      dist = quadForm (toMatrix3 s)⁻¹ (vec3 tc - vec3 mc) := by
  unfold mahalanobisDist at h
  simp only [Option.bind_eq_bind, Option.bind_eq_some] at h
  obtain ⟨tc, htc, mc, hmc, d, hd, s, hs, inv, hi, left, hleft, hq⟩ := h
  obtain ⟨hinv, hishape, _⟩ := Mat.i_inv hi
  have hdl : d.length = 3 := by
    unfold rowTimes at hleft
    by_cases hc : d.length = inv.n_rows
    · rw [hc]; exact hishape.1
    · simp [hc] at hleft
  have hlen : tc.length = mc.length ∧ min tc.length mc.length = 3 := by
    unfold vecSub at hd
    by_cases hc : tc.length = mc.length
    · simp only [hc, if_true, Option.some.injEq] at hd
      subst hd
      simp only [List.length_zipWith] at hdl
      exact ⟨hc, hdl⟩
    · simp [hc] at hd
  have htl : tc.length = 3 := by omega
  have hml : mc.length = 3 := by omega
  refine ⟨tc, mc, s, htc, hmc, htl, hml, hs, hinv, ?_⟩
  have := mahalanobisDist_eq htc hmc htl hml hs hinv
  unfold mahalanobisDist at this
  simp only [htc, hmc, hd, hs, hi, hleft, Option.bind_eq_bind, Option.some_bind, hq] at this
  exact Option.some.inj this

/-- The quadratic form of the inverse of a positive-definite matrix is
non-negative. -/
theorem quadForm_inv_nonneg (S : Matrix (Fin 3) (Fin 3) ℚ) (hS : S.PosDef) (hdet : S.det ≠ 0)
    (x : Fin 3 → ℚ) : 0 ≤ quadForm S⁻¹ x := by
  unfold quadForm
  have hunit : IsUnit S.det := isUnit_iff_ne_zero.2 hdet
  have hx : Matrix.mulVec S (Matrix.mulVec S⁻¹ x) = x := by
    rw [Matrix.mulVec_mulVec, Matrix.mul_nonsing_inv S hunit, Matrix.one_mulVec]
  by_cases hy : Matrix.mulVec S⁻¹ x = 0
  · rw [hy]; simp
  · have := hS.2 _ hy
    rw [hx] at this
    have hstar : star (Matrix.mulVec S⁻¹ x) = Matrix.mulVec S⁻¹ x := by
      funext k; simp
    rw [hstar, Matrix.dotProduct_comm] at this
    exact le_of_lt this

/-- The mean of a column of non-negative entries is non-negative. -/
theorem mean_nonneg {v : List ℚ} {x : ℚ} (h : mean v = some x) (hv : ∀ y ∈ v, 0 ≤ y) :
    0 ≤ x := by
  unfold mean at h
  by_cases hl : v.length = 0
  · simp [hl] at h
  · simp only [hl, if_false, Option.some.injEq] at h
    subst h
    exact div_nonneg (List.sum_nonneg hv) (Nat.cast_nonneg _)

/-- With a positive-definite slice, a Mahalanobis distance that is returned is
non-negative. -/
theorem mahalanobisDist_nonneg {index : Nat} {trial model : Mat} {variance : Cube} {dist : ℚ}
    (h : mahalanobisDist index trial model variance = some dist)
    (hspd : ∀ s ∈ variance, IsSPD s) : 0 ≤ dist := by
  obtain ⟨tc, mc, s, _, _, _, _, hs, hinv, rfl⟩ := mahalanobisDist_inv h
  exact quadForm_inv_nonneg _ (hspd s (List.getElem?_mem hs)) hinv.2 _

/-- With non-negative weights and positive-definite slices, a distance
returned by `compareOne` is non-negative. -/
theorem compareOne_nonneg {g b : Mat} {M : DYmodel} {d : ℚ}
    (h : compareOne g b M = some d)
    (hwg : 0 ≤ M.gravityWeight) (hwb : 0 ≤ M.bodyWeight)
    (hg : ∀ s ∈ M.gS, IsSPD s) (hb : ∀ s ∈ M.bS, IsSPD s) : 0 ≤ d := by
  unfold compareOne at h
  simp only [Option.bind_eq_bind, Option.bind_eq_some, Option.pure_def, Option.some.injEq] at h
  obtain ⟨gravity, _, body, _, refG, _, refB, _, dist, hdist, dG, hdG, dB, hdB, rfl⟩ := h
  obtain ⟨hlen, hent⟩ := (mapM_eq_some_iff _ _ _).1 hdist
  have hpair : ∀ pr ∈ dist, 0 ≤ pr.1 ∧ 0 ≤ pr.2 := by
    intro pr hpr
    obtain ⟨i, hi, hget⟩ := List.getElem_of_mem hpr
    have := hent i (by omega)
    rw [List.getElem?_eq_getElem hi, hget] at this
    simp only [Option.bind_eq_bind, Option.bind_eq_some, Option.some.injEq] at this
    obtain ⟨dg, hdg, db, hdb, rfl⟩ := this
    exact ⟨mahalanobisDist_nonneg hdg hg, mahalanobisDist_nonneg hdb hb⟩
  have h1 : 0 ≤ dG := mean_nonneg hdG (by
    intro y hy
    obtain ⟨pr, hpr, rfl⟩ := List.mem_map.1 hy
    exact (hpair pr hpr).1)
  have h2 : 0 ≤ dB := mean_nonneg hdB (by
    intro y hy
    obtain ⟨pr, hpr, rfl⟩ := List.mem_map.1 hy
    exact (hpair pr hpr).2)
  exact add_nonneg (mul_nonneg hwg h1) (mul_nonneg hwb h2)

/-- The possibility of a non-negative distance against a positive threshold
lies in `[0, 1]`. -/
theorem possibilityOf_mem_unit (d θ : ℚ) (hd : 0 ≤ d) (hθ : 0 < θ) :
    0 ≤ possibilityOf d θ ∧ possibilityOf d θ ≤ 1 := by
  rw [possibilityOf_eq_max]
  refine ⟨le_max_left _ _, max_le (by norm_num) ?_⟩
  have : 0 ≤ d / θ := div_nonneg hd (le_of_lt hθ)
  linarith

/-- The view `rows(0, L - 1)` of a matrix with at least `L >= 1` rows: its
first `L` rows. -/
theorem Mat.rows_eq_take (g : Mat) (L : Nat) (hL : 1 ≤ L) (hLW : L ≤ g.length) :
    g.rows 0 ((L : Int) - 1) = some (g.take L) := by
  unfold Mat.rows Mat.n_rows
  have hc : (0 : Int) ≤ 0 ∧ (0 : Int) ≤ (L : Int) - 1 ∧ (L : Int) - 1 < (g.length : Int) := by
    omega
  have e : ((L : Int) - 1).toNat - 0 + 1 = L := by omega
  simp only [hc, and_self, if_true, Int.toNat_zero, List.drop_zero, e]

/-- The first rows of a matrix keep its column count. -/
theorem Mat.HasShape.take {g : Mat} {W c : Nat} (h : g.HasShape W c) (L : Nat) (hL : L ≤ W) :
    Mat.HasShape (g.take L) L c := by
  refine ⟨by rw [List.length_take, h.1]; omega, ?_⟩
  intro row hrow
  exact h.2 row (List.mem_of_mem_take hrow)

/-- Column `i` of the transpose is row `i` of the matrix. -/
theorem Mat.col_t {m : Mat} {r c : Nat} (h : m.HasShape r c) (hc : 1 ≤ c) (i : Nat)
    (hi : i < r) : (m.t).col i = some (m.getD i []) := by
  have hr : 0 < r := by omega
  have hnc : m.n_cols = c := h.n_cols_eq hr
  have hil : i < m.length := by rw [h.1]; exact hi
  have hg : m.getD i [] = m[i] := List.getD_eq_getElem _ _ hil
  have hrow : (m[i]).length = c := h.2 _ (List.getElem_mem _)
  have htc : (m.t).n_cols = r := by
    unfold Mat.t
    rw [hnc]
    obtain ⟨k, rfl⟩ : ∃ k, c = k + 1 := ⟨c - 1, by omega⟩
    simp [List.range_succ_eq_map, Mat.n_cols, h.1]
  unfold Mat.col
  rw [htc, if_pos hi, hg]
  congr 1
  unfold Mat.t
  rw [hnc]
  apply List.ext_getElem
  · simp [hrow]
  · intro j h1 h2
    simp only [List.length_map, List.length_range] at h1
    simp only [List.getElem_map, List.getElem_range]
    rw [List.getD_eq_getElem _ _ (by simpa using hil)]
    simp only [List.getElem_map]
    exact List.getD_eq_getElem _ _ h2

/-- The rows 1..3 of a mean matrix of 4 rows. -/
theorem referenceRows_eq {P : Mat} {L : Nat} (h : P.HasShape 4 L) :
    referenceRows P = some [P.getD 1 [], P.getD 2 [], P.getD 3 []] := by
  obtain ⟨hl, hr⟩ := h
  match P, hl with
  | [r0, r1, r2, r3], _ =>
    have h1 : r1.length = r0.length := by rw [hr r1 (by simp), hr r0 (by simp)]
    have h2 : r2.length = r0.length := by rw [hr r2 (by simp), hr r0 (by simp)]
    have h3 : r3.length = r0.length := by rw [hr r3 (by simp), hr r0 (by simp)]
    simp [referenceRows, List.range, List.range.loop, Mat.row, Mat.setRow, zeros, Mat.n_cols,
      List.replicate, h1, h2, h3]

/-- Column `i` of the rows 1..3 of a mean matrix: the expected point. -/
theorem reference_col {P : Mat} {L : Nat} (h : P.HasShape 4 L) (i : Nat) (hi : i < L) :
    ∃ mc, Mat.col [P.getD 1 [], P.getD 2 [], P.getD 3 []] i = some mc ∧ mc.length = 3 ∧
      vec3 mc = meanVec P i := by
  obtain ⟨hl, hr⟩ := h
  match P, hl with
  | [r0, r1, r2, r3], _ =>
    have h1 : r1.length = L := hr r1 (by simp)
    refine ⟨[r1.getD i 0, r2.getD i 0, r3.getD i 0], ?_, rfl, ?_⟩
    · simp [Mat.col, Mat.n_cols, h1, hi]
    · funext k
      fin_cases k <;> simp [vec3, meanVec]
/-- The mean of a non-empty column. -/
theorem mean_eq (v : List ℚ) (L : Nat) (hL : 1 ≤ L) (hv : v.length = L) :
    mean v = some ((1 / (L : ℚ)) * v.sum) := by
  unfold mean
  have : ¬ v.length = 0 := by omega
  rw [if_neg this, hv]
  congr 1
  rw [div_eq_mul_inv, mul_comm, one_div]

/-- The sum of a list indexed by `range L`, as a sum over `Finset.range L`. -/
theorem sum_map_range (f : Nat → ℚ) (L : Nat) :
    ((List.range L).map f).sum = ∑ i in Finset.range L, f i := by
  induction L with
  | zero => simp
  | succ k ih => rw [List.range_succ, List.map_append, List.sum_append, ih,
      Finset.sum_range_succ]; simp

/-- One Mahalanobis term of `compareOne` on a well-shaped window and model. -/
theorem mahalanobisDist_term {g P : Mat} {S : Cube} {L W : Nat}
    (hLW : L ≤ W) (hg : g.HasShape W 3) (hP : P.HasShape 4 L) (hS : S.length = L)
    (hinv : ∀ s ∈ S, IsInvertible3 s) (i : Nat) (hi : i < L) :
    mahalanobisDist i (Mat.t (g.take L)) [P.getD 1 [], P.getD 2 [], P.getD 3 []] S =
      some (quadForm (toMatrix3 (S.getD i []))⁻¹ (rowVec g i - meanVec P i)) := by
  have hiS : i < S.length := by omega
  have htc := Mat.col_t (hg.take L hLW) (by norm_num) i hi
  obtain ⟨mc, hmc, hml, hmv⟩ := reference_col hP i hi
  have hiT : i < (g.take L).length := by rw [(hg.take L hLW).1]; exact hi
  have htl : ((g.take L).getD i []).length = 3 := by
    rw [List.getD_eq_getElem _ _ hiT]
    exact (hg.take L hLW).2 _ (List.getElem_mem _)
  have hrow : vec3 ((g.take L).getD i []) = rowVec g i := by
    unfold rowVec
    rw [List.getD_eq_getElem?_getD, List.getD_eq_getElem?_getD, List.getElem?_take_of_lt hi]
  have hsl : S.getD i [] = S[i] := List.getD_eq_getElem _ _ hiS
  rw [mahalanobisDist_eq htc hmc htl hml (List.getElem?_eq_getElem hiS)
    (hinv _ (List.getElem_mem _)), hrow, hmv, hsl]

/-- The distance returned by `compareOne` on a well-formed model of length
`1 <= L <= W` and windows of `W` rows: the weighted means of the Mahalanobis
terms. -/
theorem compareOne_eq (M : DYmodel) (L W : Nat) (g b : Mat)
    (hL : 1 ≤ L) (hLW : L ≤ W) (hM : M.WellFormed L)
    (hg : g.HasShape W 3) (hb : b.HasShape W 3) :
    compareOne g b M = some
      (M.gravityWeight * ((1 / (L : ℚ)) * ∑ i in Finset.range L,
          quadForm (toMatrix3 (M.gS.getD i []))⁻¹ (rowVec g i - meanVec M.gP i)) +
        M.bodyWeight * ((1 / (L : ℚ)) * ∑ i in Finset.range L,
          quadForm (toMatrix3 (M.bS.getD i []))⁻¹ (rowVec b i - meanVec M.bP i))) := by
  obtain ⟨hsize, hgP, hbP, hgS, hbS, hgi, hbi⟩ := hM
  have hdist : (List.range M.gS.length).mapM (fun i => do
        let dg ← mahalanobisDist i (Mat.t (g.take L)) [M.gP.getD 1 [], M.gP.getD 2 [], M.gP.getD 3 []]
          M.gS
        let db ← mahalanobisDist i (Mat.t (b.take L)) [M.bP.getD 1 [], M.bP.getD 2 [], M.bP.getD 3 []]
          M.bS
        pure (dg, db)) =
      some ((List.range L).map fun i =>
        (quadForm (toMatrix3 (M.gS.getD i []))⁻¹ (rowVec g i - meanVec M.gP i),
         quadForm (toMatrix3 (M.bS.getD i []))⁻¹ (rowVec b i - meanVec M.bP i))) := by
    rw [hgS]
    apply (mapM_eq_some_iff _ _ _).2
    refine ⟨by simp, ?_⟩
    intro i hi
    simp only [List.length_range] at hi
    simp only [List.getElem_range]
    rw [mahalanobisDist_term hLW hg hgP hgS hgi i hi,
      mahalanobisDist_term hLW hb hbP hbS hbi i hi]
    simp [hi]
  unfold compareOne
  rw [hsize, Mat.rows_eq_take g L hL (by rw [hg.1]; exact hLW),
    Mat.rows_eq_take b L hL (by rw [hb.1]; exact hLW), referenceRows_eq hgP,
    referenceRows_eq hbP]
  simp only [Option.bind_eq_bind] at hdist
  simp only [Option.bind_eq_bind, Option.some_bind]
  rw [hdist]
  simp only [Option.some_bind, List.map_map]
  rw [mean_eq _ L hL (by simp), mean_eq _ L hL (by simp)]
  simp only [Option.some_bind, Option.pure_def, sum_map_range]
  rfl

/-- The vector written by `compareAll` when `compareOne` returns the distance
`ds[i]` for every model `i`: the possibilities of these distances. -/
theorem compareAll_eq (c : Classifier) (g b : Mat) (ps0 : List ℚ) (ds : List ℚ)
    (hset : c.set.length = c.nbM.toNat) (hlen : ps0.length = c.nbM.toNat)
    (hds : ds.length = c.set.length)
    (h : ∀ i (hi : i < c.set.length), compareOne g b c.set[i] = ds[i]?) :
    compareAll c g b ps0 =
      some ((List.range c.set.length).map fun i =>
        possibilityOf (ds.getD i 0) ((c.set[i]?.map DYmodel.threshold).getD 0)) := by
  have hdist : distances c g b = some ds := by
    unfold distances
    apply (mapM_eq_some_iff _ _ _).2
    refine ⟨by simp [hds, hset], ?_⟩
    intro i hi
    simp only [List.length_range] at hi
    have hi2 : i < c.set.length := by omega
    simp only [List.getElem_range, List.getElem?_eq_getElem hi2, Option.bind_eq_bind,
      Option.some_bind]
    exact h i hi2
  unfold compareAll
  rw [hdist]
  simp only [Option.bind_eq_bind, Option.some_bind, Option.pure_def, Option.some.injEq]
  obtain ⟨f1, f2⟩ := foldl_set_range
    (fun i => possibilityOf (ds.getD i 0) ((c.set[i]?.map DYmodel.threshold).getD 0))
    ps0 c.nbM.toNat
  apply List.ext_getElem?
  intro i
  by_cases hi : i < ps0.length
  · have hi2 : i < c.set.length := by omega
    rw [f2 i hi, if_pos (by omega), List.getElem?_map, List.getElem?_range hi2]
    rfl
  · rw [List.getElem?_eq_none (by omega), List.getElem?_eq_none (by simp; omega)]

/-- The identity covariance is invertible and is its own inverse. -/
theorem identity3_inv : IsInvertible3 identity3 ∧ (toMatrix3 identity3)⁻¹ = 1 := by
  have h1 : toMatrix3 identity3 = 1 := by
    ext i j
    fin_cases i <;> fin_cases j <;> simp [toMatrix3, identity3]
  refine ⟨⟨by decide, ?_⟩, ?_⟩
  · rw [h1]; simp
  · rw [h1]; simp

/-- On well-formed models no longer than the windows, `compareAll` returns. -/
theorem compareAll_returns (c : Classifier) (g b : Mat) (ps0 : List ℚ) (W : Nat)
    (hset : c.set.length = c.nbM.toNat) (hlen : ps0.length = c.nbM.toNat)
    (hwf : ∀ m ∈ c.set, ∃ L, 1 ≤ L ∧ L ≤ W ∧ m.WellFormed L)
    (hg : g.HasShape W 3) (hb : b.HasShape W 3) :
    ∃ ps, compareAll c g b ps0 = some ps ∧ ps.length = c.nbM.toNat := by
  refine ⟨_, compareAll_eq c g b ps0 (c.set.map fun m => (compareOne g b m).getD 0) hset hlen
    (by simp) ?_, by simp [hset]⟩
  intro i hi
  obtain ⟨L, hL, hLW, hM⟩ := hwf c.set[i] (List.getElem_mem _)
  rw [compareOne_eq c.set[i] L W g b hL hLW hM hg hb]
  simp [hi, compareOne_eq c.set[i] L W g b hL hLW hM hg hb]

/-- The identity covariance is symmetric positive-definite. -/
theorem identity3_spd : IsSPD identity3 := by
  have h1 : toMatrix3 identity3 = 1 := by
    ext i j
    fin_cases i <;> fin_cases j <;> simp [toMatrix3, identity3]
  unfold IsSPD
  rw [h1]
  exact Matrix.PosDef.one

/-- C3: for every set of models in which each threshold is positive, both
weights are non-negative and every covariance slice is symmetric
positive-definite, and for every gravity/body window, every entry of the
possibility vector written by `compareAll` lies in `[0, 1]` (one entry per
model); and `compareAll` does write the vector when the models satisfy the
invariant of the data model and the windows have `W` rows of 3 columns. -/
theorem compareAll_possibilities_in_unit_interval (c : Classifier) (gravity body : Mat)
    (possibilities : List ℚ)
    (hset : c.set.length = c.nbM.toNat) (hlen : possibilities.length = c.nbM.toNat)
    (hθ : ∀ m ∈ c.set, 0 < m.threshold)
    (hw : ∀ m ∈ c.set, 0 ≤ m.gravityWeight ∧ 0 ≤ m.bodyWeight)
    (hspd : ∀ m ∈ c.set, (∀ s ∈ m.gS, IsSPD s) ∧ (∀ s ∈ m.bS, IsSPD s)) :
    (∀ ps, compareAll c gravity body possibilities = some ps →
        ps.length = c.nbM.toNat ∧ ∀ p ∈ ps, 0 ≤ p ∧ p ≤ 1) ∧
      (∀ W : Nat, (∀ m ∈ c.set, ∃ L, 1 ≤ L ∧ L ≤ W ∧ m.WellFormed L) →
        gravity.HasShape W 3 → body.HasShape W 3 →
        ∃ ps, compareAll c gravity body possibilities = some ps) := by
  constructor
  · intro ps h
    obtain ⟨hl, hall⟩ := compareAll_entries c gravity body possibilities ps hset hlen h
    refine ⟨by rw [hl, hset], ?_⟩
    intro p hp
    obtain ⟨i, hi, hget⟩ := List.getElem_of_mem hp
    have hi2 : i < c.set.length := by omega
    obtain ⟨d, hd, hpi⟩ := hall i hi2
    rw [List.getElem?_eq_getElem hi, hget] at hpi
    have hmem : c.set[i] ∈ c.set := List.getElem_mem _
    have hd0 : 0 ≤ d := compareOne_nonneg hd (hw _ hmem).1 (hw _ hmem).2 (hspd _ hmem).1
      (hspd _ hmem).2
    rw [Option.some.inj hpi]
    exact possibilityOf_mem_unit d _ hd0 (hθ _ hmem)
  · intro W hwf hg hb
    obtain ⟨ps, hps, _⟩ := compareAll_returns c gravity body possibilities W hset hlen hwf hg hb
    exact ⟨ps, hps⟩

/-- Witness of C3: on scenario S2 the vector written is `[7/10]`. -/
theorem compareAll_possibilities_in_unit_interval_witness :
    compareAll scenarioClassifier offsetWindow (zeros 3 3) [0] = some [7 / 10] ∧
      ([7 / 10] : List ℚ).length = scenarioClassifier.nbM.toNat ∧
      ∀ p ∈ ([7 / 10] : List ℚ), 0 ≤ p ∧ p ≤ 1 :=
  ⟨by decide!,
    (compareAll_possibilities_in_unit_interval scenarioClassifier offsetWindow (zeros 3 3) [0]
      (by decide) (by decide)
      (by
        intro m hm
        have : m = scenarioModel := by simpa [scenarioClassifier] using hm
        subst this
        decide!)
      (by
        intro m hm
        have : m = scenarioModel := by simpa [scenarioClassifier] using hm
        subst this
        decide!)
      (by
        intro m hm
        have : m = scenarioModel := by simpa [scenarioClassifier] using hm
        subst this
        constructor <;> intro s hs <;>
          have hsi : s = identity3 := by
            simp only [scenarioModel, DYmodel.build, List.mem_cons, List.mem_singleton,
              List.not_mem_nil, or_false, or_self] at hs
            exact hs
        all_goals exact hsi ▸ identity3_spd)).1 [7 / 10] (by decide!)⟩

/-- The view `rows(0, L - 1)` only looks at the row count and at the first
`L` rows. -/
theorem Mat.rows_congr (g g1 : Mat) (L : Nat) (hlen : g.length = g1.length)
    (htake : g.take L = g1.take L) :
    g.rows 0 ((L : Int) - 1) = g1.rows 0 ((L : Int) - 1) := by
  by_cases hL : 1 ≤ L ∧ L ≤ g.length
  · rw [Mat.rows_eq_take g L hL.1 hL.2, Mat.rows_eq_take g1 L hL.1 (hlen ▸ hL.2), htake]
  · unfold Mat.rows Mat.n_rows
    have h1 : ¬ ((0 : Int) ≤ 0 ∧ (0 : Int) ≤ (L : Int) - 1 ∧ (L : Int) - 1 < (g.length : Int)) := by
      omega
    have h2 : ¬ ((0 : Int) ≤ 0 ∧ (0 : Int) ≤ (L : Int) - 1 ∧ (L : Int) - 1 < (g1.length : Int)) := by
      omega
    rw [if_neg h1, if_neg h2]

/-- C6: for every model of length `L < W`, the distance returned by
`compareOne` depends only on the rows `0..L-1` of the gravity and body
windows: two pairs of windows of `W` rows that agree on their first `L` rows
give the same result (the same distance, or the same failure). -/
theorem compareOne_depends_on_first_rows (M : DYmodel) (L W : Nat) (hsize : M.size = (L : Int))
    (_hLW : L < W) (g g1 b b1 : Mat)
    (hg : g.length = W) (hg1 : g1.length = W) (hb : b.length = W) (hb1 : b1.length = W)
    (hgg : g.take L = g1.take L) (hbb : b.take L = b1.take L) :
    compareOne g b M = compareOne g1 b1 M := by
  unfold compareOne
  rw [hsize, Mat.rows_congr g g1 L (by rw [hg, hg1]) hgg,
    Mat.rows_congr b b1 L (by rw [hb, hb1]) hbb]

/-- Witness of C6: the model of scenario S2 (`L = 3`) on windows of 4 rows
that differ on their last row only; both calls return the distance 3. -/
theorem compareOne_depends_on_first_rows_witness :
    compareOne (offsetWindow ++ [[5, 5, 5]]) (zeros 4 3) scenarioModel =
        compareOne (offsetWindow ++ [[9, 8, 7]]) (zeros 3 3 ++ [[1, 2, 3]]) scenarioModel ∧
      compareOne (offsetWindow ++ [[5, 5, 5]]) (zeros 4 3) scenarioModel = some 3 :=
  ⟨compareOne_depends_on_first_rows scenarioModel 3 4 (by decide) (by decide)
      (offsetWindow ++ [[5, 5, 5]]) (offsetWindow ++ [[9, 8, 7]]) (zeros 4 3)
      (zeros 3 3 ++ [[1, 2, 3]]) (by decide) (by decide) (by decide) (by decide)
      (by decide) (by decide),
    by decide!⟩

/-- The transpose of a matrix is rectangular. -/
theorem Mat.t_shape (m : Mat) : Mat.HasShape m.t m.n_cols m.length := by
  unfold Mat.t
  refine ⟨by simp, ?_⟩
  intro row hrow
  obtain ⟨j, _, rfl⟩ := List.mem_map.1 hrow
  simp

/-- The transpose of an `r x c` matrix with `r >= 1` is `c x r`. -/
theorem Mat.HasShape.t {m : Mat} {r c : Nat} (h : m.HasShape r c) (hr : 1 ≤ r) :
    Mat.HasShape m.t c r := by
  have := Mat.t_shape m
  rwa [h.n_cols_eq (by omega), h.1] at this

/-- The matrix built by `floatToMat` has the requested shape. -/
theorem floatToMat_shape (fm : List (List ℚ)) (r c : Nat) :
    Mat.HasShape (floatToMat fm r c) r c := by
  unfold floatToMat
  refine ⟨by simp, ?_⟩
  intro row hrow
  obtain ⟨j, _, rfl⟩ := List.mem_map.1 hrow
  simp

/-- For rectangular matrices `a` and `g`: when `a - g` is defined, adding it
back to `g` gives `a`. -/
theorem Mat.add_sub_cancel {a g body : Mat} {r c r1 c1 : Nat} (ha : a.HasShape r c)
    (hg : g.HasShape r1 c1) (h : a.sub g = some body) : g.add body = some a := by
  unfold Mat.sub at h
  by_cases hc : a.n_rows = g.n_rows ∧ a.n_cols = g.n_cols
  · rw [if_pos hc] at h
    have hb := Option.some.inj h
    obtain ⟨hrows, hcols⟩ := hc
    unfold Mat.n_rows at hrows
    have hrr : r = r1 := by rw [← ha.1, ← hg.1]; exact hrows
    subst hrr
    have hrowlen : ∀ i (h1 : i < a.length) (h2 : i < g.length), (a[i]).length = (g[i]).length := by
      intro i h1 h2
      cases a with
      | nil => simp at h1
      | cons a0 at1 =>
        cases g with
        | nil => simp at h2
        | cons g0 gt1 =>
          have e1 : a0.length = g0.length := hcols
          have e2 := ha.2 a0 (by simp)
          have e3 := hg.2 g0 (by simp)
          rw [ha.2 _ (List.getElem_mem _), hg.2 _ (List.getElem_mem _), ← e2, ← e3, e1]
    have hbody : g.add body = some a := by
      unfold Mat.add
      have hbl : body.length = a.length := by
        rw [← hb, List.length_zipWith, hrows, Nat.min_self]
      have hbc : g.n_cols = body.n_cols := by
        cases a with
        | nil =>
          have : g = [] := List.length_eq_zero.1 (by simpa using hrows.symm)
          subst this
          simp [← hb, Mat.n_cols]
        | cons a0 at1 =>
          cases g with
          | nil => simp at hrows
          | cons g0 gt1 =>
            have e1 : a0.length = g0.length := hcols
            simp [← hb, Mat.n_cols, e1]
      rw [if_pos ⟨by unfold Mat.n_rows; rw [hbl, hrows], hbc⟩]
      congr 1
      apply List.ext_getElem
      · rw [List.length_zipWith, hbl, hrows, Nat.min_self]
      · intro i h1 h2
        have h3 : i < g.length := by rw [← hrows]; exact h2
        simp only [List.getElem_zipWith, ← hb]
        apply List.ext_getElem
        · simp [hrowlen i h2 h3]
        · intro j h4 h5
          simp
    exact hbody
  · rw [if_neg hc] at h
    cases h

/-- One pass of the selection sort keeps the length of the vector. -/
theorem selectionPass_length (v : List ℚ) (i : Nat) : (selectionPass v i).length = v.length := by
  simp [selectionPass]

/-- The selection sort keeps the length of the vector. -/
theorem selectionSort_length (l : List Nat) (v : List ℚ) :
    (l.foldl selectionPass v).length = v.length := by
  induction l generalizing v with
  | nil => rfl
  | cons i l ih => rw [List.foldl_cons, ih, selectionPass_length]

/-- The function `median` returns on every non-empty vector. -/
theorem median_returns (v : List ℚ) (hv : 0 < v.length) : ∃ x, median v = some x := by
  unfold median
  have hlt : v.length / 2 < ((List.range v.length).foldl selectionPass v).length := by
    rw [selectionSort_length]
    exact Nat.div_lt_self hv (by norm_num)
  exact ⟨_, List.getElem?_eq_getElem hlt⟩

/-- With at least two columns (and fewer than `2^64`), the last column whose
window of size 3 is full is `n_cols - 2`. -/
theorem lastFullColumn_one (W : Nat) (hW : 2 ≤ W) (hW64 : W < 2 ^ 64) :
    lastFullColumn W 1 = W - 2 := by
  unfold lastFullColumn
  have h1 : ((W : Int) - 1 - ((1 : Nat) : Int)) = ((W - 2 : Nat) : Int) := by omega
  rw [h1]
  have h2 : ((W - 2 : Nat) : Int) % (2 ^ 64 : Int) = ((W - 2 : Nat) : Int) := by
    apply Int.emod_eq_of_lt
    · omega
    · have : ((2 : Int) ^ 64) = ((2 ^ 64 : Nat) : Int) := by norm_num
      rw [this]
      omega
  rw [h2]
  simp

/-- The body of `medianFilter` with size 3 returns at every column of a row
of at least two entries. -/
theorem medianFilterAt_returns (W : Nat) (row : List ℚ) (hrow : row.length = W) (hW : 2 ≤ W)
    (hW64 : W < 2 ^ 64) (i : Nat) (hi : i < W) : ∃ x, medianFilterAt W row 3 i = some x := by
  unfold medianFilterAt
  have hneg : ¬ ((3 : Int) < 0) := by decide
  have hn : (3 : Int).toNat = 3 := rfl
  have hstep : 3 / 2 = 1 := rfl
  simp only [hneg, if_false, hn, hstep, lastFullColumn_one W hW hW64]
  by_cases h1 : 1 ≤ i ∧ i ≤ W - 2
  · rw [if_pos h1]
    have hsub : subvec row (i - 1) (i + 1) = some ((row.drop (i - 1)).take (i + 1 - (i - 1) + 1)) := by
      unfold subvec
      rw [if_pos ⟨by omega, by omega⟩]
    rw [hsub]
    simp only [Option.bind_eq_bind, Option.some_bind]
    exact median_returns _ (by simp; omega)
  · rw [if_neg h1]
    by_cases h2 : i < 1
    · rw [if_pos h2]
      have hsub : subvec row 0 1 = some ((row.drop 0).take (1 - 0 + 1)) := by
        unfold subvec
        rw [if_pos ⟨by omega, by omega⟩]
      rw [hsub]
      have has : assignSubvec (List.replicate 3 (0 : ℚ)) 1 (3 - 1)
          ((row.drop 0).take (1 - 0 + 1)) =
          some ((List.replicate 3 (0 : ℚ)).take 1 ++ (row.drop 0).take (1 - 0 + 1) ++
            (List.replicate 3 (0 : ℚ)).drop (3 - 1 + 1)) := by
        unfold assignSubvec
        rw [if_pos ⟨by omega, by simp, by simp; omega⟩]
      simp only [Option.bind_eq_bind, Option.some_bind, has]
      exact median_returns _ (by simp)
    · rw [if_neg h2]
      have h3 : i > W - 2 := by omega
      rw [if_pos h3]
      have hsub : subvec row (i - 1) (W - 1) =
          some ((row.drop (i - 1)).take (W - 1 - (i - 1) + 1)) := by
        unfold subvec
        rw [if_pos ⟨by omega, by omega⟩]
      rw [hsub]
      have has : assignSubvec (List.replicate 3 (0 : ℚ)) 0 1
          ((row.drop (i - 1)).take (W - 1 - (i - 1) + 1)) =
          some ((List.replicate 3 (0 : ℚ)).take 0 ++
            (row.drop (i - 1)).take (W - 1 - (i - 1) + 1) ++
            (List.replicate 3 (0 : ℚ)).drop (1 + 1)) := by
        unfold assignSubvec
        rw [if_pos ⟨by omega, by simp, by simp; omega⟩]
      simp only [Option.bind_eq_bind, Option.some_bind, has]
      exact median_returns _ (by simp)

/-- A traversal in `Option` returns when every element returns. -/
theorem mapM_returns {α β : Type} (f : β → Option α) (l : List β)
    (h : ∀ x ∈ l, ∃ y, f x = some y) : ∃ ys, l.mapM f = some ys ∧ ys.length = l.length := by
  induction l with
  | nil => exact ⟨[], rfl, rfl⟩
  | cons a l ih =>
    obtain ⟨y, hy⟩ := h a (by simp)
    obtain ⟨ys, hys, hl⟩ := ih (fun x hx => h x (by simp [hx]))
    refine ⟨y :: ys, ?_, by simp [hl]⟩
    rw [List.mapM_cons, hy, hys]
    rfl

/-- The median filter of size 3 returns on every matrix with at least two
columns, and keeps the shape. -/
theorem medianFilter_returns (m : Mat) (r W : Nat) (hm : m.HasShape r W) (hr : 1 ≤ r)
    (hW : 2 ≤ W) (hW64 : W < 2 ^ 64) :
    ∃ mf, medianFilter m 3 = some mf ∧ mf.HasShape r W := by
  have hnc : m.n_cols = W := hm.n_cols_eq (by omega)
  unfold medianFilter
  rw [hnc]
  have hrow : ∀ row ∈ m, ∃ fr, (List.range W).mapM (fun i => medianFilterAt W row 3 i) = some fr ∧
      fr.length = W := by
    intro row hrow
    obtain ⟨fr, h1, h2⟩ := mapM_returns (fun i => medianFilterAt W row 3 i) (List.range W)
      (fun i hi => medianFilterAt_returns W row (hm.2 row hrow) hW hW64 i (List.mem_range.1 hi))
    exact ⟨fr, h1, by simpa using h2⟩
  obtain ⟨mf, h1, h2⟩ := mapM_returns
    (fun row => (List.range W).mapM fun i => medianFilterAt W row 3 i) m
    (fun row hr1 => (hrow row hr1).imp fun _ h => h.1)
  refine ⟨mf, h1, by rw [h2, hm.1], ?_⟩
  intro fr hfr
  obtain ⟨i, hi, hget⟩ := List.getElem_of_mem hfr
  obtain ⟨_, hent⟩ := (mapM_eq_some_iff _ _ _).1 h1
  have hi2 : i < m.length := by omega
  have := hent i hi2
  rw [List.getElem?_eq_getElem hi, hget] at this
  obtain ⟨fr1, hfr1, hl⟩ := hrow m[i] (List.getElem_mem _)
  rw [hfr1] at this
  rw [← Option.some.inj this]
  exact hl

/-- The difference of two matrices of the same shape is defined and has that
shape. -/
theorem Mat.sub_returns {a g : Mat} {r c : Nat} (ha : a.HasShape r c) (hg : g.HasShape r c) :
    ∃ body, a.sub g = some body ∧ body.HasShape r c := by
  have hcols : a.n_cols = g.n_cols := by
    cases a with
    | nil =>
      have : g = [] := List.length_eq_zero.1 (by rw [hg.1, ← ha.1]; rfl)
      rw [this]
    | cons a0 at1 =>
      cases g with
      | nil =>
        have h1 := ha.1
        have h2 := hg.1
        simp at h1 h2
        omega
      | cons g0 gt1 =>
        show a0.length = g0.length
        rw [ha.2 a0 (by simp), hg.2 g0 (by simp)]
  refine ⟨_, by unfold Mat.sub Mat.n_rows; rw [if_pos ⟨by rw [ha.1, hg.1], hcols⟩], ?_, ?_⟩
  · rw [List.length_zipWith, ha.1, hg.1, Nat.min_self]
  · intro row hrow
    obtain ⟨i, hi, hget⟩ := List.getElem_of_mem hrow
    rw [← hget, List.getElem_zipWith, List.length_zipWith, ha.2 _ (List.getElem_mem _),
      hg.2 _ (List.getElem_mem _), Nat.min_self]

/-- On a window of `W >= 2` rows of 3 columns the median filtering of
`analyzeWindow` returns a window of the same shape. -/
theorem cleanWindow_returns (window : Mat) (W : Nat) (hwin : window.HasShape W 3)
    (hW : 2 ≤ W) (hW64 : W < 2 ^ 64) :
    ∃ clean, cleanWindow window = some clean ∧ clean.HasShape W 3 := by
  obtain ⟨mf, h1, h2⟩ := medianFilter_returns window.t 3 W (hwin.t (by omega)) (by norm_num)
    hW hW64
  refine ⟨mf.t, ?_, h2.t (by norm_num)⟩
  unfold cleanWindow
  rw [h1]
  rfl

/-- On a window of `W >= 2` rows of 3 columns `analyzeWindow` returns two
matrices of the shape of the window. -/
theorem analyzeWindow_returns (process : Nat → List (List ℚ) → List (List ℚ)) (window : Mat)
    (W : Nat) (hwin : window.HasShape W 3) (hW : 2 ≤ W) (hW64 : W < 2 ^ 64) :
    ∃ gravity body, analyzeWindow process window = some (gravity, body) ∧
      gravity.HasShape W 3 ∧ body.HasShape W 3 := by
  obtain ⟨clean, h1, h2⟩ := cleanWindow_returns window W hwin hW hW64
  have ht : Mat.HasShape clean.t 3 W := h2.t (by omega)
  have hcheb : Mat.HasShape (ChebyshevFilter process clean.t) 3 W := by
    have := floatToMat_shape (process clean.t.n_cols (matToFloat clean.t)) clean.t.n_rows
      clean.t.n_cols
    rw [ht.n_cols_eq (by norm_num), show clean.t.n_rows = 3 from ht.1] at this
    show Mat.HasShape (floatToMat (process clean.t.n_cols (matToFloat clean.t)) clean.t.n_rows
      clean.t.n_cols) 3 W
    rwa [ht.n_cols_eq (by norm_num), show clean.t.n_rows = 3 from ht.1]
  have hgr : Mat.HasShape (ChebyshevFilter process clean.t).t W 3 := hcheb.t (by norm_num)
  obtain ⟨body, h3, h4⟩ := Mat.sub_returns h2 hgr
  refine ⟨_, body, ?_, hgr, h4⟩
  unfold analyzeWindow
  rw [h1]
  simp only [Option.bind_eq_bind, Option.some_bind, h3]
  rfl

/-- C7: for every window, the gravity and body matrices produced by
`analyzeWindow` add up to the median-filtered window (median of size 3 along
time on each axis), whatever the low-pass filter of the DSP library returns;
and on every window of `W >= 2` rows of 3 columns `analyzeWindow` does produce
them. -/
theorem analyzeWindow_gravity_plus_body (process : Nat → List (List ℚ) → List (List ℚ))
    (window : Mat) :
    (∀ gravity body, analyzeWindow process window = some (gravity, body) →
        ∃ clean, cleanWindow window = some clean ∧ gravity.add body = some clean) ∧
      (∀ W : Nat, 2 ≤ W → W < 2 ^ 64 → window.HasShape W 3 →
        ∃ gravity body, analyzeWindow process window = some (gravity, body)) := by
  constructor
  · intro gravity body h
    unfold analyzeWindow at h
    simp only [Option.bind_eq_bind, Option.bind_eq_some, Option.pure_def, Option.some.injEq,
      Prod.mk.injEq] at h
    obtain ⟨clean, hclean, body1, hsub, hg, hb⟩ := h
    subst hg hb
    refine ⟨clean, hclean, ?_⟩
    have hcs : ∃ mf, clean = Mat.t mf := by
      unfold cleanWindow at hclean
      simp only [Option.bind_eq_bind, Option.bind_eq_some, Option.pure_def,
        Option.some.injEq] at hclean
      obtain ⟨mf, _, hmf⟩ := hclean
      exact ⟨mf, hmf.symm⟩
    obtain ⟨mf, hmf⟩ := hcs
    have hshape : clean.HasShape mf.n_cols mf.length := hmf ▸ Mat.t_shape mf
    exact Mat.add_sub_cancel hshape (Mat.t_shape _) hsub
  · intro W hW hW64 hwin
    obtain ⟨g, b, h, _, _⟩ := analyzeWindow_returns process window W hwin hW hW64
    exact ⟨g, b, h⟩

/-- Witness of C7: a window of three samples, with a low-pass filter that
halves every entry. -/
theorem analyzeWindow_gravity_plus_body_witness :
    analyzeWindow (fun _ m => m.map fun r => r.map fun x => x / 2)
        [[1, 0, 0], [2, 0, 0], [3, 0, 0]]
      = some ([[1 / 2, 0, 0], [1, 0, 0], [1, 0, 0]], [[1 / 2, 0, 0], [1, 0, 0], [1, 0, 0]]) ∧
      ∃ clean, cleanWindow [[1, 0, 0], [2, 0, 0], [3, 0, 0]] = some clean ∧
        Mat.add [[1 / 2, 0, 0], [1, 0, 0], [1, 0, 0]] [[1 / 2, 0, 0], [1, 0, 0], [1, 0, 0]]
          = some clean :=
  ⟨by decide!,
    (analyzeWindow_gravity_plus_body (fun _ m => m.map fun r => r.map fun x => x / 2)
      [[1, 0, 0], [2, 0, 0], [3, 0, 0]]).1 _ _ (by decide!)⟩

/-- On a window of `W >= 1` rows of 3 columns and a sample of 3 entries,
`createWindow` returns a window of the same shape and increments the counter,
as long as the counter is below `INT_MAX`. -/
theorem createWindow_returns {W : Nat} (hW : 1 ≤ W) (w : Mat) (h : w.HasShape W 3) (k : Nat)
    (hk32 : k + 1 ≤ 2147483647) (sample : Mat) (hs : sample.HasShape 1 3) :
    ∃ w1, createWindow sample w (W : Int) (k : Int) = some (w1, ((k + 1 : Nat) : Int)) ∧
      w1.HasShape W 3 := by
  obtain ⟨hl, hr⟩ := hs
  match sample, hl with
  | [s], _ =>
    have hs3 : s.length = 3 := hr s (by simp)
    by_cases hk : k < W
    · exact ⟨_, createWindow_fill w h k hk hk32 s hs3, h.set k s hs3⟩
    · refine ⟨_, createWindow_shift w h hW k (by omega) hk32 s hs3, ?_, ?_⟩
      · have := h.1
        simp
        omega
      · intro row hrow
        rcases List.mem_append.1 hrow with h1 | h1
        · exact h.2 row (List.mem_of_mem_drop h1)
        · simp at h1; exact h1 ▸ hs3

/-- One pass of the loop of `singleTest` on well-formed models: it returns,
keeps the invariant, and writes a line exactly when the sample is warm. -/
theorem singleTestStep_returns (c : Classifier) (W : Nat)
    (process : Nat → List (List ℚ) → List (List ℚ)) (driver : String → Mat)
    (hW : 2 ≤ W) (hW64 : W < 2 ^ 64) (hws : c.window_size = (W : Int))
    (hset : c.set.length = c.nbM.toNat)
    (hwf : ∀ m ∈ c.set, ∃ L, 1 ≤ L ∧ L ≤ W ∧ m.WellFormed L)
    (hdrv : ∀ line, (driver line).HasShape 1 3)
    (line : String) (st : TestState) (k : Nat) (hinv : TestInv c W st k)
    (hk32 : k + 1 ≤ 2147483647) :
    ∃ st1 o, singleTestStep c process driver line st = some (st1, o) ∧
      TestInv c W st1 (k + 1) ∧
      (W ≤ k + 1 → ∃ v, o = some v ∧ v.length = c.nbM.toNat) ∧
      (¬ W ≤ k + 1 → o = none) := by
  obtain ⟨hwin, hn, hp⟩ := hinv
  obtain ⟨w1, hcw, hw1⟩ := createWindow_returns (by omega) st.window hwin k hk32 (driver line)
    (hdrv line)
  unfold singleTestStep
  dsimp only
  rw [hws, hn, hcw]
  simp only [Option.bind_eq_bind, Option.some_bind]
  by_cases hwarm : W ≤ k + 1
  · have hge : ((k + 1 : Nat) : Int) ≥ (W : Int) := by omega
    rw [if_pos hge]
    obtain ⟨g, b, hab, hg, hb⟩ := analyzeWindow_returns process w1 W hw1 hW hW64
    obtain ⟨ps, hps, hpl⟩ := compareAll_returns c g b st.possibilities W hset hp hwf hg hb
    rw [hab]
    simp only [Option.some_bind, hps]
    refine ⟨_, _, rfl, ⟨hw1, rfl, hpl⟩, ?_, fun h => absurd hwarm h⟩
    intro _
    exact ⟨_, rfl, by simp⟩
  · have hge : ¬ ((k + 1 : Nat) : Int) ≥ (W : Int) := by omega
    rw [if_neg hge]
    exact ⟨_, _, rfl, ⟨hw1, rfl, hp⟩, fun h => absurd h hwarm, fun _ => rfl⟩

/-- The count of warm samples when one more sample comes first. -/
theorem warmCount_succ (W k n : Nat) :
    warmCount W k (n + 1) = (if W ≤ k + 1 then 1 else 0) + warmCount W (k + 1) n := by
  unfold warmCount
  split <;> omega

/-- The loop of `singleTest` on well-formed models, from a state that
satisfies the invariant and on lines that the `int` counter can count: it
reaches the end of the input, appends one line per warm sample, each with one
entry per model, and what it has appended after the first `j` lines is the
corresponding prefix. -/
theorem singleTestLoop_spec (c : Classifier) (W : Nat)
    (process : Nat → List (List ℚ) → List (List ℚ)) (driver : String → Mat)
    (hW : 2 ≤ W) (hW64 : W < 2 ^ 64) (hws : c.window_size = (W : Int))
    (hset : c.set.length = c.nbM.toNat)
    (hwf : ∀ m ∈ c.set, ∃ L, 1 ≤ L ∧ L ≤ W ∧ m.WellFormed L)
    (hdrv : ∀ line, (driver line).HasShape 1 3)
    (lines : List String) (st : TestState) (k : Nat) (out : List (List ℚ))
    (hinv : TestInv c W st k) (hmax : k + lines.length ≤ 2147483647) :
    ∃ E : List (List ℚ),
      singleTestLoop c process driver lines st out = { emitted := out ++ E, completed := true } ∧
      E.length = warmCount W k lines.length ∧
      (∀ v ∈ E, v.length = c.nbM.toNat) ∧
      (∀ j, j ≤ lines.length →
        singleTestLoop c process driver (lines.take j) st out =
          { emitted := out ++ E.take (warmCount W k j), completed := true }) := by
  induction lines generalizing st k out with
  | nil =>
    refine ⟨[], by simp [singleTestLoop], by simp [warmCount], by simp, ?_⟩
    intro j hj
    simp [singleTestLoop]
  | cons line rest ih =>
    have hmax1 : k + (rest.length + 1) ≤ 2147483647 := by simpa using hmax
    obtain ⟨st1, o, hstep, hinv1, hwarm, hcold⟩ := singleTestStep_returns c W process driver hW
      hW64 hws hset hwf hdrv line st k hinv (by omega)
    obtain ⟨E1, hE1, hlen1, hall1, hpre1⟩ := ih st1 (k + 1) (out ++ o.toList) hinv1 (by omega)
    have holen : o.toList.length = if W ≤ k + 1 then 1 else 0 := by
      by_cases hw : W ≤ k + 1
      · obtain ⟨v, hv, _⟩ := hwarm hw
        simp [hv, hw]
      · simp [hcold hw, hw]
    refine ⟨o.toList ++ E1, ?_, ?_, ?_, ?_⟩
    · simp only [singleTestLoop, hstep, hE1, List.append_assoc]
    · rw [List.length_append, hlen1, holen, List.length_cons, warmCount_succ]
    · intro v hv
      rcases List.mem_append.1 hv with h1 | h1
      · by_cases hw : W ≤ k + 1
        · obtain ⟨v1, hv1, hl⟩ := hwarm hw
          rw [hv1] at h1
          simp at h1
          exact h1 ▸ hl
        · rw [hcold hw] at h1
          simp at h1
      · exact hall1 v h1
    · intro j hj
      cases j with
      | zero => simp [singleTestLoop, warmCount]
      | succ j1 =>
        have hj1 : j1 ≤ rest.length := by simpa using hj
        rw [List.take_succ_cons]
        simp only [singleTestLoop, hstep, hpre1 j1 hj1]
        rw [warmCount_succ, ← holen, List.take_append, List.append_assoc]

/-- A returning call of `createWindow` increments the counter, on 32 bits. -/
theorem createWindow_counter {sample w w1 : Mat} {N k k1 : Int}
    (h : createWindow sample w N k = some (w1, k1)) : k1 = wrapInt (k + 1) := by
  unfold createWindow at h
  split at h
  · simp only [Option.bind_eq_bind, Option.bind_eq_some, Option.pure_def, Option.some.injEq,
      Prod.mk.injEq] at h
    obtain ⟨_, _, _, _, _, hk⟩ := h
    exact hk.symm
  · simp only [Option.bind_eq_bind, Option.bind_eq_some, Option.pure_def, Option.some.injEq,
      Prod.mk.injEq] at h
    obtain ⟨_, _, _, _, _, _, _, hk⟩ := h
    exact hk.symm

/-- A returning pass of the loop of `singleTest`, with a counter that is not
negative and below `INT_MAX`: the counter is incremented, and a line of one
entry per model is written exactly when the counter has reached the window
size. -/
theorem singleTestStep_inv {c : Classifier} {process : Nat → List (List ℚ) → List (List ℚ)}
    {driver : String → Mat} {line : String} {st st1 : TestState} {o : Option (List ℚ)}
    (h : singleTestStep c process driver line st = some (st1, o))
    (h0 : 0 ≤ st.nSamples) (h32 : st.nSamples + 1 ≤ 2147483647) :
    st1.nSamples = st.nSamples + 1 ∧
      (st.nSamples + 1 ≥ c.window_size → ∃ v, o = some v ∧ v.length = c.nbM.toNat) ∧
      (¬ st.nSamples + 1 ≥ c.window_size → o = none) := by
  unfold singleTestStep at h
  dsimp only at h
  simp only [Option.bind_eq_bind, Option.bind_eq_some] at h
  obtain ⟨⟨w1, k1⟩, hcw, hrest⟩ := h
  have hk := createWindow_counter hcw
  rw [wrapInt_eq _ (by omega) h32] at hk
  subst hk
  dsimp only at hrest
  by_cases hwarm : st.nSamples + 1 ≥ c.window_size
  · rw [if_pos hwarm] at hrest
    simp only [Option.bind_eq_bind, Option.bind_eq_some, Option.pure_def, Option.some.injEq,
      Prod.mk.injEq] at hrest
    obtain ⟨⟨g, b⟩, _, ps, _, hst, ho⟩ := hrest
    subst hst ho
    exact ⟨rfl, fun _ => ⟨_, rfl, by simp⟩, fun hn => absurd hwarm hn⟩
  · rw [if_neg hwarm] at hrest
    simp only [Option.pure_def, Option.some.injEq, Prod.mk.injEq] at hrest
    obtain ⟨hst, ho⟩ := hrest
    subst hst ho
    exact ⟨rfl, fun hw => absurd hw hwarm, fun _ => rfl⟩

/-- The count of warm samples on `int` counters when one more sample comes
first. -/
theorem warmCountInt_succ (W k : Int) (n : Nat) :
    warmCountInt W k (n + 1) = (if k + 1 ≥ W then 1 else 0) + warmCountInt W (k + 1) n := by
  unfold warmCountInt
  push_cast
  split <;> omega

/-- The loop of `singleTest`, whatever the classifier, on lines that the `int`
counter can count: what it appends is at most one line per warm sample, each
with one entry per model, and exactly one per warm sample when it reaches the
end of the input. -/
theorem singleTestLoop_count (c : Classifier) (process : Nat → List (List ℚ) → List (List ℚ))
    (driver : String → Mat) (lines : List String) (st : TestState) (out : List (List ℚ))
    (h0 : 0 ≤ st.nSamples) (hmax : st.nSamples + (lines.length : Int) ≤ 2147483647) :
    ∃ E : List (List ℚ),
      (singleTestLoop c process driver lines st out).emitted = out ++ E ∧
      (∀ v ∈ E, v.length = c.nbM.toNat) ∧
      (E.length : Int) ≤ warmCountInt c.window_size st.nSamples lines.length ∧
      ((singleTestLoop c process driver lines st out).completed = true →
        (E.length : Int) = warmCountInt c.window_size st.nSamples lines.length) := by
  induction lines generalizing st out with
  | nil =>
    refine ⟨[], by simp [singleTestLoop], by simp, ?_, ?_⟩
    · simp [warmCountInt]
    · intro _
      simp only [warmCountInt, List.length_nil, Nat.cast_zero]
      omega
  | cons line rest ih =>
    cases hstep : singleTestStep c process driver line st with
    | none =>
      refine ⟨[], by simp [singleTestLoop, hstep], by simp, ?_, ?_⟩
      · simp [warmCountInt]
      · intro hc
        simp [singleTestLoop, hstep] at hc
    | some r =>
      obtain ⟨st1, o⟩ := r
      have hmax1 : st.nSamples + ((rest.length : Int) + 1) ≤ 2147483647 := by
        simpa using hmax
      obtain ⟨hk, hwarm, hcold⟩ := singleTestStep_inv hstep h0 (by omega)
      obtain ⟨E1, hE1, hall1, hle1, hcount1⟩ := ih st1 (out ++ o.toList) (by omega) (by omega)
      have holen : (o.toList.length : Int) = if st.nSamples + 1 ≥ c.window_size then 1 else 0 := by
        by_cases hw : st.nSamples + 1 ≥ c.window_size
        · obtain ⟨v, hv, _⟩ := hwarm hw
          simp [hv, hw]
        · simp [hcold hw, hw]
      refine ⟨o.toList ++ E1, ?_, ?_, ?_, ?_⟩
      · simp only [singleTestLoop, hstep, hE1, List.append_assoc]
      · intro v hv
        rcases List.mem_append.1 hv with h1 | h1
        · by_cases hw : st.nSamples + 1 ≥ c.window_size
          · obtain ⟨v1, hv1, hl⟩ := hwarm hw
            rw [hv1] at h1
            simp at h1
            exact h1 ▸ hl
          · rw [hcold hw] at h1
            simp at h1
        · exact hall1 v h1
      · rw [List.length_append, List.length_cons, warmCountInt_succ, ← holen, ← hk]
        push_cast
        omega
      · intro hc
        simp only [singleTestLoop, hstep] at hc
        rw [List.length_append, List.length_cons, warmCountInt_succ, ← holen, ← hk]
        push_cast
        rw [hcount1 hc]

/-- C2 (amended): for every input of `n` lines that the `int` counter of
samples can count (`n <= INT_MAX`) and every window size `W >= 1`, the
vectors emitted by the loop of `singleTest` have one entry per model, there
are at most `max(0, n - W + 1)` of them, and exactly `max(0, n - W + 1)`
whenever the loop reaches the end of the input (no exception of the matrix
library). It does reach the end when
`2 <= W < 2^64`, the models satisfy the invariant of the data model (length
`1 <= L <= W`, means of 4 rows and `L` columns, `L` invertible `3 x 3`
covariance slices per component) and the driver returns `1 x 3` samples; then
after the first `j` lines it has emitted the first `max(0, j - W + 1)`
vectors: none for the samples `0..W-2`, one after each sample from index
`W-1` onwards. -/
theorem singleTest_emits_one_vector_per_warm_sample (c : Classifier)
    (process : Nat → List (List ℚ) → List (List ℚ)) (driver : String → Mat)
    (lines : List String) (hW1 : 1 ≤ c.window_size) (hmax : lines.length ≤ 2147483647) :
    (∀ v ∈ (singleTest c process driver lines).emitted, v.length = c.nbM.toNat) ∧
      (((singleTest c process driver lines).emitted.length : Int)
        ≤ max 0 ((lines.length : Int) - c.window_size + 1)) ∧
      ((singleTest c process driver lines).completed = true →
        ((singleTest c process driver lines).emitted.length : Int)
          = max 0 ((lines.length : Int) - c.window_size + 1)) ∧
      (∀ W : Nat, 2 ≤ W → W < 2 ^ 64 → c.window_size = (W : Int) →
        c.set.length = c.nbM.toNat →
        (∀ m ∈ c.set, ∃ L, 1 ≤ L ∧ L ≤ W ∧ m.WellFormed L) →
        (∀ line, (driver line).HasShape 1 3) →
        (singleTest c process driver lines).completed = true ∧
          ∀ j, j ≤ lines.length →
            (singleTest c process driver (lines.take j)).emitted =
              (singleTest c process driver lines).emitted.take (j + 1 - W)) := by
  have hcount : warmCountInt c.window_size 0 lines.length
      = max 0 ((lines.length : Int) - c.window_size + 1) := by
    unfold warmCountInt
    omega
  obtain ⟨E, hE, hall, hle, hexact⟩ := singleTestLoop_count c process driver lines
    { window := zeros c.window_size.toNat 3, nSamples := 0,
      possibilities := List.replicate c.nbM.toNat 0 } [] (le_refl 0) (by
        show (0 : Int) + (lines.length : Int) ≤ 2147483647
        omega)
  rw [hcount] at hle hexact
  have hem : (singleTest c process driver lines).emitted = E := by
    unfold singleTest
    rw [hE]
    rfl
  refine ⟨by rw [hem]; exact hall, by rw [hem]; exact hle, ?_, ?_⟩
  · intro hc
    rw [hem]
    exact hexact hc
  · intro W hW hW64 hws hset hwf hdrv
    have hinv : TestInv c W
        { window := zeros c.window_size.toNat 3, nSamples := 0,
          possibilities := List.replicate c.nbM.toNat 0 } 0 := by
      refine ⟨?_, rfl, by simp⟩
      rw [hws]
      refine ⟨by simp [zeros], ?_⟩
      intro row hrow
      simp only [zeros, Int.toNat_ofNat] at hrow
      rw [List.eq_of_mem_replicate hrow]
      simp
    obtain ⟨E2, hE2, _, _, hpre⟩ := singleTestLoop_spec c W process driver hW hW64 hws hset
      hwf hdrv lines _ 0 [] hinv (by omega)
    have hc0 : ∀ n, warmCount W 0 n = n + 1 - W := by
      intro n
      unfold warmCount
      omega
    unfold singleTest
    rw [hE2]
    refine ⟨rfl, ?_⟩
    intro j hj
    rw [hpre j hj, hc0]
    simp

/-- Witness of C2 (amended): the classifier of scenario S2 (`W = 3`) on four
lines reaches the end of the input and emits two vectors of one entry. -/
theorem singleTest_emits_one_vector_per_warm_sample_witness :
    (singleTest scenarioClassifier idleProcess zeroDriver ["a", "b", "c", "d"]).completed = true ∧
      ((singleTest scenarioClassifier idleProcess zeroDriver
          ["a", "b", "c", "d"]).emitted.length : Int)
        = max 0 ((["a", "b", "c", "d"].length : Int) - scenarioClassifier.window_size + 1) ∧
      singleTest scenarioClassifier idleProcess zeroDriver ["a", "b", "c", "d"]
        = { emitted := [[1], [1]], completed := true } :=
  have h := singleTest_emits_one_vector_per_warm_sample scenarioClassifier idleProcess zeroDriver
    ["a", "b", "c", "d"] (by decide) (by decide)
  have hc := (h.2.2.2 3 (by decide) (by norm_num) (by decide) (by decide)
    (by
      intro m hm
      have : m = scenarioModel := by simpa [scenarioClassifier] using hm
      subst this
      refine ⟨3, by decide, by decide, by decide, by decide, by decide, by decide, by decide,
        ?_, ?_⟩ <;>
      · intro s hs
        have hsi : s = identity3 := by
          simp only [scenarioModel, DYmodel.build, List.mem_cons, List.mem_singleton,
            List.not_mem_nil, or_false, or_self] at hs
          exact hs
        exact hsi ▸ identity3_inv.1)
    (by intro line; exact (by decide : Mat.HasShape [[0, 0, 0]] 1 3))).1
  ⟨hc, h.2.2.1 hc, by decide!⟩

/-- Counterexample to C2 as stated. With a library whose only model has length
1 (`W = 1`), the median filter of `analyzeWindow` throws on the first warm
window: on an input of one line nothing is emitted, where the claim counts
`1 - 1 + 1 = 1` vector. With a window of two rows and a model whose covariance
slices are singular, the inversion throws on the first warm window: on an
input of two lines nothing is emitted, where the claim counts `2 - 2 + 1 = 1`
vector. -/
theorem singleTest_emits_nothing_counterexample :
    (Classifier.create [shortModel] = some shortClassifier ∧
      (1 : Int) ≤ shortClassifier.window_size ∧
      singleTest shortClassifier idleProcess zeroDriver ["0 0 0 0 0 0 0 0"]
        = { emitted := [], completed := false } ∧
      ((singleTest shortClassifier idleProcess zeroDriver ["0 0 0 0 0 0 0 0"]).emitted.length : Int)
        ≠ max 0 ((["0 0 0 0 0 0 0 0"].length : Int) - shortClassifier.window_size + 1)) ∧
    (Classifier.create [singularModel] = some singularClassifier ∧
      (1 : Int) ≤ singularClassifier.window_size ∧
      singleTest singularClassifier idleProcess zeroDriver ["0 0 0 0 0 0 0 0", "0 0 0 0 0 0 0 0"]
        = { emitted := [], completed := false } ∧
      ((singleTest singularClassifier idleProcess zeroDriver
          ["0 0 0 0 0 0 0 0", "0 0 0 0 0 0 0 0"]).emitted.length : Int)
        ≠ max 0 ((["0 0 0 0 0 0 0 0", "0 0 0 0 0 0 0 0"].length : Int)
            - singularClassifier.window_size + 1)) := by
  refine ⟨⟨by decide!, by decide, by decide!, by decide!⟩, ⟨by decide!, by decide, by decide!, by decide!⟩⟩

/-- A method on `setI[i]` keeps the number of models and the number of
intervals. -/
theorem SensingBracelet.atModel_shape {ε : Type} (sb : SensingBracelet) (i : Nat)
    (body : Interval → Interval × List ε) :
    (sb.atModel i body).1.nbM = sb.nbM ∧ (sb.atModel i body).1.setI.length = sb.setI.length := by
  unfold SensingBracelet.atModel
  cases h : sb.setI[i]? with
  | none => exact ⟨rfl, rfl⟩
  | some I => exact ⟨rfl, by simp⟩

/-- The first `k` passes of a loop over the models whose body works on
`setI[i]` alone: the intervals `j < k` have been transformed, each from its
state before the loop, the others are unchanged, and the publications are
those of the models `0..k-1` in order. -/
theorem forModels_fold {ε : Type} (sb : SensingBracelet)
    (g : Nat → Interval → Interval × List ε) (k : Nat) :
    ((List.range k).foldl
        (fun (acc : SensingBracelet × List ε) i =>
          ((acc.1.atModel i (g i)).1, acc.2 ++ (acc.1.atModel i (g i)).2)) (sb, [])).1.nbM
        = sb.nbM ∧
      ((List.range k).foldl
        (fun (acc : SensingBracelet × List ε) i =>
          ((acc.1.atModel i (g i)).1, acc.2 ++ (acc.1.atModel i (g i)).2)) (sb, [])).1.setI.length
        = sb.setI.length ∧
      (∀ j, ((List.range k).foldl
        (fun (acc : SensingBracelet × List ε) i =>
          ((acc.1.atModel i (g i)).1, acc.2 ++ (acc.1.atModel i (g i)).2)) (sb, [])).1.setI[j]?
        = if j < k then sb.setI[j]?.map (fun I => (g j I).1) else sb.setI[j]?) ∧
      ((List.range k).foldl
        (fun (acc : SensingBracelet × List ε) i =>
          ((acc.1.atModel i (g i)).1, acc.2 ++ (acc.1.atModel i (g i)).2)) (sb, [])).2
        = ((List.range k).map fun j =>
            match sb.setI[j]? with
            | some I => (g j I).2
            | none => []).flatten := by
  induction k with
  | zero => simp
  | succ k ih =>
    rw [List.range_succ, List.foldl_append]
    simp only [List.foldl_cons, List.foldl_nil, List.map_append, List.map_cons, List.map_nil,
      List.flatten_append, List.flatten_cons, List.flatten_nil, List.append_nil]
    generalize (List.range k).foldl
        (fun (acc : SensingBracelet × List ε) i =>
          ((acc.1.atModel i (g i)).1, acc.2 ++ (acc.1.atModel i (g i)).2)) (sb, []) = acc at ih
    obtain ⟨h1, h2, h3, h4⟩ := ih
    have hk : acc.1.setI[k]? = sb.setI[k]? := by
      rw [h3 k, if_neg (Nat.lt_irrefl k)]
    obtain ⟨s1, s2⟩ := SensingBracelet.atModel_shape acc.1 k (g k)
    refine ⟨by rw [s1, h1], by rw [s2, h2], ?_, ?_⟩
    · intro j
      unfold SensingBracelet.atModel
      rw [hk]
      cases hs : sb.setI[k]? with
      | none =>
        simp only
        rw [h3 j]
        by_cases hj : j < k
        · simp [hj, show j < k + 1 by omega]
        · by_cases hjk : j = k
          · subst hjk
            simp [hs]
          · simp [hj, show ¬ j < k + 1 by omega]
      | some I =>
        simp only
        rw [List.getElem?_set]
        by_cases hjk : k = j
        · subst hjk
          have hlt : k < acc.1.setI.length := by
            have := List.getElem?_eq_some.1 (hk.trans hs)
            exact this.1
          simp [hlt, hs]
        · rw [if_neg hjk, h3 j]
          by_cases hj : j < k
          · simp [hj, show j < k + 1 by omega]
          · simp [hj, show ¬ j < k + 1 by omega]
    · unfold SensingBracelet.atModel
      rw [hk, h4]
      cases hs : sb.setI[k]? with
      | none => simp
      | some I => simp

/-- A loop over the models whose body works on `setI[i]` alone, when there is
one interval per model: every interval is transformed from its state before
the loop, and the publications are those of the models in order. -/
theorem forModels_atModel {ε : Type} (sb : SensingBracelet)
    (g : Nat → Interval → Interval × List ε) :
    (sb.forModels fun s i => s.atModel i.toNat (g i.toNat)).1.nbM = sb.nbM ∧
      (sb.forModels fun s i => s.atModel i.toNat (g i.toNat)).1.setI.length
        = sb.setI.length ∧
      (∀ j, j < sb.nbM.toNat →
        (sb.forModels fun s i => s.atModel i.toNat (g i.toNat)).1.setI[j]?
          = sb.setI[j]?.map (fun I => (g j I).1)) ∧
      (sb.forModels fun s i => s.atModel i.toNat (g i.toNat)).2
        = ((List.range sb.nbM.toNat).map fun j =>
            match sb.setI[j]? with
            | some I => (g j I).2
            | none => []).flatten := by
  obtain ⟨h1, h2, h3, h4⟩ := forModels_fold sb g sb.nbM.toNat
  have e : (sb.forModels fun s i => s.atModel i.toNat (g i.toNat)) =
      (List.range sb.nbM.toNat).foldl
        (fun (acc : SensingBracelet × List ε) i =>
          ((acc.1.atModel i (g i)).1, acc.2 ++ (acc.1.atModel i (g i)).2)) (sb, []) := by
    unfold SensingBracelet.forModels
    simp only [Int.toNat_ofNat]
  rw [e]
  refine ⟨h1, h2, ?_, h4⟩
  intro j hj
  have := h3 j
  rwa [if_pos hj] at this

/-- One pass of the online tracking, seen from the model `j`. -/
theorem onlineStep_model (st : TrackState Tuple) (row : List ℚ) (j : Nat)
    (hj : j < st.sb.nbM.toNat) :
    (onlineStep st row).sb.nbM = st.sb.nbM ∧
      (onlineStep st row).sb.setI.length = st.sb.setI.length ∧
      (onlineStep st row).nSamples = st.nSamples + 1 ∧
      (onlineStep st row).possibilities = row ∧
      (onlineStep st row).sb.setI[j]? = st.sb.setI[j]?.map fun I =>
        (I.simpleInterval st.nSamples (row.getD j 0) (st.possibilities.getD j 0)).1 := by
  obtain ⟨h1, h2, h3, _⟩ := forModels_atModel st.sb
    (fun k I => I.simpleInterval st.nSamples (row.getD k 0) (st.possibilities.getD k 0))
  exact ⟨h1, h2, rfl, rfl, h3 j hj⟩

/-- The online tracking, seen from the model `j`: its interval goes through
the successive calls of `simpleInterval` on the stream of the model. -/
theorem onlineFold_model (rows : List (List ℚ)) (st : TrackState Tuple) (j : Nat)
    (hj : j < st.sb.nbM.toNat) :
    (rows.foldl onlineStep st).sb.nbM = st.sb.nbM ∧
      (rows.foldl onlineStep st).sb.setI[j]? = st.sb.setI[j]?.map fun I =>
        I.simpleStream st.nSamples (st.possibilities.getD j 0) (streamOf rows j) := by
  induction rows generalizing st with
  | nil =>
    refine ⟨rfl, ?_⟩
    simp [streamOf, Interval.simpleStream]
  | cons row rest ih =>
    obtain ⟨s1, _, s3, s4, s5⟩ := onlineStep_model st row j hj
    obtain ⟨i1, i2⟩ := ih (onlineStep st row) (by rw [s1]; exact hj)
    rw [List.foldl_cons]
    refine ⟨by rw [i1, s1], ?_⟩
    rw [i2, s5, s3, s4]
    cases st.sb.setI[j]? with
    | none => rfl
    | some I => simp [streamOf, Interval.simpleStream]

/-- The interval of a model of a freshly constructed bracelet after the online
tracking of the rows. -/
theorem onlineTracking_model (names : List String) (first : Int) (rows : List (List ℚ))
    (i : Nat) (hi : i < names.length) :
    (onlineTracking (SensingBracelet.create names) first rows).sb.setI[i]? =
      some ((Interval.create (names.getD i "")).simpleStream first 0 (streamOf rows i)) := by
  unfold onlineTracking
  have hn : i < (SensingBracelet.create names).nbM.toNat := by
    simp [SensingBracelet.create, hi]
  rw [(onlineFold_model rows _ i hn).2]
  simp [SensingBracelet.create, hi, List.getElem?_eq_getElem hi, List.getD_eq_getElem?_getD]

/-- After a call of `simpleInterval` the interval is open exactly when the
possibility exceeds `0.8`. -/
theorem simpleInterval_open (I : Interval) (nS : Int) (p pp : ℚ) :
    (I.simpleInterval nS p pp).1.open_ = true ↔ p > 4 / 5 := by
  unfold Interval.simpleInterval
  by_cases hp : p > 4 / 5
  · by_cases ho : I.open_ = false
    · simp [hp, ho, Interval.startInterval]
    · have ho2 : I.open_ = true := by simpa using ho
      by_cases hge : p ≥ I.possibility
      · simp [hp, ho2, hge]
      · simp [hp, ho2, hge]
  · by_cases ho : I.open_ = true
    · simp [hp, ho, Interval.setEnd]
    · simp [hp, ho]

/-- The calls of one model on a stream that ends with the sample `p`. -/
theorem simpleStream_append (I : Interval) (nS : Int) (pp : ℚ) (l : List ℚ) (p : ℚ) :
    I.simpleStream nS pp (l ++ [p]) =
      ((I.simpleStream nS pp l).simpleInterval (nS + l.length) p ((pp :: l).getLast (by simp))).1 := by
  induction l generalizing I nS pp with
  | nil => simp [Interval.simpleStream]
  | cons a l ih =>
    simp only [List.cons_append, Interval.simpleStream, List.length_cons, List.append_eq]
    rw [ih]
    have e : nS + 1 + (l.length : Int) = nS + ((l.length + 1 : Nat) : Int) := by push_cast; ring
    rw [e]
    congr 1

/-- After the calls of one model on a non-empty stream, the interval is open
exactly when the last possibility exceeds `0.8`. -/
theorem simpleStream_open (I : Interval) (nS : Int) (pp : ℚ) (s : List ℚ) (N : Nat)
    (hN : N < s.length) :
    (I.simpleStream nS pp (s.take (N + 1))).open_ = true ↔ s.getD N 0 > 4 / 5 := by
  have ht : s.take (N + 1) = s.take N ++ [s.getD N 0] := by
    rw [List.take_succ, List.getD_eq_getElem?_getD, List.getElem?_eq_getElem hN]
    rfl
  rw [ht, simpleStream_append, simpleInterval_open]

/-- C13: for every possibility stream fed to `simpleInterval` for one model,
starting from a freshly constructed (closed) interval, the interval is open
after sample `N` if and only if there exists `M <= N` with `p_M > 0.8` and no
`K` in `(M, N]` with `p_K <= 0.8`. -/
theorem simple_policy_open_iff (names : List String) (first : Int) (rows : List (List ℚ))
    (i : Nat) (hi : i < names.length) (N : Nat) (hN : N < rows.length) :
    ∃ I : Interval,
      (onlineTracking (SensingBracelet.create names) first (rows.take (N + 1))).sb.setI[i]?
        = some I ∧
      (I.open_ = true ↔
        ∃ M, M ≤ N ∧ (streamOf rows i).getD M 0 > 4 / 5 ∧
          ∀ K, M < K → K ≤ N → ¬ ((streamOf rows i).getD K 0 ≤ 4 / 5)) := by
  refine ⟨_, onlineTracking_model names first (rows.take (N + 1)) i hi, ?_⟩
  have hs : streamOf (rows.take (N + 1)) i = (streamOf rows i).take (N + 1) := by
    simp [streamOf, List.map_take]
  have hl : N < (streamOf rows i).length := by simpa [streamOf] using hN
  rw [hs, simpleStream_open _ _ _ _ N hl]
  constructor
  · intro h
    exact ⟨N, le_refl _, h, fun K h1 h2 => absurd h2 (by omega)⟩
  · rintro ⟨M, hM, hpM, hno⟩
    by_cases hMN : M = N
    · subst hMN
      exact hpM
    · exact not_le.1 (hno N (by omega) (le_refl _))

/-- Witness of C13: on the stream `0.5, 0.85, 0.9, 0.7` the interval is open
after sample 2 and closed after sample 3. -/
theorem simple_policy_open_iff_witness :
    (∃ I : Interval,
      (onlineTracking (SensingBracelet.create ["drink"]) 0
          ([[1 / 2], [17 / 20], [9 / 10], [7 / 10]].take (2 + 1))).sb.setI[0]? = some I ∧
      (I.open_ = true ↔
        ∃ M, M ≤ 2 ∧ (streamOf [[1 / 2], [17 / 20], [9 / 10], [7 / 10]] 0).getD M 0 > 4 / 5 ∧
          ∀ K, M < K → K ≤ 2 →
            ¬ ((streamOf [[1 / 2], [17 / 20], [9 / 10], [7 / 10]] 0).getD K 0 ≤ 4 / 5))) ∧
      ((onlineTracking (SensingBracelet.create ["drink"]) 0
          [[1 / 2], [17 / 20], [9 / 10]]).sb.setI.map Interval.open_) = [true] ∧
      ((onlineTracking (SensingBracelet.create ["drink"]) 0
          [[1 / 2], [17 / 20], [9 / 10], [7 / 10]]).sb.setI.map Interval.open_) = [false] :=
  ⟨simple_policy_open_iff ["drink"] 0 [[1 / 2], [17 / 20], [9 / 10], [7 / 10]] 0 (by decide) 2
      (by decide),
    by decide!, by decide!⟩

/-- The calls of one model on two streams in a row. -/
theorem simpleStream_concat (I : Interval) (nS : Int) (pp : ℚ) (l1 l2 : List ℚ) :
    I.simpleStream nS pp (l1 ++ l2) =
      (I.simpleStream nS pp l1).simpleStream (nS + l1.length)
        ((pp :: l1).getLast (by simp)) l2 := by
  induction l1 generalizing I nS pp with
  | nil => simp [Interval.simpleStream]
  | cons a l ih =>
    simp only [List.cons_append, Interval.simpleStream, List.length_cons, List.append_eq]
    rw [ih]
    have e : nS + 1 + (l.length : Int) = nS + ((l.length + 1 : Nat) : Int) := by push_cast; ring
    rw [e]
    congr 1

/-- The running maximum kept by the simple policy over a run of samples. -/
theorem runningMax_spec (l : List ℚ) (init : ℚ) :
    init ≤ l.foldl (fun acc x => if x ≥ acc then x else acc) init ∧
      (∀ x ∈ l, x ≤ l.foldl (fun acc x => if x ≥ acc then x else acc) init) ∧
      (l.foldl (fun acc x => if x ≥ acc then x else acc) init = init ∨
        l.foldl (fun acc x => if x ≥ acc then x else acc) init ∈ l) := by
  induction l generalizing init with
  | nil => simp
  | cons a l ih =>
    rw [List.foldl_cons]
    obtain ⟨h1, h2, h3⟩ := ih (if a ≥ init then a else init)
    have hstep : init ≤ (if a ≥ init then a else init) ∧ a ≤ (if a ≥ init then a else init) := by
      by_cases h : a ≥ init
      · rw [if_pos h]; exact ⟨h, le_refl _⟩
      · rw [if_neg h]; exact ⟨le_refl _, le_of_lt (not_le.1 h)⟩
    refine ⟨le_trans hstep.1 h1, ?_, ?_⟩
    · intro x hx
      rcases List.mem_cons.1 hx with rfl | hx
      · exact le_trans hstep.2 h1
      · exact h2 x hx
    · rcases h3 with h3 | h3
      · by_cases h : a ≥ init
        · right
          rw [h3]
          simp [h]
        · left
          rw [h3]
          simp [h]
      · right
        exact List.mem_cons_of_mem _ h3

/-- The calls of one model on a run of samples above `0.8` while its interval
is open: the end follows the sample number and the possibility is the running
maximum. -/
theorem simpleStream_run (rest : List ℚ) (x : ℚ) (I : Interval) (nS : Int) (pp : ℚ)
    (hopen : I.open_ = true) (hx : x > 4 / 5) (hrest : ∀ y ∈ rest, y > 4 / 5) :
    I.simpleStream nS pp (x :: rest) =
      { I with end_ := (nS + (rest.length : Int), I.end_.2),
               possibility := (x :: rest).foldl (fun acc y => if y ≥ acc then y else acc)
                 I.possibility } := by
  induction rest generalizing x I nS pp with
  | nil =>
    simp only [Interval.simpleStream, Interval.simpleInterval, hx, if_true, hopen,
      List.length_nil, List.foldl_cons, List.foldl_nil]
    by_cases h : x ≥ I.possibility
    · simp [h]
    · simp [h]
  | cons y rest ih =>
    have hy : y > 4 / 5 := hrest y (by simp)
    have hstep : (I.simpleInterval nS x pp).1 =
        { I with end_ := (nS, I.end_.2),
                 possibility := if x ≥ I.possibility then x else I.possibility } := by
      simp only [Interval.simpleInterval, hx, if_true, hopen]
      by_cases h : x ≥ I.possibility
      · simp [h]
      · simp [h]
    rw [Interval.simpleStream, hstep, ih y
      { I with end_ := (nS, I.end_.2),
               possibility := if x ≥ I.possibility then x else I.possibility }
      (nS + 1) x hopen hy (fun z hz => hrest z (List.mem_cons_of_mem _ hz))]
    simp only [List.length_cons, List.foldl_cons]
    congr 2
    push_cast
    ring

/-- C14: for every possibility stream under the simple policy that contains a
run of consecutive samples `M..N`, `N > M`, all above `0.8`, preceded by a
sample `p_(M-1) <= 0.8` and followed by a sample `p_(N+1) <= 0.8`, after
sample `N+1` the interval is closed with `start = (M, M)`, `end = (N, N)`,
`possibility` the maximum of `p` over `M..N` and `ref_possibility = p_(M-1)`.
The stream of the model is `pre ++ [a] ++ run ++ [z]`, the first sample has
number `first`, so `M = first + |pre| + 1` and `N = first + |pre| + |run|`. -/
theorem simple_policy_run_is_recorded (names : List String) (first : Int)
    (rows : List (List ℚ)) (i : Nat) (hi : i < names.length)
    (pre run : List ℚ) (a z : ℚ)
    (hstream : streamOf rows i = pre ++ [a] ++ run ++ [z])
    (ha : a ≤ 4 / 5) (hrun : ∀ x ∈ run, x > 4 / 5) (hlen : 2 ≤ run.length) (hz : z ≤ 4 / 5) :
    ∃ I : Interval,
      (onlineTracking (SensingBracelet.create names) first rows).sb.setI[i]? = some I ∧
      I.open_ = false ∧
      I.start = (first + (pre.length : Int) + 1, first + (pre.length : Int) + 1) ∧
      I.end_ = (first + (pre.length : Int) + (run.length : Int),
                first + (pre.length : Int) + (run.length : Int)) ∧
      I.possibility ∈ run ∧ (∀ x ∈ run, x ≤ I.possibility) ∧
      I.refPossibility = a := by
  refine ⟨_, onlineTracking_model names first rows i hi, ?_⟩
  rw [hstream]
  match run, hlen, hrun with
  | m :: y :: rest, _, hrun =>
    have hm : m > 4 / 5 := hrun m (by simp)
    have hy : y > 4 / 5 := hrun y (by simp)
    have hrest : ∀ x ∈ rest, x > 4 / 5 := fun x hx => hrun x (by simp [hx])
    have hassoc : pre ++ [a] ++ (m :: y :: rest) ++ [z] =
        (pre ++ [a]) ++ ([m] ++ ((y :: rest) ++ [z])) := by simp
    rw [hassoc, simpleStream_concat, simpleStream_concat]
    generalize hA : (Interval.create (names.getD i "")).simpleStream first 0 (pre ++ [a]) = A
    have hAclosed : A.open_ = false := by
      have h := simpleInterval_open
        ((Interval.create (names.getD i "")).simpleStream first 0 pre)
        (first + pre.length) a ((0 :: pre).getLast (by simp))
      rw [← simpleStream_append, hA] at h
      cases hb : A.open_ with
      | false => rfl
      | true => exact absurd (h.1 hb) (not_lt.2 ha)
    have hlast : ((0 : ℚ) :: (pre ++ [a])).getLast (by simp) = a := by
      simp [List.getLast_cons]
    have hB : A.simpleStream (first + ((pre ++ [a]).length : Int))
        (((0 : ℚ) :: (pre ++ [a])).getLast (by simp)) [m] =
        A.startInterval m (first + (pre.length : Int) + 1) a := by
      rw [hlast]
      have e : first + ((pre ++ [a]).length : Int) = first + (pre.length : Int) + 1 := by
        simp; ring
      rw [e]
      simp [Interval.simpleStream, Interval.simpleInterval, hm, hAclosed]
    rw [hB, simpleStream_append]
    have hBopen : (A.startInterval m (first + (pre.length : Int) + 1) a).open_ = true := rfl
    rw [simpleStream_run rest y _ _ _ hBopen hy hrest]
    have hclose : ∀ (C : Interval) (nS : Int) (pp : ℚ), C.open_ = true →
        (C.simpleInterval nS z pp).1 = { C.setEnd C.end_.1 with open_ := false } := by
      intro C nS pp hC
      have hz2 : ¬ z > 4 / 5 := not_lt.2 hz
      simp [Interval.simpleInterval, hz2, hC]
    rw [hclose]
    swap
    · exact hBopen
    obtain ⟨k1, k2, k3⟩ := runningMax_spec (y :: rest) m
    refine ⟨rfl, rfl, ?_, ?_, ?_, rfl⟩
    · simp only [Interval.setEnd, Interval.startInterval, List.length_cons, List.length_singleton,
        Prod.mk.injEq]
      constructor <;> (simp only [List.length_append, List.length_cons, List.length_nil]; push_cast; ring)
    · show (y :: rest).foldl (fun acc y => if y ≥ acc then y else acc) m ∈ m :: y :: rest
      rcases k3 with k3 | k3
      · rw [k3]; simp
      · exact List.mem_cons_of_mem _ k3
    · intro x hx
      show x ≤ (y :: rest).foldl (fun acc y => if y ≥ acc then y else acc) m
      rcases List.mem_cons.1 hx with rfl | hx
      · exact k1
      · exact k2 x hx

/-- Witness of C14: scenario S3 of the specification, the stream
`0.5, 0.85, 0.9, 0.7, 0.6` with samples numbered from 0. -/
theorem simple_policy_run_is_recorded_witness :
    (∃ I : Interval,
      (onlineTracking (SensingBracelet.create ["drink"]) 0
          [[1 / 2], [17 / 20], [9 / 10], [7 / 10]]).sb.setI[0]? = some I ∧
      I.open_ = false ∧
      I.start = ((0 : Int) + (([] : List ℚ).length : Int) + 1,
        (0 : Int) + (([] : List ℚ).length : Int) + 1) ∧
      I.end_ = ((0 : Int) + (([] : List ℚ).length : Int) + (([17 / 20, 9 / 10] : List ℚ).length : Int),
        (0 : Int) + (([] : List ℚ).length : Int) + (([17 / 20, 9 / 10] : List ℚ).length : Int)) ∧
      I.possibility ∈ ([17 / 20, 9 / 10] : List ℚ) ∧
      (∀ x ∈ ([17 / 20, 9 / 10] : List ℚ), x ≤ I.possibility) ∧
      I.refPossibility = 1 / 2) ∧
      (onlineTracking (SensingBracelet.create ["drink"]) 0
          [[1 / 2], [17 / 20], [9 / 10], [7 / 10], [3 / 5]]).sb.setI =
        [{ HMPname := "drink", open_ := false, start := (1, 1), end_ := (2, 2),
           possibility := 9 / 10, refPossibility := 1 / 2, risingTime := 1 }] :=
  ⟨simple_policy_run_is_recorded ["drink"] 0 [[1 / 2], [17 / 20], [9 / 10], [7 / 10]] 0
      (by decide) [] [17 / 20, 9 / 10] (1 / 2) (7 / 10) (by decide!) (by norm_num)
      (by norm_num) (by decide) (by norm_num),
    by decide!⟩

/-- A call of `updateInterval` keeps the recorded peak of an open interval
positive, and what it publishes has a peak above the reference. -/
theorem updateInterval_peak (I : Interval) (nS : Int) (p pp : ℚ) (f : Int)
    (hI : I.open_ = true → 0 < I.possibility) :
    ((I.updateInterval nS p pp f).1.open_ = true → 0 < (I.updateInterval nS p pp f).1.possibility) ∧
      ∀ pub ∈ (I.updateInterval nS p pp f).2,
        pub.interval.refPossibility < pub.interval.possibility := by
  unfold Interval.updateInterval publishInterval
  by_cases hp : p > 0
  · by_cases ho : I.open_ = false
    · simp [hp, ho, Interval.startInterval]
    · have ho2 : I.open_ = true := by simpa using ho
      by_cases hge : p ≥ I.possibility
      · simp [hp, ho2, hge]
      · have hlt : p < I.possibility := not_le.1 hge
        simp only [hp, ho2, hge, if_true, if_false, Bool.true_eq_false]
        split_ifs <;> simp_all [Interval.setEnd]
  · by_cases hc : I.open_ = true ∧ I.refPossibility = 0
    · simp only [hp, hc, if_false, if_true]
      have := hI hc.1
      refine ⟨by simp, ?_⟩
      intro pub hpub
      split_ifs at hpub <;> simp_all [Interval.setEnd]
    · simp only [hp, hc, if_false]
      exact ⟨hI, by simp⟩

/-- The end-of-stream treatment of an interval publishes only an interval with
a peak above the reference, and leaves no interval open with a null
reference. -/
theorem closeAtEnd_peak (I : Interval) (hI : I.open_ = true → 0 < I.possibility) :
    (I.closeAtEnd.1.open_ = true → 0 < I.closeAtEnd.1.possibility) ∧
      ∀ pub ∈ I.closeAtEnd.2, pub.interval.refPossibility < pub.interval.possibility := by
  unfold Interval.closeAtEnd
  by_cases hc : I.open_ = true ∧ I.refPossibility = 0
  · have := hI hc.1
    simp [hc, Interval.setEnd]
    exact this
  · simp only [hc, if_false]
    exact ⟨hI, by simp⟩

/-- A loop over the models whose body works on `setI[i]` alone keeps a
property of all the intervals that each body keeps, and publishes only what
the bodies publish. -/
theorem forModels_invariant {ε : Type} (sb : SensingBracelet)
    (g : Nat → Interval → Interval × List ε) (P : Interval → Prop) (Q : ε → Prop)
    (hg : ∀ j I, P I → P (g j I).1 ∧ ∀ e ∈ (g j I).2, Q e)
    (hsb : ∀ I ∈ sb.setI, P I) :
    (∀ I ∈ (sb.forModels fun s i => s.atModel i.toNat (g i.toNat)).1.setI, P I) ∧
      ∀ e ∈ (sb.forModels fun s i => s.atModel i.toNat (g i.toNat)).2, Q e := by
  obtain ⟨_, _, h3, h4⟩ := forModels_fold sb g sb.nbM.toNat
  have e : (sb.forModels fun s i => s.atModel i.toNat (g i.toNat)) =
      (List.range sb.nbM.toNat).foldl
        (fun (acc : SensingBracelet × List ε) i =>
          ((acc.1.atModel i (g i)).1, acc.2 ++ (acc.1.atModel i (g i)).2)) (sb, []) := by
    unfold SensingBracelet.forModels
    simp only [Int.toNat_ofNat]
  rw [e]
  constructor
  · intro I hmem
    obtain ⟨j, hj⟩ := List.mem_iff_getElem?.1 hmem
    rw [h3 j] at hj
    by_cases hjk : j < sb.nbM.toNat
    · rw [if_pos hjk] at hj
      cases hs : sb.setI[j]? with
      | none => rw [hs] at hj; simp at hj
      | some I0 =>
        rw [hs] at hj
        simp only [Option.map_some', Option.some.injEq] at hj
        rw [← hj]
        exact (hg j I0 (hsb I0 (List.getElem?_mem hs))).1
    · rw [if_neg hjk] at hj
      exact hsb I (List.getElem?_mem hj)
  · intro x hx
    rw [h4] at hx
    obtain ⟨l, hl, hxl⟩ := List.mem_flatten.1 hx
    obtain ⟨j, _, hj⟩ := List.mem_map.1 hl
    cases hs : sb.setI[j]? with
    | none => rw [hs] at hj; subst hj; simp at hxl
    | some I0 =>
      rw [hs] at hj
      subst hj
      exact (hg j I0 (hsb I0 (List.getElem?_mem hs))).2 x hxl

/-- One pass of the offline analysis keeps the peak invariant: open intervals
have a positive peak, published intervals have a peak above their reference. -/
theorem offlineStep_peak (st : TrackState Publication) (row : List ℚ)
    (h1 : ∀ I ∈ st.sb.setI, I.open_ = true → 0 < I.possibility)
    (h2 : ∀ pub ∈ st.published, pub.interval.refPossibility < pub.interval.possibility) :
    (∀ I ∈ (offlineStep st row).sb.setI, I.open_ = true → 0 < I.possibility) ∧
      ∀ pub ∈ (offlineStep st row).published,
        pub.interval.refPossibility < pub.interval.possibility := by
  obtain ⟨k1, k2⟩ := forModels_invariant st.sb
    (fun k I => I.updateInterval st.nSamples (row.getD k 0) (st.possibilities.getD k 0) 0)
    (fun I => I.open_ = true → 0 < I.possibility)
    (fun pub => pub.interval.refPossibility < pub.interval.possibility)
    (fun j I hI => updateInterval_peak I _ _ _ _ hI) h1
  refine ⟨k1, ?_⟩
  intro pub hpub
  rcases List.mem_append.1 hpub with h | h
  · exact h2 pub h
  · exact k2 pub h

/-- The loop of the offline analysis keeps the peak invariant. -/
theorem offlineFold_peak (rows : List (List ℚ)) (st : TrackState Publication)
    (h1 : ∀ I ∈ st.sb.setI, I.open_ = true → 0 < I.possibility)
    (h2 : ∀ pub ∈ st.published, pub.interval.refPossibility < pub.interval.possibility) :
    (∀ I ∈ (rows.foldl offlineStep st).sb.setI, I.open_ = true → 0 < I.possibility) ∧
      ∀ pub ∈ (rows.foldl offlineStep st).published,
        pub.interval.refPossibility < pub.interval.possibility := by
  induction rows generalizing st with
  | nil => exact ⟨h1, h2⟩
  | cons row rest ih =>
    obtain ⟨s1, s2⟩ := offlineStep_peak st row h1 h2
    exact ih (offlineStep st row) s1 s2

/-- C17: for every possibility stream processed by the accurate policy from a
freshly constructed bracelet, every interval that is published (by the
symmetric-close rule, by the return-to-zero rule, or at end of stream) has a
recorded peak possibility strictly greater than its reference possibility. -/
theorem published_peak_above_reference (names : List String) (rows : List (List ℚ))
    (pub : Publication)
    (hpub : pub ∈ (offlineSensingBracelet (SensingBracelet.create names) rows).2) :
    pub.interval.refPossibility < pub.interval.possibility := by
  have h0 : ∀ I ∈ (SensingBracelet.create names).setI, I.open_ = true → 0 < I.possibility := by
    intro I hI ho
    simp only [SensingBracelet.create, List.mem_map] at hI
    obtain ⟨n, _, rfl⟩ := hI
    simp [Interval.create] at ho
  obtain ⟨s1, s2⟩ := offlineFold_peak rows
    { sb := SensingBracelet.create names,
      possibilities := List.replicate (SensingBracelet.create names).nbM.toNat 0,
      past_possibilities := List.replicate (SensingBracelet.create names).nbM.toNat 0,
      nSamples := 0, published := [] } h0 (by simp)
  obtain ⟨_, k2⟩ := forModels_invariant
    (offlineLoop (SensingBracelet.create names) rows).sb
    (fun _ I => I.closeAtEnd)
    (fun I => I.open_ = true → 0 < I.possibility)
    (fun pub => pub.interval.refPossibility < pub.interval.possibility)
    (fun j I hI => closeAtEnd_peak I hI) s1
  rcases List.mem_append.1 hpub with h | h
  · exact s2 pub h
  · exact k2 pub h

/-- Witness of C17: the stream `0, 0.4, 0.6, 0.4, 0` of one model, whose
interval is published by the return-to-zero rule with peak `0.6` and
reference `0`. -/
theorem published_peak_above_reference_witness :
    (offlineSensingBracelet (SensingBracelet.create ["drink"])
        [[0], [2 / 5], [3 / 5], [2 / 5], [0]]).2 =
      [{ sink := 0,
         interval := { HMPname := "drink", open_ := true, start := (1, 1), end_ := (2, 2),
                       possibility := 3 / 5, refPossibility := 0, risingTime := 1 } }] ∧
      (0 : ℚ) < 3 / 5 :=
  ⟨by decide!,
    published_peak_above_reference ["drink"] [[0], [2 / 5], [3 / 5], [2 / 5], [0]]
      { sink := 0,
        interval := { HMPname := "drink", open_ := true, start := (1, 1), end_ := (2, 2),
                      possibility := 3 / 5, refPossibility := 0, risingTime := 1 } }
      (by decide!)⟩

/-- Reading every position of a list in turn and collecting what a function
gives on each entry. -/
theorem flatten_range_getElem? {α ε : Type} (f : α → List ε) (l : List α) :
    ((List.range l.length).map fun j =>
        match l[j]? with
        | some I => f I
        | none => []).flatten = (l.map f).flatten := by
  induction l using List.reverseRecOn with
  | nil => rfl
  | append_singleton l a ih =>
    rw [List.length_append, List.length_singleton, List.range_succ, List.map_append,
      List.flatten_append, List.map_append, List.flatten_append]
    congr 1
    · rw [← ih]
      congr 1
      apply List.map_congr_left
      intro j hj
      rw [List.getElem?_append_left (List.mem_range.1 hj)]
    · simp

/-- What the end-of-stream treatment reports, over a list of intervals. -/
theorem closeAtEnd_reports (l : List Interval) :
    (l.map fun I => I.closeAtEnd.2).flatten =
      (l.filter fun I => decide (I.open_ = true ∧ I.refPossibility = 0)).map
        fun I => { sink := 0, interval := I.setEnd I.end_.1 } := by
  induction l with
  | nil => rfl
  | cons I l ih =>
    rw [List.map_cons, List.flatten_cons, ih]
    by_cases hc : I.open_ = true ∧ I.refPossibility = 0
    · simp [Interval.closeAtEnd, hc]
    · rw [List.filter_cons_of_neg (by simpa using hc)]
      simp [Interval.closeAtEnd, hc]

/-- One pass of the offline analysis keeps the number of models and the number
of intervals. -/
theorem offlineStep_shape (st : TrackState Publication) (row : List ℚ) :
    (offlineStep st row).sb.nbM = st.sb.nbM ∧
      (offlineStep st row).sb.setI.length = st.sb.setI.length := by
  obtain ⟨h1, h2, _, _⟩ := forModels_atModel st.sb
    (fun k I => I.updateInterval st.nSamples (row.getD k 0) (st.possibilities.getD k 0) 0)
  exact ⟨h1, h2⟩

/-- The loop of the offline analysis keeps the number of models and the number
of intervals. -/
theorem offlineFold_shape (rows : List (List ℚ)) (st : TrackState Publication) :
    (rows.foldl offlineStep st).sb.nbM = st.sb.nbM ∧
      (rows.foldl offlineStep st).sb.setI.length = st.sb.setI.length := by
  induction rows generalizing st with
  | nil => exact ⟨rfl, rfl⟩
  | cons row rest ih =>
    obtain ⟨s1, s2⟩ := offlineStep_shape st row
    obtain ⟨i1, i2⟩ := ih (offlineStep st row)
    exact ⟨i1.trans s1, i2.trans s2⟩

/-- The last loop of `offlineSensingBracelet` on a bracelet with one interval
per model: every interval goes through the end-of-stream treatment, and the
reports are those of the intervals in order. -/
theorem closeAllAtEnd_spec (sb : SensingBracelet) (hwf : sb.setI.length = sb.nbM.toNat) :
    (closeAllAtEnd sb).1.setI = sb.setI.map (fun I => I.closeAtEnd.1) ∧
      (closeAllAtEnd sb).2 = (sb.setI.map fun I => I.closeAtEnd.2).flatten := by
  obtain ⟨_, h2, h3, h4⟩ := forModels_atModel sb (fun _ I => I.closeAtEnd)
  constructor
  · apply List.ext_getElem?
    intro j
    by_cases hj : j < sb.nbM.toNat
    · rw [List.getElem?_map]
      exact h3 j hj
    · have e1 : (closeAllAtEnd sb).1.setI.length ≤ j := by
        have : (closeAllAtEnd sb).1.setI.length = sb.setI.length := h2
        omega
      have e2 : (sb.setI.map fun I => I.closeAtEnd.1).length ≤ j := by
        rw [List.length_map]; omega
      rw [List.getElem?_eq_none e1, List.getElem?_eq_none e2]
  · have : (closeAllAtEnd sb).2 = _ := h4
    rw [this, ← hwf, ← flatten_range_getElem? (fun I => I.closeAtEnd.2) sb.setI]
    congr 1
    apply List.map_congr_left
    intro j _
    cases sb.setI[j]? <;> rfl

/-- C18: for every possibility file processed by `offlineSensingBracelet`, at
end of stream each interval that is still open with `ref_possibility == 0` is
published exactly once with `end = (end_low, end_low)` and then marked closed,
so that on return no interval is both open and has `ref_possibility == 0`;
intervals open with `ref_possibility != 0` (and the closed ones) are neither
published nor changed. -/
theorem end_of_stream_closes_open_intervals (sb : SensingBracelet) (rows : List (List ℚ))
    (hwf : sb.setI.length = sb.nbM.toNat) :
    (offlineSensingBracelet sb rows).1.setI =
        (offlineLoop sb rows).sb.setI.map (fun I =>
          if I.open_ = true ∧ I.refPossibility = 0 then
            { I with end_ := (I.end_.1, I.end_.1), open_ := false }
          else I) ∧
      (offlineSensingBracelet sb rows).2 =
        (offlineLoop sb rows).published ++
          ((offlineLoop sb rows).sb.setI.filter
              fun I => decide (I.open_ = true ∧ I.refPossibility = 0)).map
            (fun I => { sink := 0, interval := { I with end_ := (I.end_.1, I.end_.1) } }) ∧
      ∀ I ∈ (offlineSensingBracelet sb rows).1.setI,
        ¬ (I.open_ = true ∧ I.refPossibility = 0) := by
  obtain ⟨s1, s2⟩ := offlineFold_shape rows
    { sb := sb, possibilities := List.replicate sb.nbM.toNat 0,
      past_possibilities := List.replicate sb.nbM.toNat 0, nSamples := 0, published := [] }
  have hwf2 : (offlineLoop sb rows).sb.setI.length = (offlineLoop sb rows).sb.nbM.toNat := by
    unfold offlineLoop
    rw [s1, s2]
    exact hwf
  obtain ⟨c1, c2⟩ := closeAllAtEnd_spec (offlineLoop sb rows).sb hwf2
  have hmap : (offlineSensingBracelet sb rows).1.setI =
      (offlineLoop sb rows).sb.setI.map (fun I =>
        if I.open_ = true ∧ I.refPossibility = 0 then
          { I with end_ := (I.end_.1, I.end_.1), open_ := false }
        else I) := by
    show (closeAllAtEnd (offlineLoop sb rows).sb).1.setI = _
    rw [c1]
    apply List.map_congr_left
    intro I _
    unfold Interval.closeAtEnd
    by_cases hc : I.open_ = true ∧ I.refPossibility = 0
    · simp [hc, Interval.setEnd]
    · simp [hc]
  refine ⟨hmap, ?_, ?_⟩
  · show (offlineLoop sb rows).published ++ (closeAllAtEnd (offlineLoop sb rows).sb).2 = _
    rw [c2, closeAtEnd_reports]
    rfl
  · intro I hI
    rw [hmap] at hI
    obtain ⟨J, _, rfl⟩ := List.mem_map.1 hI
    by_cases hc : J.open_ = true ∧ J.refPossibility = 0
    · simp [hc]
    · simp [hc]

/-- Witness of C18: three models at the end of a stream of four samples; the
first interval is open with a null reference (reported once and closed), the
second is open with reference `0.3` (left as it is), the third is closed. -/
theorem end_of_stream_closes_open_intervals_witness :
    (offlineLoop (SensingBracelet.create ["drink", "climb", "sit"])
        [[0, 1 / 2, 0], [0, 1 / 5, 0], [2 / 5, 3 / 10, 0], [3 / 5, 2 / 5, 0]]).sb.setI =
      [{ HMPname := "drink", open_ := true, start := (2, 2), end_ := (3, pINF),
         possibility := 3 / 5, refPossibility := 0, risingTime := 2 },
       { HMPname := "climb", open_ := true, start := (3, 3), end_ := (0, pINF),
         possibility := 2 / 5, refPossibility := 3 / 10, risingTime := 1 },
       Interval.create "sit"] ∧
      (offlineSensingBracelet (SensingBracelet.create ["drink", "climb", "sit"])
        [[0, 1 / 2, 0], [0, 1 / 5, 0], [2 / 5, 3 / 10, 0], [3 / 5, 2 / 5, 0]]).1.setI =
      [{ HMPname := "drink", open_ := false, start := (2, 2), end_ := (3, 3),
         possibility := 3 / 5, refPossibility := 0, risingTime := 2 },
       { HMPname := "climb", open_ := true, start := (3, 3), end_ := (0, pINF),
         possibility := 2 / 5, refPossibility := 3 / 10, risingTime := 1 },
       Interval.create "sit"] ∧
      (offlineSensingBracelet (SensingBracelet.create ["drink", "climb", "sit"])
        [[0, 1 / 2, 0], [0, 1 / 5, 0], [2 / 5, 3 / 10, 0], [3 / 5, 2 / 5, 0]]).2 =
      [{ sink := 0,
         interval := { HMPname := "drink", open_ := true, start := (2, 2), end_ := (3, 3),
                       possibility := 3 / 5, refPossibility := 0, risingTime := 2 } }] ∧
      ∀ I ∈ (offlineSensingBracelet (SensingBracelet.create ["drink", "climb", "sit"])
        [[0, 1 / 2, 0], [0, 1 / 5, 0], [2 / 5, 3 / 10, 0], [3 / 5, 2 / 5, 0]]).1.setI,
        ¬ (I.open_ = true ∧ I.refPossibility = 0) :=
  ⟨by decide!, by decide!, by decide!,
    (end_of_stream_closes_open_intervals (SensingBracelet.create ["drink", "climb", "sit"])
      [[0, 1 / 2, 0], [0, 1 / 5, 0], [2 / 5, 3 / 10, 0], [3 / 5, 2 / 5, 0]] (by decide)).2.2⟩

/-- First pass of the selection sort of `median` on three entries. -/
theorem selectionPass_zero (x y z : ℚ) :
    selectionPass [x, y, z] 0 =
      if x > y then (if y > z then [z, y, x] else [y, x, z])
      else (if x > z then [z, y, x] else [x, y, z]) := by
  have hr : List.range' 0 3 = [0, 1, 2] := rfl
  unfold selectionPass minIndexFrom
  simp only [List.length_cons, List.length_nil, Nat.reduceAdd, Nat.sub_zero, hr,
    List.foldl_cons, List.foldl_nil]
  by_cases h1 : x > y
  · by_cases h2 : y > z
    · simp [h1, h2]
    · simp [h1, h2]
  · by_cases h2 : x > z
    · simp [h1, h2]
    · simp [h1, h2]

/-- Second pass of the selection sort of `median` on three entries. -/
theorem selectionPass_one (x y z : ℚ) :
    selectionPass [x, y, z] 1 = if y > z then [x, z, y] else [x, y, z] := by
  have hr : List.range' 1 2 = [1, 2] := rfl
  unfold selectionPass minIndexFrom
  simp only [List.length_cons, List.length_nil, Nat.reduceAdd, Nat.reduceSub, hr,
    List.foldl_cons, List.foldl_nil]
  by_cases h2 : y > z
  · simp [h2]
  · simp [h2]

/-- Third pass of the selection sort of `median` on three entries. -/
theorem selectionPass_two (x y z : ℚ) : selectionPass [x, y, z] 2 = [x, y, z] := by
  have hr : List.range' 2 1 = [2] := rfl
  unfold selectionPass minIndexFrom
  simp only [List.length_cons, List.length_nil, Nat.reduceAdd, Nat.reduceSub, hr,
    List.foldl_cons, List.foldl_nil]
  simp

/-- On a window of three entries `median` returns the middle value. -/
theorem median_three (a b c : ℚ) : median [a, b, c] = some (middle3 a b c) := by
  have hr : List.range 3 = [0, 1, 2] := rfl
  unfold median middle3
  simp only [List.length_cons, List.length_nil, Nat.reduceAdd, hr, List.foldl_cons,
    List.foldl_nil, Nat.reduceDiv]
  rw [selectionPass_zero]
  split_ifs <;> rw [selectionPass_one] <;> split_ifs <;> rw [selectionPass_two] <;>
    simp only [List.getElem?_cons_succ, List.getElem?_cons_zero, Option.some.injEq, min_def,
      max_def] <;>
    split_ifs <;> linarith

/-- At the first column the window of size 3 is `(0, m_0, m_1)`. -/
theorem medianFilterAt_first (W : Nat) (row : List ℚ) (hrow : row.length = W) (hW : 2 ≤ W)
    (hW64 : W < 2 ^ 64) :
    medianFilterAt W row 3 0 = some (middle3 0 (row.getD 0 0) (row.getD 1 0)) := by
  cases row with
  | nil => simp at hrow; omega
  | cons a t =>
  cases t with
  | nil => simp at hrow; omega
  | cons b rest =>
    unfold medianFilterAt
    have hneg : ¬ ((3 : Int) < 0) := by decide
    have hn : (3 : Int).toNat = 3 := rfl
    have hstep : 3 / 2 = 1 := rfl
    simp only [hneg, if_false, hn, hstep, lastFullColumn_one W hW hW64]
    rw [if_neg (by omega), if_pos (by omega)]
    have hsub : subvec (a :: b :: rest) 0 1 = some [a, b] := by
      unfold subvec
      rw [if_pos ⟨by omega, by simp⟩]
      rfl
    have has : assignSubvec (List.replicate 3 (0 : ℚ)) 1 (3 - 1) [a, b] = some [0, a, b] := by
      unfold assignSubvec
      rw [if_pos ⟨by omega, by simp, by simp⟩]
      rfl
    simp only [hsub, Option.bind_eq_bind, Option.some_bind, has]
    rw [median_three]
    rfl

/-- At the last column the window of size 3 is `(m_(c-2), m_(c-1), 0)`. -/
theorem medianFilterAt_last (W : Nat) (row : List ℚ) (hrow : row.length = W) (hW : 2 ≤ W)
    (hW64 : W < 2 ^ 64) :
    medianFilterAt W row 3 (W - 1) =
      some (middle3 (row.getD (W - 2) 0) (row.getD (W - 1) 0) 0) := by
  unfold medianFilterAt
  have hneg : ¬ ((3 : Int) < 0) := by decide
  have hn : (3 : Int).toNat = 3 := rfl
  have hstep : 3 / 2 = 1 := rfl
  simp only [hneg, if_false, hn, hstep, lastFullColumn_one W hW hW64]
  rw [if_neg (by omega), if_neg (by omega), if_pos (by omega)]
  have g1 : row[W - 2]? = some (row.getD (W - 2) 0) := by
    rw [List.getD_eq_getElem?_getD, List.getElem?_eq_getElem (by omega)]
    rfl
  have g2 : row[W - 1]? = some (row.getD (W - 1) 0) := by
    rw [List.getD_eq_getElem?_getD, List.getElem?_eq_getElem (by omega)]
    rfl
  have hd : (row.drop (W - 1 - 1)).take (W - 1 - (W - 1 - 1) + 1) =
      [row.getD (W - 2) 0, row.getD (W - 1) 0] := by
    apply List.ext_getElem?
    intro k
    rw [List.getElem?_take]
    by_cases hk : k < W - 1 - (W - 1 - 1) + 1
    · rw [if_pos hk, List.getElem?_drop]
      have hk2 : k = 0 ∨ k = 1 := by omega
      rcases hk2 with rfl | rfl
      · have e : W - 1 - 1 + 0 = W - 2 := by omega
        rw [e, g1]
        rfl
      · have e : W - 1 - 1 + 1 = W - 1 := by omega
        rw [e, g2]
        rfl
    · rw [if_neg hk]
      have hk2 : 2 ≤ k := by omega
      rw [List.getElem?_eq_none (by simpa using hk2)]
  have hsub : subvec row (W - 1 - 1) (W - 1) =
      some [row.getD (W - 2) 0, row.getD (W - 1) 0] := by
    unfold subvec
    rw [if_pos ⟨by omega, by omega⟩, hd]
  have has : assignSubvec (List.replicate 3 (0 : ℚ)) 0 1
      [row.getD (W - 2) 0, row.getD (W - 1) 0] =
      some [row.getD (W - 2) 0, row.getD (W - 1) 0, 0] := by
    unfold assignSubvec
    rw [if_pos ⟨by omega, by simp, by simp⟩]
    rfl
  simp only [hsub, Option.bind_eq_bind, Option.some_bind, has]
  exact median_three _ _ _

/-- Counterexample to C19 as stated: on the row `(-5, 7)` the median filter of
size 3 gives `0` at the first and at the last column, the value of the padded
position, which is none of the valid entries of the truncated window, nor what
`median` gives on them, nor their mean. -/
theorem medianFilter_edges_counterexample :
    medianFilter [[-5, 7]] 3 = some [[0, 0]] ∧ (0 : ℚ) ∉ [(-5 : ℚ), 7] ∧
      median [-5, 7] = some 7 ∧ ((-5 : ℚ) + 7) / 2 ≠ 0 := by
  refine ⟨by decide!, by decide!, by decide!, by norm_num⟩

/-- C19, amended: for window size 3 and every matrix whose rows have at least
two columns, the median filter returns, and in every row its output at the
first column is the median of the three values `(0, m_0, m_1)` and its output
at the last column is the median of `(m_(c-2), m_(c-1), 0)`: the missing
position of the truncated window counts as the value `0`. -/
theorem medianFilter_edges_use_zero_padding (m : Mat) (r W : Nat) (hm : m.HasShape r W)
    (hr : 1 ≤ r) (hW : 2 ≤ W) (hW64 : W < 2 ^ 64) :
    ∃ mf, medianFilter m 3 = some mf ∧ mf.HasShape r W ∧
      ∀ k, k < r →
        (mf.getD k []).getD 0 0 =
            middle3 0 ((m.getD k []).getD 0 0) ((m.getD k []).getD 1 0) ∧
          (mf.getD k []).getD (W - 1) 0 =
            middle3 ((m.getD k []).getD (W - 2) 0) ((m.getD k []).getD (W - 1) 0) 0 := by
  obtain ⟨mf, hmf, hshape⟩ := medianFilter_returns m r W hm hr hW hW64
  refine ⟨mf, hmf, hshape, ?_⟩
  intro k hk
  have hnc : m.n_cols = W := hm.n_cols_eq (by omega)
  unfold medianFilter at hmf
  rw [hnc] at hmf
  obtain ⟨hlen, hrows⟩ := (mapM_eq_some_iff _ m mf).1 hmf
  have hkm : k < m.length := by rw [hm.1]; exact hk
  have hkf : k < mf.length := by rw [hlen]; exact hkm
  have hrowk := hrows k hkm
  rw [List.getElem?_eq_getElem hkf] at hrowk
  obtain ⟨hlen2, hcols⟩ := (mapM_eq_some_iff _ (List.range W) mf[k]).1 hrowk
  have hrowlen : m[k].length = W := hm.2 _ (List.getElem_mem hkm)
  have hmk : m.getD k [] = m[k] := by
    rw [List.getD_eq_getElem?_getD, List.getElem?_eq_getElem hkm]; rfl
  have hfk : mf.getD k [] = mf[k] := by
    rw [List.getD_eq_getElem?_getD, List.getElem?_eq_getElem hkf]; rfl
  rw [hmk, hfk]
  constructor
  · have h0 := hcols 0 (by simp; omega)
    simp only [List.getElem_range] at h0
    rw [medianFilterAt_first W m[k] hrowlen hW hW64] at h0
    rw [List.getD_eq_getElem?_getD, ← h0]
    rfl
  · have h1 := hcols (W - 1) (by simp; omega)
    simp only [List.getElem_range] at h1
    rw [medianFilterAt_last W m[k] hrowlen hW hW64] at h1
    rw [List.getD_eq_getElem?_getD, ← h1]
    rfl

/-- Witness of C19: a matrix of two rows and three columns. -/
theorem medianFilter_edges_use_zero_padding_witness :
    medianFilter [[-5, 7, 3], [4, 1, 9]] 3 = some [[0, 3, 3], [1, 4, 1]] ∧
      ∃ mf, medianFilter [[-5, 7, 3], [4, 1, 9]] 3 = some mf ∧ mf.HasShape 2 3 ∧
        ∀ k, k < 2 →
          (mf.getD k []).getD 0 0 =
              middle3 0 ((([[-5, 7, 3], [4, 1, 9]] : Mat).getD k []).getD 0 0)
                ((([[-5, 7, 3], [4, 1, 9]] : Mat).getD k []).getD 1 0) ∧
            (mf.getD k []).getD (3 - 1) 0 =
              middle3 ((([[-5, 7, 3], [4, 1, 9]] : Mat).getD k []).getD (3 - 2) 0)
                ((([[-5, 7, 3], [4, 1, 9]] : Mat).getD k []).getD (3 - 1) 0) 0 :=
  ⟨by decide!,
    medianFilter_edges_use_zero_padding [[-5, 7, 3], [4, 1, 9]] 2 3 (by decide) (by decide)
      (by decide) (by decide)⟩

/-- When no entry exceeds the first one, the selection loop of
`publishDynamic` never moves: `best` and `secondBest` both stay at index 0. -/
theorem bestLoop_max_first (nbM : Int) (p : List ℚ) (hmax : ∀ i, p.getD i 0 ≤ p.getD 0 0) :
    bestLoop nbM p = (0, 0) := by
  unfold bestLoop
  generalize List.range' 1 (nbM.toNat - 1) = l
  induction l with
  | nil => rfl
  | cons i l ih =>
    have hstep : bestStep p (0, 0) i = (0, 0) := by
      unfold bestStep
      have h : ¬ p.getD i 0 > p.getD (0 : Int).toNat 0 := not_lt.2 (hmax i)
      rw [if_neg h, if_neg h]
    rw [List.foldl_cons, hstep]
    exact ih

/-- When the first entry is a maximum of the possibility vector and is not
zero, `publishDynamic` publishes the entropy `0`, whatever the other entries
are: `secondBest` is still the index of `best`. -/
theorem publishDynamic_entropy_max_first (c : Classifier) (p : List ℚ)
    (hmax : ∀ i, p.getD i 0 ≤ p.getD 0 0) (hne : p.getD 0 0 ≠ 0) :
    (publishDynamic c p).entropy = 0 := by
  have h0 : ¬ p.getD (0 : Int).toNat 0 = 0 := hne
  unfold publishDynamic
  rw [bestLoop_max_first c.nbM p hmax]
  simp only [h0, if_false]
  have h1 : ¬ ((0 : Int) = -1) := by decide
  simp only [h1, if_false]
  exact sub_self _

/-- C11 on the code: with three models and the possibility vector
`(0.6, 0, 0)`, whose only non-zero entry is the first, `publishDynamic`
publishes `highest = drink` and the entropy `0`, not `0.6`; with the non-zero
entry at the second place, `(0, 0.6, 0)`, the entropy is `0.6`. -/
theorem publishDynamic_single_nonzero_first_entropy :
    (publishDynamic threeModels [3 / 5, 0, 0]).highest = "drink" ∧
      (publishDynamic threeModels [3 / 5, 0, 0]).entropy = 0 ∧
      (publishDynamic threeModels [0, 3 / 5, 0]).entropy = 3 / 5 := by
  refine ⟨by decide!, by decide!, by decide!⟩

/-- C12 on the code: with three models and the possibility vector
`(0.6, 0.2, 0.3)`, whose maximum is the first entry, `publishDynamic`
publishes `highest = drink` and the entropy `0`, not `0.6 - 0.3`; on the
vector `(0.2, 0.6, 0.3)` of the specification it publishes
`highest = climb`, `other = 0.4` and `entropy = 0.3`. -/
theorem publishDynamic_max_first_entropy :
    (publishDynamic threeModels [3 / 5, 1 / 5, 3 / 10]).highest = "drink" ∧
      (publishDynamic threeModels [3 / 5, 1 / 5, 3 / 10]).entropy = 0 ∧
      (publishDynamic threeModels [1 / 5, 3 / 5, 3 / 10]).highest = "climb" ∧
      (publishDynamic threeModels [1 / 5, 3 / 5, 3 / 10]).other = 2 / 5 ∧
      (publishDynamic threeModels [1 / 5, 3 / 5, 3 / 10]).entropy = 3 / 10 := by
  refine ⟨by decide!, by decide!, by decide!, by decide!, by decide!⟩

/-- C15 on the code: the stream `0, 0.3, 0.2, 0.4, 0` of one model, which
descends at sample 2 and rises again at sample 3, ends with one publication:
the interval `start = (1,1)`, `end = (3,3)`, `possibility = 0.4`, reported at
sample 4 by the return-to-zero rule. -/
theorem accurate_policy_publishes_non_bell_stream :
    (offlineSensingBracelet (SensingBracelet.create ["drink"])
        [[0], [3 / 10], [1 / 5], [2 / 5], [0]]).2 =
      [{ sink := 0,
         interval := { HMPname := "drink", open_ := true, start := (1, 1), end_ := (3, 3),
                       possibility := 2 / 5, refPossibility := 0, risingTime := 1 } }] := by
  decide!

/-- C16 on the code: the stream `0, 0.4, 0.6, 0.4, 0` of one model publishes
exactly one interval, with `start = (1,1)`, `possibility = 0.6` and
`end = (2,2)`, the sample of the peak, not `(3,3)`. -/
theorem accurate_policy_end_is_peak_sample :
    (offlineSensingBracelet (SensingBracelet.create ["drink"])
        [[0], [2 / 5], [3 / 5], [2 / 5], [0]]).2 =
      [{ sink := 0,
         interval := { HMPname := "drink", open_ := true, start := (1, 1), end_ := (2, 2),
                       possibility := 3 / 5, refPossibility := 0, risingTime := 1 } }] := by
  decide!

/-- C20 on the code: `medianFilter` throws for positive sizes. With size 5 on
a row of five columns the copy into the truncated window at column 3 has the
wrong length; with size 3 on a matrix of one column, and with the even sizes
2 and 4, the first column already throws; sizes 1 and 3 return on that row. -/
theorem medianFilter_throws_for_positive_sizes :
    medianFilter [[1, 5, 2, 8, 3]] 5 = none ∧
      medianFilter [[1], [2], [3]] 3 = none ∧
      medianFilter [[1, 5, 2, 8, 3]] 2 = none ∧
      medianFilter [[1, 5, 2, 8, 3]] 4 = none ∧
      medianFilter [[1, 5, 2, 8, 3]] 1 = some [[1, 5, 2, 8, 3]] ∧
      medianFilter [[1, 5, 2, 8, 3]] 3 = some [[1, 2, 5, 3, 3]] := by
  refine ⟨by decide!, by decide!, by decide!, by decide!, by decide!, by decide!⟩

/-- The character of a decimal digit is a digit, is not whitespace nor a
sign, and its code gives the digit back. -/
theorem digitChar_spec (d : Nat) (hd : d < 10) :
    (Char.ofNat (48 + d)).isDigit = true ∧ isSpace (Char.ofNat (48 + d)) = false ∧
      (Char.ofNat (48 + d)).toNat - 48 = d ∧ Char.ofNat (48 + d) ≠ '-' ∧
      Char.ofNat (48 + d) ≠ '+' := by
  interval_cases d <;> decide

/-- Whitespace is neither a digit nor a sign. -/
theorem isSpace_not_digit (c : Char) (hc : isSpace c = true) :
    c.isDigit = false ∧ c ≠ '-' ∧ c ≠ '+' := by
  have h : c.toNat = 32 ∨ (9 ≤ c.toNat ∧ c.toNat ≤ 13) := by
    simpa [isSpace] using hc
  refine ⟨?_, ?_, ?_⟩
  · simp only [Char.isDigit, Bool.and_eq_false_imp, decide_eq_true_eq, decide_eq_false_iff_not]
    intro h1
    have h0 : c.val.toNat = c.toNat := rfl
    have h2 : (48 : UInt32) ≤ c.val := h1
    have h3 : 48 ≤ c.val.toNat := by simpa [UInt32.le_def] using h2
    intro h4
    have h5 : c.val.toNat ≤ 57 := by simpa [UInt32.le_def] using h4
    omega
  · rintro rfl
    revert h
    decide
  · rintro rfl
    revert h
    decide

/-- Leading whitespace is skipped up to the first other character. -/
theorem skipSpaces_append (ws s : List Char) (hws : ∀ c ∈ ws, isSpace c = true) :
    skipSpaces (ws ++ s) = skipSpaces s := by
  induction ws with
  | nil => rfl
  | cons c ws ih =>
    have hc : isSpace c = true := hws c (by simp)
    rw [List.cons_append, skipSpaces, if_pos hc]
    exact ih (fun x hx => hws x (by simp [hx]))

/-- A buffer that starts with another character than whitespace is left as
it is. -/
theorem skipSpaces_cons (c : Char) (s : List Char) (hc : isSpace c = false) :
    skipSpaces (c :: s) = c :: s := by
  rw [skipSpaces, if_neg (by simp [hc])]

/-- Reading the digits of a literal: the number is the one the digits denote
in base 10, after the digits already read. -/
theorem readDigits_digits (ds : List Nat) (hds : ∀ d ∈ ds, d < 10) (rest : List Char)
    (hrest : rest = [] ∨ ∃ c cs, rest = c :: cs ∧ isSpace c = true) (acc : Nat) :
    readDigits acc ((ds.map fun d => Char.ofNat (48 + d)) ++ rest) =
      (acc * 10 ^ ds.length + Nat.ofDigits 10 ds.reverse, rest) := by
  induction ds generalizing acc with
  | nil =>
    rcases hrest with rfl | ⟨c, cs, rfl, hc⟩
    · simp [readDigits]
    · have := (isSpace_not_digit c hc).1
      simp [readDigits, this]
  | cons d ds ih =>
    obtain ⟨h1, _, h3, _, _⟩ := digitChar_spec d (hds d (by simp))
    rw [List.map_cons, List.cons_append, readDigits, if_pos h1, h3,
      ih (fun x hx => hds x (by simp [hx]))]
    congr 1
    rw [List.reverse_cons, Nat.ofDigits_append, Nat.ofDigits_singleton, List.length_reverse,
      List.length_cons]
    ring

/-- The extraction of an `int` on a buffer that starts with optional
whitespace and a literal followed by whitespace or by the end of the line:
the value of the literal is read and the buffer is left after the literal. -/
theorem readInt_literal (ws : List Char) (l : Literal) (rest : List Char)
    (hws : ∀ c ∈ ws, isSpace c = true) (hl : l.Valid)
    (hrest : rest = [] ∨ ∃ c cs, rest = c :: cs ∧ isSpace c = true) :
    readInt (ws ++ l.chars ++ rest) = some (l.value, rest) := by
  obtain ⟨hne, hdig, hlo, hhi⟩ := hl
  obtain ⟨neg, ds⟩ := l
  simp only at hne hdig
  cases ds with
  | nil => exact absurd rfl hne
  | cons d ds =>
    obtain ⟨h1, h2, h3, h4, h5⟩ := digitChar_spec d (hdig d (by simp))
    have hrd := readDigits_digits (d :: ds) hdig rest hrest 0
    simp only [List.map_cons, List.cons_append, Nat.zero_mul, Nat.zero_add] at hrd
    have hcast : ((Nat.ofDigits 10 (d :: ds).reverse : ℕ) : ℤ) =
        Nat.ofDigits (10 : ℤ) (d :: ds).reverse := by
      exact Nat.coe_int_ofDigits 10 _
    unfold readInt
    rw [List.append_assoc, skipSpaces_append ws _ hws]
    cases neg with
    | true =>
      have hsk : skipSpaces (Literal.chars { negative := true, digits := d :: ds } ++ rest) =
          '-' :: Char.ofNat (48 + d) :: ((ds.map fun d => Char.ofNat (48 + d)) ++ rest) := by
        simp only [Literal.chars, if_true, List.map_cons, List.cons_append, List.nil_append,
          List.singleton_append]
        exact skipSpaces_cons _ _ (by decide)
      simp only [hsk, List.head?_cons, true_or, if_true, List.tail_cons, Option.map_some', h1,
        hrd, decide_True]
      simp only [Literal.value, if_true] at hlo hhi ⊢
      rw [hcast, if_pos ⟨hlo, hhi⟩]
    | false =>
      have hsk : skipSpaces (Literal.chars { negative := false, digits := d :: ds } ++ rest) =
          Char.ofNat (48 + d) :: ((ds.map fun d => Char.ofNat (48 + d)) ++ rest) := by
        simp only [Literal.chars, Bool.false_eq_true, if_false, List.map_cons, List.cons_append,
          List.nil_append]
        exact skipSpaces_cons _ _ h2
      have e1 : ¬ (some (Char.ofNat (48 + d)) = some '-' ∨
          some (Char.ofNat (48 + d)) = some '+') := by
        simp [h4, h5]
      have e2 : (decide (some (Char.ofNat (48 + d)) = some '-')) = false := by
        simp [h4]
      simp only [hsk, List.head?_cons, e1, if_false, Option.map_some', h1, hrd, e2,
        Bool.false_eq_true]
      simp only [Literal.value, Bool.false_eq_true, if_false] at hlo hhi ⊢
      rw [hcast]
      have hc : -2147483648 ≤ Nat.ofDigits (10 : ℤ) (d :: ds).reverse ∧
          Nat.ofDigits (10 : ℤ) (d :: ds).reverse ≤ 2147483647 := ⟨hlo, hhi⟩
      exact if_pos hc

/-- The extraction of the first field of a line of fields. -/
theorem readInt_field (v : Int) (vs : List Int) (line : List Char)
    (h : CarriesFields (v :: vs) line) :
    ∃ rest, readInt line = some (v, rest) ∧ CarriesFields vs rest := by
  obtain ⟨ws, l, rest, hline, hws, hl, hv, hrest, hnext⟩ := h
  refine ⟨rest, ?_, hnext⟩
  rw [hline, ← hv]
  exact readInt_literal ws l rest hws hl hrest

/-- On a line whose first four fields are `d ax ay az`, `extractActual`
returns the scaled accelerations, whatever follows. -/
theorem extractActual_of_fields (line : String) (d ax ay az : Int) (vs : List Int)
    (h : CarriesFields (d :: ax :: ay :: az :: vs) line.toList) :
    extractActual line =
      some [[(ax : ℚ) / 65535 * 39.2266, (ay : ℚ) / 65535 * 39.2266,
             (az : ℚ) / 65535 * 39.2266]] := by
  obtain ⟨r1, h1, c1⟩ := readInt_field d _ _ h
  obtain ⟨r2, h2, c2⟩ := readInt_field ax _ _ c1
  obtain ⟨r3, h3, c3⟩ := readInt_field ay _ _ c2
  obtain ⟨r4, h4, _⟩ := readInt_field az _ _ c3
  unfold extractActual
  simp only [h1, h2, h3, h4, Option.bind_eq_bind, Option.some_bind, Option.pure_def,
    CODED_RANGE, SENSING_RANGE]
  norm_num

/-- C21: for every input line carrying eight whitespace-separated integers
`dev ax ay az gx gy gz motion_flag`, `extractActual` returns the `1 x 3` row
`(ax/65535*39.2266, ay/65535*39.2266, az/65535*39.2266)`, a quotient of
rationals and not of integers, and the result is the same for any two lines
that agree on `ax`, `ay`, `az`, whatever their other fields. -/
theorem extractActual_scales_accelerations (line : String) (d ax ay az gx gy gz m : Int)
    (h : CarriesFields [d, ax, ay, az, gx, gy, gz, m] line.toList) :
    extractActual line =
        some [[(ax : ℚ) / 65535 * 39.2266, (ay : ℚ) / 65535 * 39.2266,
               (az : ℚ) / 65535 * 39.2266]] ∧
      ∀ (line2 : String) (d2 gx2 gy2 gz2 m2 : Int),
        CarriesFields [d2, ax, ay, az, gx2, gy2, gz2, m2] line2.toList →
        extractActual line2 = extractActual line := by
  refine ⟨extractActual_of_fields line d ax ay az _ h, ?_⟩
  intro line2 d2 gx2 gy2 gz2 m2 h2
  rw [extractActual_of_fields line d ax ay az _ h, extractActual_of_fields line2 d2 ax ay az _ h2]

/-- The line `1 16384 -16384 0 5 6 7 1` carries its eight fields. -/
theorem sampleLine_carries :
    CarriesFields [1, 16384, -16384, 0, 5, 6, 7, 1] "1 16384 -16384 0 5 6 7 1".toList := by
  refine ⟨[], ⟨false, [1]⟩, " 16384 -16384 0 5 6 7 1".toList, rfl, by decide,
    ⟨by decide, by decide, by decide, by decide⟩, by decide, Or.inr ⟨' ', _, rfl, by decide⟩, ?_⟩
  refine ⟨[' '], ⟨false, [1, 6, 3, 8, 4]⟩, " -16384 0 5 6 7 1".toList, rfl, by decide,
    ⟨by decide, by decide, by decide, by decide⟩, by decide, Or.inr ⟨' ', _, rfl, by decide⟩, ?_⟩
  refine ⟨[' '], ⟨true, [1, 6, 3, 8, 4]⟩, " 0 5 6 7 1".toList, rfl, by decide,
    ⟨by decide, by decide, by decide, by decide⟩, by decide, Or.inr ⟨' ', _, rfl, by decide⟩, ?_⟩
  refine ⟨[' '], ⟨false, [0]⟩, " 5 6 7 1".toList, rfl, by decide,
    ⟨by decide, by decide, by decide, by decide⟩, by decide, Or.inr ⟨' ', _, rfl, by decide⟩, ?_⟩
  refine ⟨[' '], ⟨false, [5]⟩, " 6 7 1".toList, rfl, by decide,
    ⟨by decide, by decide, by decide, by decide⟩, by decide, Or.inr ⟨' ', _, rfl, by decide⟩, ?_⟩
  refine ⟨[' '], ⟨false, [6]⟩, " 7 1".toList, rfl, by decide,
    ⟨by decide, by decide, by decide, by decide⟩, by decide, Or.inr ⟨' ', _, rfl, by decide⟩, ?_⟩
  refine ⟨[' '], ⟨false, [7]⟩, " 1".toList, rfl, by decide,
    ⟨by decide, by decide, by decide, by decide⟩, by decide, Or.inr ⟨' ', _, rfl, by decide⟩, ?_⟩
  refine ⟨[' '], ⟨false, [1]⟩, [], rfl, by decide,
    ⟨by decide, by decide, by decide, by decide⟩, by decide, Or.inl rfl, ?_⟩
  intro c hc
  simp at hc

/-- Witness of C21: the line `1 16384 -16384 0 5 6 7 1`; a line with the same
accelerations and other values in the remaining fields gives the same row,
which is not what a division of integers would give. -/
theorem extractActual_scales_accelerations_witness :
    extractActual "1 16384 -16384 0 5 6 7 1" =
        some [[((16384 : Int) : ℚ) / 65535 * 39.2266, ((-16384 : Int) : ℚ) / 65535 * 39.2266,
               ((0 : Int) : ℚ) / 65535 * 39.2266]] ∧
      extractActual "2  16384 -16384 0 9 -9 9 0" = extractActual "1 16384 -16384 0 5 6 7 1" ∧
      ((16384 : Int) : ℚ) / 65535 * 39.2266 ≠ (((16384 : Int) / 65535 : Int) : ℚ) * 39.2266 :=
  ⟨(extractActual_scales_accelerations "1 16384 -16384 0 5 6 7 1" 1 16384 (-16384) 0 5 6 7 1
      sampleLine_carries).1,
    by decide!, by norm_num⟩

/-- Counterexample to C22 as stated: from a configuration whose only model has
the threshold `-10` the constructor produces a classifier that stores this
threshold, and `compareAll` computes with it the possibility
`1 - 3 / (-10) = 1.3` of a window at squared distance 3. -/
theorem create_negative_threshold_counterexample :
    negativeModel.threshold = -10 ∧
      Classifier.create [negativeModel] =
        some { nbM := 1, set := [negativeModel], window_size := 1 } ∧
      compareOne [[1, 1, 1]] [[1, 1, 1]] negativeModel = some 3 ∧
      compareAll { nbM := 1, set := [negativeModel], window_size := 1 }
        [[1, 1, 1]] [[1, 1, 1]] [0] = some [13 / 10] := by
  refine ⟨by decide!, by decide!, by decide!, by decide!⟩

/-- C22, amended: the constructor does not look at the thresholds. From every
configuration with at least one model it produces a classifier that holds the
models as they are, a non-positive threshold included; and whenever
`compareAll` returns, the possibility of each model is computed with the
threshold of that model: for a negative threshold and a distance `d >= 0` it
is `1 - d / θ`, which is at least 1. -/
theorem create_keeps_any_threshold (models : List DYmodel) (hne : models ≠ []) :
    ∃ c, Classifier.create models = some c ∧ c.set = models ∧
      c.nbM = (models.length : Int) ∧
      ∀ (g b : Mat) (ps0 ps : List ℚ), ps0.length = models.length →
        compareAll c g b ps0 = some ps →
        ∀ i (hi : i < models.length), ∃ d, compareOne g b models[i] = some d ∧
          ps[i]? = some (possibilityOf d models[i].threshold) ∧
          (models[i].threshold < 0 → 0 ≤ d →
            ps[i]? = some (1 - d / models[i].threshold) ∧
              1 ≤ 1 - d / models[i].threshold) := by
  cases models with
  | nil => exact absurd rfl hne
  | cons m0 rest =>
    refine ⟨{ nbM := ((m0 :: rest).length : Int), set := m0 :: rest,
              window_size := (List.range' 1 (((m0 :: rest).length : Int).toNat - 1)).foldl
                (windowSizeStep (m0 :: rest)) m0.size }, rfl, rfl, rfl, ?_⟩
    intro g b ps0 ps hlen hps i hi
    obtain ⟨_, hent⟩ := compareAll_entries _ g b ps0 ps (by simp) (by simpa using hlen) hps
    obtain ⟨d, hd, hpi⟩ := hent i hi
    refine ⟨d, hd, hpi, ?_⟩
    intro hθ hd0
    have hq : d / (m0 :: rest)[i].threshold ≤ 0 :=
      div_nonpos_of_nonneg_of_nonpos hd0 (le_of_lt hθ)
    have hp : possibilityOf d (m0 :: rest)[i].threshold = 1 - d / (m0 :: rest)[i].threshold := by
      unfold possibilityOf
      rw [if_neg (by linarith)]
    exact ⟨by rw [hpi, hp], by linarith⟩

/-- Witness of C22: the configuration that holds `negativeModel` alone. -/
theorem create_keeps_any_threshold_witness :
    ([negativeModel] ≠ []) ∧
      ∃ c, Classifier.create [negativeModel] = some c ∧ c.set = [negativeModel] ∧
        c.nbM = (([negativeModel] : List DYmodel).length : Int) ∧
        ∀ (g b : Mat) (ps0 ps : List ℚ), ps0.length = ([negativeModel] : List DYmodel).length →
          compareAll c g b ps0 = some ps →
          ∀ i (hi : i < ([negativeModel] : List DYmodel).length),
            ∃ d, compareOne g b ([negativeModel].get ⟨i, hi⟩) = some d ∧
              ps[i]? = some (possibilityOf d ([negativeModel].get ⟨i, hi⟩).threshold) ∧
              (([negativeModel].get ⟨i, hi⟩).threshold < 0 → 0 ≤ d →
                ps[i]? = some (1 - d / ([negativeModel].get ⟨i, hi⟩).threshold) ∧
                  1 ≤ 1 - d / ([negativeModel].get ⟨i, hi⟩).threshold) :=
  ⟨by decide, create_keeps_any_threshold [negativeModel] (by decide)⟩

/-- When `compareOne` returns, every covariance slice it has inverted, of the
gravity and of the body component, is an invertible `3 x 3` matrix. -/
theorem compareOne_slices_invertible {g b : Mat} {M : DYmodel} {d : ℚ}
    (h : compareOne g b M = some d) (i : Nat) (hi : i < M.gS.length) :
    (∃ s, M.gS[i]? = some s ∧ IsInvertible3 s) ∧ (∃ s, M.bS[i]? = some s ∧ IsInvertible3 s) := by
  unfold compareOne at h
  simp only [Option.bind_eq_bind, Option.bind_eq_some, Option.pure_def, Option.some.injEq] at h
  obtain ⟨gravity, _, body, _, refG, _, refB, _, dist, hdist, dG, _, dB, _, _⟩ := h
  obtain ⟨hlen, hent⟩ := (mapM_eq_some_iff _ _ _).1 hdist
  have hi2 : i < (List.range M.gS.length).length := by simpa using hi
  have hd : i < dist.length := by omega
  have := hent i hi2
  rw [List.getElem?_eq_getElem hd] at this
  simp only [List.getElem_range, Option.bind_eq_bind, Option.bind_eq_some,
    Option.some.injEq] at this
  obtain ⟨dg, hdg, db, hdb, _⟩ := this
  obtain ⟨_, _, sg, _, _, _, _, hsg, hinvg, _⟩ := mahalanobisDist_inv hdg
  obtain ⟨_, _, sb, _, _, _, _, hsb, hinvb, _⟩ := mahalanobisDist_inv hdb
  exact ⟨⟨sg, hsg, hinvg⟩, ⟨sb, hsb, hinvb⟩⟩

/-- Counterexample to C23 as stated: on the model `singularModel`, whose
covariance slices are all zero, `compareOne` returns no distance and
`compareAll` no possibility: the inversion throws. -/
theorem compareOne_singular_counterexample :
    singularModel.gS = [zeros 3 3, zeros 3 3] ∧ det3 0 0 0 0 0 0 0 0 0 = 0 ∧
      compareOne [[0, 0, 0], [0, 0, 0]] [[0, 0, 0], [0, 0, 0]] singularModel = none ∧
      compareAll singularClassifier [[0, 0, 0], [0, 0, 0]] [[0, 0, 0], [0, 0, 0]] [0] = none := by
  refine ⟨by decide!, by decide!, by decide!, by decide!⟩

/-- C23, amended: for every model and window in which the covariance slice at
some time index `i` below the number of points, of the gravity or of the body
component, is singular, `compareOne` returns no distance: the inversion of
that slice throws and the scoring of the window fails. -/
theorem compareOne_throws_on_singular_slice (g b : Mat) (M : DYmodel) (i : Nat)
    (hi : i < M.gS.length) (s : Mat) (hs : M.gS[i]? = some s ∨ M.bS[i]? = some s)
    (hsing : (toMatrix3 s).det = 0) :
    compareOne g b M = none := by
  cases h : compareOne g b M with
  | none => rfl
  | some d =>
    obtain ⟨⟨sg, hsg, hinvg⟩, ⟨sb, hsb, hinvb⟩⟩ := compareOne_slices_invertible h i hi
    rcases hs with hs | hs
    · rw [hs] at hsg
      cases hsg
      exact absurd hsing hinvg.2
    · rw [hs] at hsb
      cases hsb
      exact absurd hsing hinvb.2

/-- Witness of C23: the model `singularModel` at the time index 1. -/
theorem compareOne_throws_on_singular_slice_witness :
    (1 < singularModel.gS.length) ∧ singularModel.gS[1]? = some (zeros 3 3) ∧
      (toMatrix3 (zeros 3 3)).det = 0 ∧
      compareOne [[1, 2, 3], [4, 5, 6]] [[0, 0, 0], [0, 0, 0]] singularModel = none :=
  ⟨by decide, by decide!, by simp [Matrix.det_fin_three, toMatrix3, zeros],
    compareOne_throws_on_singular_slice [[1, 2, 3], [4, 5, 6]] [[0, 0, 0], [0, 0, 0]]
      singularModel 1 (by decide) (zeros 3 3) (Or.inl (by decide!))
      (by simp [Matrix.det_fin_three, toMatrix3, zeros])⟩

/-- A call of `updateInterval` in the descending branch (`0 < p < possibility`
on an open interval) with `p > pp`: the interval is marked not open, and it is
published all the same when the decremented rising time is not negative and
`p` equals the reference possibility. -/
theorem updateInterval_descending_rise (I : Interval) (nS : Int) (p pp : ℚ) (f : Int)
    (hopen : I.open_ = true) (hp : 0 < p) (hdesc : p < I.possibility) (hrise : p > pp) :
    (I.updateInterval nS p pp f).1.open_ = false ∧
      (I.updateInterval nS p pp f).2 =
        if I.risingTime - 1 ≥ 0 ∧ p = I.refPossibility then
          publishInterval f
            { I with risingTime := I.risingTime - 1, open_ := false,
                     end_ := (I.end_.1, I.end_.1) }
        else [] := by
  have h1 : p > 0 := hp
  have h2 : ¬ p ≥ I.possibility := not_le.2 hdesc
  unfold Interval.updateInterval
  simp only [h1, hopen, h2, hrise, if_true, if_false, Bool.true_eq_false]
  by_cases hc : I.risingTime - 1 ≥ 0 ∧ p = I.refPossibility
  · have hn : ¬ (I.risingTime - 1 = 0 ∧ p < I.refPossibility) := by
      intro h
      exact absurd hc.2 (ne_of_lt h.2)
    simp [hc, hn, Interval.setEnd]
  · by_cases hs : I.risingTime - 1 = 0 ∧ p < I.refPossibility
    · have hne : ¬ p = I.refPossibility := ne_of_lt hs.2
      simp [hs, hne]
    · have hc2 : ¬ (1 ≤ I.risingTime ∧ p = I.refPossibility) := by
        rintro ⟨a, b⟩
        exact hc ⟨by omega, b⟩
      simp [hc, hc2, hs]

/-- C24 on the code: after the samples `0.5, 0.2, 0.3, 0.4, 0.6, 0.2` the
interval is open with `possibility = 0.6`, `ref_possibility = 0.3` and
`rising_time = 1`; the next sample `p = 0.3` with `p_prev = 0.2` is handled by
the descending branch with `p > p_prev`: the interval is marked not open, and
it is published in that same step with `end = (4,4)`. -/
theorem descending_rise_is_published :
    (offlineLoop (SensingBracelet.create ["drink"])
        [[1 / 2], [1 / 5], [3 / 10], [2 / 5], [3 / 5], [1 / 5]]).sb.setI =
      [{ HMPname := "drink", open_ := true, start := (3, 3), end_ := (4, pINF),
         possibility := 3 / 5, refPossibility := 3 / 10, risingTime := 1 }] ∧
      Interval.updateInterval
        { HMPname := "drink", open_ := true, start := (3, 3), end_ := (4, pINF),
          possibility := 3 / 5, refPossibility := 3 / 10, risingTime := 1 }
        6 (3 / 10) (1 / 5) 0 =
      ({ HMPname := "drink", open_ := false, start := (3, 3), end_ := (4, 4),
         possibility := 3 / 5, refPossibility := 3 / 10, risingTime := 0 },
       [{ sink := 0,
          interval := { HMPname := "drink", open_ := false, start := (3, 3), end_ := (4, 4),
                        possibility := 3 / 5, refPossibility := 3 / 10, risingTime := 0 } }]) ∧
      (offlineSensingBracelet (SensingBracelet.create ["drink"])
        [[1 / 2], [1 / 5], [3 / 10], [2 / 5], [3 / 5], [1 / 5], [3 / 10]]).2 =
      [{ sink := 0,
         interval := { HMPname := "drink", open_ := false, start := (3, 3), end_ := (4, 4),
                       possibility := 3 / 5, refPossibility := 3 / 10, risingTime := 0 } }] := by
  refine ⟨by decide!, by decide!, by decide!⟩

/-- C25: there exists a possibility stream for which, under the accurate
policy, the rising time becomes negative while the interval is still open,
and a later sample with `p >= possibility` increments it again without the
interval having been closed in between. On the stream `rows` of one model,
after `a` samples the interval is open with a negative rising time, it is open
after every number of samples from `a` to `c`, and the sample of index `c - 1`
is not below the recorded possibility and adds one to the rising time. -/
theorem rising_time_negative_then_incremented :
    ∃ (rows : List (List ℚ)) (a c : Nat), a < c ∧ c ≤ rows.length ∧
      ((List.range' a (c - a + 1)).all fun j =>
        ((offlineLoop (SensingBracelet.create ["drink"]) (rows.take j)).sb.setI.getD 0
          (Interval.create "drink")).open_) = true ∧
      ((offlineLoop (SensingBracelet.create ["drink"]) (rows.take a)).sb.setI.getD 0
          (Interval.create "drink")).risingTime < 0 ∧
      (streamOf rows 0).getD (c - 1) 0 ≥
        ((offlineLoop (SensingBracelet.create ["drink"]) (rows.take (c - 1))).sb.setI.getD 0
          (Interval.create "drink")).possibility ∧
      ((offlineLoop (SensingBracelet.create ["drink"]) (rows.take c)).sb.setI.getD 0
          (Interval.create "drink")).risingTime =
        ((offlineLoop (SensingBracelet.create ["drink"]) (rows.take (c - 1))).sb.setI.getD 0
          (Interval.create "drink")).risingTime + 1 := by
  refine ⟨[[1 / 2], [2 / 5], [3 / 10], [3 / 5]], 3, 4, by decide, by decide, by decide!,
    by decide!, by decide!, by decide!⟩

/-- The middle of three values is the entry of index 1 of their ascending
sort. -/
theorem middle3_eq_sorted (a b c : ℚ) :
    middle3 a b c = (List.insertionSort (fun x y => x ≤ y) [a, b, c]).getD 1 0 := by
  unfold middle3
  by_cases hab : a ≤ b <;> by_cases hbc : b ≤ c <;> by_cases hac : a ≤ c <;>
    simp [List.insertionSort, List.orderedInsert, min_def, max_def, hab, hbc, hac] <;>
    (try split_ifs) <;> (try intro) <;> (try linarith)

/-- At a column with a neighbour on each side the window of size 3 is
`(m_(i-1), m_i, m_(i+1))`, read in the unfiltered row. -/
theorem medianFilterAt_interior (W : Nat) (row : List ℚ) (hrow : row.length = W)
    (hW64 : W < 2 ^ 64) (i : Nat) (h1 : 1 ≤ i) (h2 : i + 2 ≤ W) :
    medianFilterAt W row 3 i =
      some (middle3 (row.getD (i - 1) 0) (row.getD i 0) (row.getD (i + 1) 0)) := by
  unfold medianFilterAt
  have hneg : ¬ ((3 : Int) < 0) := by decide
  have hn : (3 : Int).toNat = 3 := rfl
  have hstep : 3 / 2 = 1 := rfl
  simp only [hneg, if_false, hn, hstep, lastFullColumn_one W (by omega) hW64]
  rw [if_pos ⟨h1, by omega⟩]
  have g0 : row[i - 1]? = some (row.getD (i - 1) 0) := by
    rw [List.getD_eq_getElem?_getD, List.getElem?_eq_getElem (by omega)]
    rfl
  have g1 : row[i]? = some (row.getD i 0) := by
    rw [List.getD_eq_getElem?_getD, List.getElem?_eq_getElem (by omega)]
    rfl
  have g2 : row[i + 1]? = some (row.getD (i + 1) 0) := by
    rw [List.getD_eq_getElem?_getD, List.getElem?_eq_getElem (by omega)]
    rfl
  have hd : (row.drop (i - 1)).take (i + 1 - (i - 1) + 1) =
      [row.getD (i - 1) 0, row.getD i 0, row.getD (i + 1) 0] := by
    apply List.ext_getElem?
    intro k
    rw [List.getElem?_take]
    by_cases hk : k < i + 1 - (i - 1) + 1
    · rw [if_pos hk, List.getElem?_drop]
      have hk2 : k = 0 ∨ k = 1 ∨ k = 2 := by omega
      rcases hk2 with rfl | rfl | rfl
      · rw [Nat.add_zero, g0]
        rfl
      · have e : i - 1 + 1 = i := by omega
        rw [e, g1]
        rfl
      · have e : i - 1 + 2 = i + 1 := by omega
        rw [e, g2]
        rfl
    · rw [if_neg hk]
      have hk2 : 3 ≤ k := by omega
      rw [List.getElem?_eq_none (by simpa using hk2)]
  have hsub : subvec row (i - 1) (i + 1) =
      some [row.getD (i - 1) 0, row.getD i 0, row.getD (i + 1) 0] := by
    unfold subvec
    rw [if_pos ⟨by omega, by omega⟩, hd]
  simp only [hsub, Option.bind_eq_bind, Option.some_bind]
  exact median_three _ _ _

/-- C26: for every matrix (of `r >= 1` rows and `W` columns), for window size
3 and every position `(k, i)` with `1 <= i <= W - 2`, the output of
`medianFilter` at `(k, i)` is the middle value (the element of index 1 after
ascending sort) of the three unfiltered input values at `(k, i-1)`, `(k, i)`,
`(k, i+1)`: outputs already computed for earlier columns never influence
later ones. -/
theorem medianFilter_interior_is_middle_of_three (m : Mat) (r W : Nat) (hm : m.HasShape r W)
    (hr : 1 ≤ r) (hW64 : W < 2 ^ 64) (k i : Nat) (hk : k < r) (h1 : 1 ≤ i) (h2 : i + 2 ≤ W) :
    ∃ mf, medianFilter m 3 = some mf ∧ mf.HasShape r W ∧
      (mf.getD k []).getD i 0 =
        (List.insertionSort (fun x y => x ≤ y)
          [(m.getD k []).getD (i - 1) 0, (m.getD k []).getD i 0,
           (m.getD k []).getD (i + 1) 0]).getD 1 0 := by
  obtain ⟨mf, hmf, hshape⟩ := medianFilter_returns m r W hm hr (by omega) hW64
  refine ⟨mf, hmf, hshape, ?_⟩
  have hnc : m.n_cols = W := hm.n_cols_eq (by omega)
  unfold medianFilter at hmf
  rw [hnc] at hmf
  obtain ⟨hlen, hrows⟩ := (mapM_eq_some_iff _ m mf).1 hmf
  have hkm : k < m.length := by rw [hm.1]; exact hk
  have hkf : k < mf.length := by rw [hlen]; exact hkm
  have hrowk := hrows k hkm
  rw [List.getElem?_eq_getElem hkf] at hrowk
  obtain ⟨_, hcols⟩ := (mapM_eq_some_iff _ (List.range W) mf[k]).1 hrowk
  have hrowlen : m[k].length = W := hm.2 _ (List.getElem_mem hkm)
  have hmk : m.getD k [] = m[k] := by
    rw [List.getD_eq_getElem?_getD, List.getElem?_eq_getElem hkm]; rfl
  have hfk : mf.getD k [] = mf[k] := by
    rw [List.getD_eq_getElem?_getD, List.getElem?_eq_getElem hkf]; rfl
  rw [hmk, hfk, ← middle3_eq_sorted]
  have h0 := hcols i (by simp; omega)
  simp only [List.getElem_range] at h0
  rw [medianFilterAt_interior W m[k] hrowlen hW64 i h1 h2] at h0
  rw [List.getD_eq_getElem?_getD, ← h0]
  rfl

/-- Witness of C26: the middle column of a matrix of two rows and three
columns. -/
theorem medianFilter_interior_is_middle_of_three_witness :
    medianFilter [[-5, 7, 3], [4, 1, 9]] 3 = some [[0, 3, 3], [1, 4, 1]] ∧
      ∃ mf, medianFilter [[-5, 7, 3], [4, 1, 9]] 3 = some mf ∧ mf.HasShape 2 3 ∧
        (mf.getD 1 []).getD 1 0 =
          (List.insertionSort (fun x y => x ≤ y)
            [(([[-5, 7, 3], [4, 1, 9]] : Mat).getD 1 []).getD (1 - 1) 0,
             (([[-5, 7, 3], [4, 1, 9]] : Mat).getD 1 []).getD 1 0,
             (([[-5, 7, 3], [4, 1, 9]] : Mat).getD 1 []).getD (1 + 1) 0]).getD 1 0 :=
  ⟨by decide!,
    medianFilter_interior_is_middle_of_three [[-5, 7, 3], [4, 1, 9]] 2 3 (by decide) (by decide)
      (by decide) 1 1 (by decide) (by decide) (by decide)⟩

/-- A call of `updateInterval` keeps the shape of the end pair: `+inf` in
second place while open, and equal components or `+inf` in second place when
closed. -/
theorem updateInterval_end_shape (I : Interval) (nS : Int) (p pp : ℚ) (f : Int)
    (h1 : I.open_ = true → I.end_.2 = pINF)
    (h2 : I.open_ = false → I.end_.1 = I.end_.2 ∨ I.end_.2 = pINF) :
    ((I.updateInterval nS p pp f).1.open_ = true → (I.updateInterval nS p pp f).1.end_.2 = pINF) ∧
      ((I.updateInterval nS p pp f).1.open_ = false →
        (I.updateInterval nS p pp f).1.end_.1 = (I.updateInterval nS p pp f).1.end_.2 ∨
          (I.updateInterval nS p pp f).1.end_.2 = pINF) := by
  unfold Interval.updateInterval
  by_cases hp : p > 0
  · by_cases ho : I.open_ = false
    · simp [hp, ho, Interval.startInterval]
    · have ho2 : I.open_ = true := by simpa using ho
      have he := h1 ho2
      by_cases hge : p ≥ I.possibility
      · simp [hp, ho2, hge, he]
      · simp only [hp, ho2, hge, if_true, if_false, Bool.true_eq_false]
        split_ifs <;> simp_all [Interval.setEnd]
  · by_cases hc : I.open_ = true ∧ I.refPossibility = 0
    · simp [hp, hc, Interval.setEnd]
    · simp only [hp, hc, if_false]
      exact ⟨h1, h2⟩

/-- A call of `simpleInterval` keeps the shape of the end pair. -/
theorem simpleInterval_end_shape (I : Interval) (nS : Int) (p pp : ℚ)
    (h1 : I.open_ = true → I.end_.2 = pINF)
    (h2 : I.open_ = false → I.end_.1 = I.end_.2 ∨ I.end_.2 = pINF) :
    ((I.simpleInterval nS p pp).1.open_ = true → (I.simpleInterval nS p pp).1.end_.2 = pINF) ∧
      ((I.simpleInterval nS p pp).1.open_ = false →
        (I.simpleInterval nS p pp).1.end_.1 = (I.simpleInterval nS p pp).1.end_.2 ∨
          (I.simpleInterval nS p pp).1.end_.2 = pINF) := by
  unfold Interval.simpleInterval
  by_cases hp : p > 4 / 5
  · by_cases ho : I.open_ = false
    · simp [hp, ho, Interval.startInterval]
    · have ho2 : I.open_ = true := by simpa using ho
      have he := h1 ho2
      by_cases hge : p ≥ I.possibility
      · simp [hp, ho2, hge, he]
      · simp [hp, ho2, hge, he]
  · by_cases ho : I.open_ = true
    · simp [hp, ho, Interval.setEnd]
    · simp only [hp, ho, if_false]
      exact ⟨h1, h2⟩

/-- Every sequence of calls keeps the shape of the end pair. -/
theorem calls_end_shape (cs : List IntervalCall) (I : Interval)
    (h1 : I.open_ = true → I.end_.2 = pINF)
    (h2 : I.open_ = false → I.end_.1 = I.end_.2 ∨ I.end_.2 = pINF) :
    ((I.calls cs).open_ = true → (I.calls cs).end_.2 = pINF) ∧
      ((I.calls cs).open_ = false →
        (I.calls cs).end_.1 = (I.calls cs).end_.2 ∨ (I.calls cs).end_.2 = pINF) := by
  induction cs generalizing I with
  | nil => exact ⟨h1, h2⟩
  | cons c cs ih =>
    have hstep : ((I.call c).open_ = true → (I.call c).end_.2 = pINF) ∧
        ((I.call c).open_ = false →
          (I.call c).end_.1 = (I.call c).end_.2 ∨ (I.call c).end_.2 = pINF) := by
      cases c with
      | update nS p pp f => exact updateInterval_end_shape I nS p pp f h1 h2
      | simple nS p pp => exact simpleInterval_end_shape I nS p pp h1 h2
    exact ih (I.call c) hstep.1 hstep.2

/-- A call of `simpleInterval` that closes an open interval leaves the two
components of the end pair equal. -/
theorem simpleInterval_close_end (I : Interval) (nS : Int) (p pp : ℚ) (ho : I.open_ = true)
    (hc : (I.simpleInterval nS p pp).1.open_ = false) :
    (I.simpleInterval nS p pp).1.end_.1 = (I.simpleInterval nS p pp).1.end_.2 := by
  have hp : ¬ p > 4 / 5 := by
    intro h
    have := (simpleInterval_open I nS p pp).2 h
    rw [hc] at this
    exact absurd this (by decide)
  unfold Interval.simpleInterval
  simp [hp, ho, Interval.setEnd]

/-- A call of `updateInterval` that publishes leaves the interval closed with
the two components of the end pair equal. -/
theorem updateInterval_publish_end (I : Interval) (nS : Int) (p pp : ℚ) (f : Int)
    (hpub : (I.updateInterval nS p pp f).2 ≠ []) :
    (I.updateInterval nS p pp f).1.open_ = false ∧
      (I.updateInterval nS p pp f).1.end_.1 = (I.updateInterval nS p pp f).1.end_.2 := by
  unfold Interval.updateInterval at hpub ⊢
  by_cases hp : p > 0
  · by_cases ho : I.open_ = false
    · simp [hp, ho] at hpub
    · have ho2 : I.open_ = true := by simpa using ho
      by_cases hge : p ≥ I.possibility
      · simp [hp, ho2, hge] at hpub
      · simp only [hp, ho2, hge, if_true, if_false, Bool.true_eq_false] at hpub ⊢
        split_ifs at hpub ⊢ <;> simp_all [Interval.setEnd]
  · by_cases hc : I.open_ = true ∧ I.refPossibility = 0
    · simp [hp, hc, Interval.setEnd]
    · simp [hp, hc] at hpub

/-- Counterexample to C27 as stated: a freshly constructed interval is closed
and its end pair is `(-1, +inf)`, with unequal components; it is still so
after calls that do not activate it, and an interval discarded by the
bell-shape test is closed with the end pair `(0, +inf)`. -/
theorem end_pair_closed_counterexample :
    ((Interval.create "drink").calls []).open_ = false ∧
      ((Interval.create "drink").calls []).end_ = (-1, pINF) ∧
      ((Interval.create "drink").calls
          [IntervalCall.update 0 0 0 0, IntervalCall.simple 1 (1 / 2) 0]).open_ = false ∧
      ((Interval.create "drink").calls
          [IntervalCall.update 0 0 0 0, IntervalCall.simple 1 (1 / 2) 0]).end_ = (-1, pINF) ∧
      ((Interval.create "drink").calls
          [IntervalCall.update 0 (1 / 2) 0 0, IntervalCall.update 1 (1 / 5) (1 / 2) 0,
           IntervalCall.update 2 (3 / 10) (1 / 5) 0]).open_ = false ∧
      ((Interval.create "drink").calls
          [IntervalCall.update 0 (1 / 2) 0 0, IntervalCall.update 1 (1 / 5) (1 / 2) 0,
           IntervalCall.update 2 (3 / 10) (1 / 5) 0]).end_ = (0, pINF) ∧
      (-1 : Int) ≠ pINF ∧ (0 : Int) ≠ pINF := by
  refine ⟨by decide!, by decide!, by decide!, by decide!, by decide!, by decide!, by decide,
    by decide⟩

/-- C27, amended: in every state reachable from a freshly constructed interval
by any sequence of `updateInterval` or `simpleInterval` steps, the second
component of the end pair is `+infinity` (`INT_MAX`) while the interval is
open; when the interval is closed, either its two components are equal or the
second is still `+infinity`. The components are equal after every step of
`simpleInterval` that closes the open interval and after every step of
`updateInterval` that publishes it. -/
theorem end_pair_shape (name : String) (cs : List IntervalCall) :
    (((Interval.create name).calls cs).open_ = true →
        ((Interval.create name).calls cs).end_.2 = pINF) ∧
      (((Interval.create name).calls cs).open_ = false →
        ((Interval.create name).calls cs).end_.1 = ((Interval.create name).calls cs).end_.2 ∨
          ((Interval.create name).calls cs).end_.2 = pINF) ∧
      (∀ (nS : Int) (p pp : ℚ), ((Interval.create name).calls cs).open_ = true →
        (((Interval.create name).calls cs).simpleInterval nS p pp).1.open_ = false →
        (((Interval.create name).calls cs).simpleInterval nS p pp).1.end_.1 =
          (((Interval.create name).calls cs).simpleInterval nS p pp).1.end_.2) ∧
      ∀ (nS : Int) (p pp : ℚ) (f : Int),
        (((Interval.create name).calls cs).updateInterval nS p pp f).2 ≠ [] →
        (((Interval.create name).calls cs).updateInterval nS p pp f).1.open_ = false ∧
          (((Interval.create name).calls cs).updateInterval nS p pp f).1.end_.1 =
            (((Interval.create name).calls cs).updateInterval nS p pp f).1.end_.2 := by
  obtain ⟨h1, h2⟩ := calls_end_shape cs (Interval.create name)
    (fun h => absurd h (by simp [Interval.create]))
    (fun _ => Or.inr rfl)
  exact ⟨h1, h2, fun nS p pp ho hc => simpleInterval_close_end _ nS p pp ho hc,
    fun nS p pp f hpub => updateInterval_publish_end _ nS p pp f hpub⟩

/-- Witness of C27: after two active samples of the accurate policy the
interval is open with the end pair `(1, +inf)`; the return to zero publishes
it and leaves the end pair `(1, 1)`. -/
theorem end_pair_shape_witness :
    ((Interval.create "drink").calls
        [IntervalCall.update 0 (2 / 5) 0 0, IntervalCall.update 1 (3 / 5) (2 / 5) 0]).open_ = true ∧
      ((Interval.create "drink").calls
        [IntervalCall.update 0 (2 / 5) 0 0, IntervalCall.update 1 (3 / 5) (2 / 5) 0]).end_.2 = pINF ∧
      ((Interval.create "drink").calls
        [IntervalCall.update 0 (2 / 5) 0 0, IntervalCall.update 1 (3 / 5) (2 / 5) 0,
         IntervalCall.update 2 0 (3 / 5) 0]).end_ = (1, 1) :=
  ⟨by decide!,
    (end_pair_shape "drink"
      [IntervalCall.update 0 (2 / 5) 0 0, IntervalCall.update 1 (3 / 5) (2 / 5) 0]).1 (by decide!),
    by decide!⟩

/-- A single sample above `0.8`, on a closed interval and followed by a sample
at or below `0.8`, leaves the interval closed with `start = (nS, nS)` and
`end = (0, 0)`: `startInterval` writes `end[0] = 0` and no later sample moves
it. -/
theorem simpleInterval_single_sample (I : Interval) (nS : Int) (p pp z : ℚ)
    (hclosed : I.open_ = false) (hp : p > 4 / 5) (hz : z ≤ 4 / 5) :
    ((I.simpleInterval nS p pp).1.simpleInterval (nS + 1) z p).1 =
      { I with open_ := false, start := (nS, nS), end_ := (0, 0), possibility := p,
               refPossibility := pp, risingTime := 1 } := by
  have hz2 : ¬ z > 4 / 5 := not_lt.2 hz
  simp [Interval.simpleInterval, hp, hclosed, hz2, Interval.startInterval, Interval.setEnd]

/-- C28 on the code: on the stream `0.5, 0.9, 0.5` samples 0, 1, 2 the simple
policy opens the interval at sample 1 and closes it at sample 2 with
`start = (1,1)` and `end = (0,0)`: the recorded end index is smaller than the
recorded start index. -/
theorem simple_policy_single_sample_end_before_start :
    (onlineTracking (SensingBracelet.create ["drink"]) 0
        [[1 / 2], [9 / 10], [1 / 2]]).sb.setI =
      [{ HMPname := "drink", open_ := false, start := (1, 1), end_ := (0, 0),
         possibility := 9 / 10, refPossibility := 1 / 2, risingTime := 1 }] ∧
      ((0 : Int) < 1) := by
  refine ⟨by decide!, by decide⟩

/-- Writing back the entry that a list holds at a position leaves the list as
it is. -/
theorem set_getElem?_self {α : Type} (l : List α) (i : Nat) (a : α) (h : l[i]? = some a) :
    l.set i a = l := by
  apply List.ext_getElem?
  intro j
  rw [List.getElem?_set]
  by_cases hij : i = j
  · subst hij
    have hlt : i < l.length := (List.getElem?_eq_some.1 h).1
    simp [hlt, h]
  · simp [hij]

/-- C29: under the accurate policy, for every open interval whose
`ref_possibility` is not 0, a sample with `p <= 0` leaves the whole interval
state unchanged and publishes nothing; the same step leaves every other
model's interval unchanged: the bracelet after the call is the bracelet
before it. -/
theorem inactive_sample_keeps_open_interval (sb : SensingBracelet) (i : Nat) (I : Interval)
    (nS : Int) (p pp : ℚ) (f : Int) (hI : sb.setI[i]? = some I) (hopen : I.open_ = true)
    (href : I.refPossibility ≠ 0) (hp : p ≤ 0) :
    I.updateInterval nS p pp f = (I, []) ∧ (I.updateInterval nS p pp f).1.open_ = true ∧
      sb.updateInterval (i : Int) nS p pp f = (sb, []) := by
  have hp2 : ¬ p > 0 := not_lt.2 hp
  have hc : ¬ (I.open_ = true ∧ I.refPossibility = 0) := fun h => href h.2
  have hcall : I.updateInterval nS p pp f = (I, []) := by
    unfold Interval.updateInterval
    rw [if_neg hp2, if_neg hc]
  refine ⟨hcall, by rw [hcall]; exact hopen, ?_⟩
  unfold SensingBracelet.updateInterval SensingBracelet.atModel
  rw [Int.toNat_ofNat, hI]
  simp only [hcall, set_getElem?_self sb.setI i I hI]

/-- Witness of C29: three models, the second one open with the reference
`0.3`; a null sample of the second model changes nothing. -/
theorem inactive_sample_keeps_open_interval_witness :
    (offlineLoop (SensingBracelet.create ["drink", "climb", "sit"])
        [[0, 1 / 2, 0], [0, 1 / 5, 0], [2 / 5, 3 / 10, 0], [3 / 5, 2 / 5, 0]]).sb.setI[1]? =
      some { HMPname := "climb", open_ := true, start := (3, 3), end_ := (0, pINF),
             possibility := 2 / 5, refPossibility := 3 / 10, risingTime := 1 } ∧
      (offlineLoop (SensingBracelet.create ["drink", "climb", "sit"])
        [[0, 1 / 2, 0], [0, 1 / 5, 0], [2 / 5, 3 / 10, 0], [3 / 5, 2 / 5, 0]]).sb.updateInterval
          ((1 : Nat) : Int) 4 0 (2 / 5) 0 =
      ((offlineLoop (SensingBracelet.create ["drink", "climb", "sit"])
        [[0, 1 / 2, 0], [0, 1 / 5, 0], [2 / 5, 3 / 10, 0], [3 / 5, 2 / 5, 0]]).sb, []) :=
  ⟨by decide!,
    (inactive_sample_keeps_open_interval
      (offlineLoop (SensingBracelet.create ["drink", "climb", "sit"])
        [[0, 1 / 2, 0], [0, 1 / 5, 0], [2 / 5, 3 / 10, 0], [3 / 5, 2 / 5, 0]]).sb 1
      { HMPname := "climb", open_ := true, start := (3, 3), end_ := (0, pINF),
        possibility := 2 / 5, refPossibility := 3 / 10, risingTime := 1 }
      4 0 (2 / 5) 0 (by decide!) rfl (by norm_num) (le_refl 0)).2.2⟩

/-- The model of scenario S2 satisfies the invariant of the data model. -/
theorem scenarioModel_wellFormed : scenarioModel.WellFormed 3 := by
  refine ⟨by decide, by decide, by decide, by decide, by decide, ?_, ?_⟩
  · intro s hs
    have : s = identity3 := by
      simp only [scenarioModel, DYmodel.build, List.mem_cons, List.mem_singleton,
        List.not_mem_nil, or_false, or_self] at hs
      exact hs
    exact this ▸ identity3_inv.1
  · intro s hs
    have : s = identity3 := by
      simp only [scenarioModel, DYmodel.build, List.mem_cons, List.mem_singleton,
        List.not_mem_nil, or_false, or_self] at hs
      exact hs
    exact this ▸ identity3_inv.1

/-- C30: for every model satisfying the data-model invariant (gravity and
body means of 4 rows and `L` columns, both covariance cubes of `L` slices of
invertible `3 x 3` matrices) and every pair of `W x 3` gravity and body
windows with `1 <= L <= W`, every row, column and slice access performed by
`compareOne` and `mahalanobisDist` is within bounds and every matrix
inversion is defined: the two views of the windows, the two reference
matrices, every slice and its inverse, every call of `mahalanobisDist` and
`compareOne` itself return. -/
theorem compareOne_error_branch_unreachable (M : DYmodel) (L W : Nat) (g b : Mat)
    (hL : 1 ≤ L) (hLW : L ≤ W) (hM : M.WellFormed L)
    (hg : g.HasShape W 3) (hb : b.HasShape W 3) :
    ∃ (gw bw rG rB : Mat) (d : ℚ),
      g.rows 0 (M.size - 1) = some gw ∧ b.rows 0 (M.size - 1) = some bw ∧
      referenceRows M.gP = some rG ∧ referenceRows M.bP = some rB ∧
      (∀ i, i < M.gS.length →
        (∃ s inv, M.gS[i]? = some s ∧ s.i = some inv) ∧
        (∃ s inv, M.bS[i]? = some s ∧ s.i = some inv) ∧
        (∃ dg, mahalanobisDist i gw.t rG M.gS = some dg) ∧
        (∃ db, mahalanobisDist i bw.t rB M.bS = some db)) ∧
      compareOne g b M = some d := by
  obtain ⟨hsize, hgP, hbP, hgS, hbS, hgi, hbi⟩ := hM
  have hrg : g.rows 0 (M.size - 1) = some (g.take L) := by
    rw [hsize]
    exact Mat.rows_eq_take g L hL (by rw [hg.1]; exact hLW)
  have hrb : b.rows 0 (M.size - 1) = some (b.take L) := by
    rw [hsize]
    exact Mat.rows_eq_take b L hL (by rw [hb.1]; exact hLW)
  refine ⟨g.take L, b.take L, _, _, _, hrg, hrb, referenceRows_eq hgP, referenceRows_eq hbP,
    ?_, compareOne_eq M L W g b hL hLW ⟨hsize, hgP, hbP, hgS, hbS, hgi, hbi⟩ hg hb⟩
  intro i hi
  have hiL : i < L := by rw [← hgS]; exact hi
  have hib : i < M.bS.length := by rw [hbS]; exact hiL
  obtain ⟨invg, hinvg, _⟩ := Mat.i_of_invertible (hgi _ (List.getElem_mem hi))
  obtain ⟨invb, hinvb, _⟩ := Mat.i_of_invertible (hbi _ (List.getElem_mem hib))
  exact ⟨⟨_, invg, List.getElem?_eq_getElem hi, hinvg⟩,
    ⟨_, invb, List.getElem?_eq_getElem hib, hinvb⟩,
    ⟨_, mahalanobisDist_term hLW hg hgP hgS hgi i hiL⟩,
    ⟨_, mahalanobisDist_term hLW hb hbP hbS hbi i hiL⟩⟩

/-- Witness of C30: the model of scenario S2 (`L = 3`) on windows of three
rows. -/
theorem compareOne_error_branch_unreachable_witness :
    scenarioModel.WellFormed 3 ∧ offsetWindow.HasShape 3 3 ∧
      compareOne offsetWindow offsetWindow scenarioModel = some 3 ∧
      ∃ (gw bw rG rB : Mat) (d : ℚ),
        offsetWindow.rows 0 (scenarioModel.size - 1) = some gw ∧
        offsetWindow.rows 0 (scenarioModel.size - 1) = some bw ∧
        referenceRows scenarioModel.gP = some rG ∧ referenceRows scenarioModel.bP = some rB ∧
        (∀ i, i < scenarioModel.gS.length →
          (∃ s inv, scenarioModel.gS[i]? = some s ∧ s.i = some inv) ∧
          (∃ s inv, scenarioModel.bS[i]? = some s ∧ s.i = some inv) ∧
          (∃ dg, mahalanobisDist i gw.t rG scenarioModel.gS = some dg) ∧
          (∃ db, mahalanobisDist i bw.t rB scenarioModel.bS = some db)) ∧
        compareOne offsetWindow offsetWindow scenarioModel = some d :=
  ⟨scenarioModel_wellFormed, by decide, by decide!,
    compareOne_error_branch_unreachable scenarioModel 3 3 offsetWindow offsetWindow (by decide)
      (by decide) scenarioModel_wellFormed (by decide) (by decide)⟩

end HMP
